import Mathlib

/-!
# Index arithmetic of `merlin` (`include/index.h`)

A shallow embedding of the three cursors of `index.h` (`subindex`,
`superindex`, `permute_index`) and proofs of their contract.

Conventions of the embedding:

* `size_t` / `vsize` values are natural numbers; every `+`, `-`, `*` of the
  source on such a value is the wrapping operation `wadd`, `wsub`, `wmul`
  modulo `2 ^ 64`.
* C arrays and `std::vector`s are lists; a loop `for (i = 0; i < n; ++i)` that
  walks arrays in step is a recursion on those lists, the position `i` being
  the number of elements already consumed.
* The cursor `j` into `sub` of the two constructors is carried as the unread
  part `sub[j..]` of `sub`.
* Array lengths and positions are natural numbers. The source subtracts on
  positions only where no wrap can occur: `m_ns - 1` inside a loop body
  guarded by `i < m_ns`, and `order.size() - 1 - j` with `j < order.size()`;
  the read `m_add[m_ns - 1]` of an empty array is out of range either way.
* An array read out of range and a division by zero are undefined in the
  source. `superindex.new`, `permute_index.new_checked` and
  `permute_index.inverse_checked` report them as `none`. The total functions
  `permute_index.new`, `convert` and `inverse` are the source on pairwise
  distinct variables with domain sizes that are not 0, where neither occurs;
  the theorems about them carry those hypotheses, and
  `new_checked_of_distinct`, `inverse_checked_eq` relate the two.
-/

namespace merlin

/-! ## Machine words -/

/-- Number of values of a `size_t`. -/
def wordSize : Nat := 2 ^ 64

/-- Unsigned wrapping addition. -/
def wadd (a b : Nat) : Nat := (a + b) % wordSize

/-- Unsigned wrapping subtraction. -/
def wsub (a b : Nat) : Nat := (a + wordSize - b % wordSize) % wordSize

/-- Unsigned wrapping multiplication. -/
def wmul (a b : Nat) : Nat := (a * b) % wordSize

/-! ## Variables and variable sets (external collaborators) -/

/-- Modelled from the spec: the class `variable` (here `Variable`, the
lower-case word being reserved) is not part of `index.h`; a variable is an
identifier together with a domain size (`states()`). -/
structure Variable where
  label : Nat
  states : Nat
deriving DecidableEq, Repr

/-- Modelled from the spec: `variable::operator==` is not part of `index.h`;
equality of variables is identity based, it compares the identifiers. -/
def Variable.eq (a b : Variable) : Bool := a.label == b.label

/-- Modelled from the spec: the class `variable_set` is not part of `index.h`;
a variable set is a sequence of variables, and a well-formed one is
`canonical`. -/
abbrev variable_set := List Variable

/-- Modelled from the spec: the invariant of `variable_set` (class not part of
`index.h`): duplicate free and sorted by identifier. -/
def variable_set.canonical (vs : variable_set) : Prop :=
  vs.Pairwise (fun a b => a.label < b.label)

instance (vs : variable_set) : Decidable (variable_set.canonical vs) := by
  unfold variable_set.canonical; infer_instance

/-- Modelled from the spec: `variable_set::operator>>` is not part of
`index.h`; `full >> sub` holds iff every variable of `sub` appears in `full`,
in the same relative order. -/
def variable_set.contains (full sub : variable_set) : Prop := sub.Sublist full

instance (full sub : variable_set) : Decidable (variable_set.contains full sub) := by
  unfold variable_set.contains; infer_instance

/-- Modelled from the spec: `variable_set::dims` is not part of `index.h`; the
domain sizes in canonical order. -/
def variable_set.dims (vs : variable_set) : List Nat := vs.map Variable.states

/-- Modelled from the spec: `variable_set::num_states` is not part of
`index.h`; the product of all domain sizes. -/
def variable_set.num_states (vs : variable_set) : Nat := vs.dims.prod

/-- Modelled from the spec: `variable_set::nvar` is not part of `index.h`. -/
def variable_set.nvar (vs : variable_set) : Nat := vs.length

/-- Modelled from the spec: membership of a variable in a collection (by
identity), used to say that a position of `full` belongs to `sub`. -/
def variable_set.mem (vs : variable_set) (v : Variable) : Bool :=
  vs.any (fun w => Variable.eq w v)

/-- Modelled from the spec: the `variable_set` constructor from a range of
variables is not part of `index.h`; sorted insertion by identifier that drops
a variable whose identifier is already present. -/
def variable_set.insert (v : Variable) : List Variable → List Variable
  | [] => [v]
  | w :: ws =>
    if v.label < w.label then v :: w :: ws
    else if v.label = w.label then w :: ws
    else w :: variable_set.insert v ws

/-- Modelled from the spec: the canonical collection implied by a sequence of
variables (the `variable_set` constructor, not part of `index.h`). -/
def variable_set.ofList (l : List Variable) : variable_set :=
  l.foldr variable_set.insert []

/-! ## `subindex` -/

/-- The fields of `class subindex`. -/
structure subindex where
  m_idx : Nat
  m_end : Nat
  m_nd : Nat
  m_state : List Nat
  m_dims : List Nat
  m_skipped : List Bool
  m_add : List Nat
  m_subtract : List Nat
deriving DecidableEq, Repr

/-- What the loop of the `subindex` constructor fills in. -/
structure subindex.arrays where
  state : List Nat
  skipped : List Bool
  add : List Nat
  subtract : List Nat
  m_end : Nat
deriving DecidableEq, Repr

/-- The loop of the `subindex` constructor from position `i` on: the first
argument is `full[i..]`, the second is `sub[j..]`, `add` is the value of
`m_add[i]` (1 when `i == 0`, else `m_add[i-1] * (m_skipped[i-1] ? 1 :
m_dims[i-1])`) and `e` the running `m_end`. -/
def subindex.loop : List Variable → List Variable → Nat → Nat → subindex.arrays
  | [], _, _, e => ⟨[], [], [], [], e⟩
  | f :: fs, sub, add, e =>
    let skipped : Bool :=
      match sub with
      | [] => true
      | s :: _ => !(Variable.eq s f)
    let subtract := wmul add (wsub (if skipped then 1 else f.states) 1)
    let r := subindex.loop fs (if skipped then sub else sub.tail)
      (wmul add (if skipped then 1 else f.states)) (wmul e f.states)
    ⟨1 :: r.state, skipped :: r.skipped, add :: r.add, subtract :: r.subtract, r.m_end⟩

/-- `subindex::subindex(full, sub)`. -/
def subindex.new (full sub : variable_set) : subindex :=
  let r := subindex.loop full sub 1 1
  { m_idx := 0
    m_end := r.m_end
    m_nd := full.nvar
    m_state := r.state
    m_dims := full.dims
    m_skipped := r.skipped
    m_add := r.add
    m_subtract := r.subtract }

/-- `subindex::reset`. -/
def subindex.reset (s : subindex) : subindex :=
  { s with m_state := s.m_state.map (fun _ => 1), m_idx := 0 }

/-- `subindex::end`. -/
def subindex.end_ (s : subindex) : Nat := s.m_end

/-- The loop of `subindex::operator++` from position `i` on; the arguments are
`m_state[i..]`, `m_dims[i..]`, `m_skipped[i..]`, `m_add[i..]`,
`m_subtract[i..]` and the current `m_idx`; the result is the new
`m_state[i..]` and the new `m_idx`. -/
def subindex.incr_loop :
    List Nat → List Nat → List Bool → List Nat → List Nat → Nat → List Nat × Nat
  | st :: sts, d :: ds, sk :: sks, a :: as, sb :: sbs, idx =>
    if st = d then
      let r := subindex.incr_loop sts ds sks as sbs (if sk then idx else wsub idx sb)
      (1 :: r.1, r.2)
    else
      (wadd st 1 :: sts, if sk then idx else wadd idx a)
  | sts, _, _, _, _, idx => (sts, idx)

/-- `subindex::operator++` (prefix). -/
def subindex.incr (s : subindex) : subindex :=
  let r := subindex.incr_loop s.m_state s.m_dims s.m_skipped s.m_add s.m_subtract s.m_idx
  { s with m_state := r.1, m_idx := r.2 }

/-- `subindex::operator size_t`. -/
def subindex.toIndex (s : subindex) : Nat := s.m_idx

/-- Linear index of a configuration given as 1-based digits paired with their
domain sizes: `Σ (digit[i] - 1) * stride[i]`, `stride[0]` being the first
argument and `stride[i] = stride[i-1] * dims[i-1]`. -/
def linear_index : Nat → List (Nat × Nat) → Nat
  | _, [] => 0
  | stride, (x, d) :: r => (x - 1) * stride + linear_index (stride * d) r

/-- The configuration of `sub` read off a configuration `state` of `full`: the
digits (with their domain sizes) at the positions of `full` that belong to
`sub`. -/
def sub_config (full sub : variable_set) (state : List Nat) : List (Nat × Nat) :=
  ((full.zip state).filter (fun p => sub.mem p.1)).map (fun p => (p.2, p.1.states))

/-! ## `superindex` -/

/-- The fields of `class superindex`. -/
structure superindex where
  m_idx : Nat
  m_end : Nat
  m_ns : Nat
  m_state : List Nat
  m_dims : List Nat
  m_add : List Nat
deriving DecidableEq, Repr

/-- The loop of the `superindex` constructor from position `i` on: the first
argument is `full[i..]`, the second is `sub[j..]`, `d` is the running product
of `dimf`. The result is `(m_state[j..], m_add[j..])`, or `none` when the loop
reads `full[i]` past the end of `full`. -/
def superindex.loop : List Variable → List Variable → Nat → Option (List Nat × List Nat)
  | _, [], _ => some ([], [])
  | [], _ :: _, _ => none
  | f :: fs, s :: ss, d =>
    if Variable.eq f s then
      (superindex.loop fs ss (wmul d f.states)).map (fun r => (1 :: r.1, d :: r.2))
    else
      superindex.loop fs (s :: ss) (wmul d f.states)

/-- `superindex::superindex(full, sub, offset)`; `none` when the constructor
reads an array out of range. -/
def superindex.new (full sub : variable_set) (offset : Nat) : Option superindex :=
  match superindex.loop full sub 1 with
  | none => none
  | some (st, add) =>
    match add[sub.nvar - 1]?, sub.dims[sub.nvar - 1]? with
    | some a, some d =>
      some { m_idx := offset
             m_end := wadd (wmul a d) offset
             m_ns := sub.nvar
             m_state := st
             m_dims := sub.dims
             m_add := add }
    | _, _ => none

/-- `superindex::reset`. -/
def superindex.reset (s : superindex) : superindex :=
  { s with m_state := s.m_state.map (fun _ => 1), m_idx := 0 }

/-- `superindex::end`. -/
def superindex.end_ (s : superindex) : Nat := s.m_end

/-- The loop of `superindex::operator++` from position `i` on, for a cursor of
`ns` digits; the list arguments are `m_state[i..]`, `m_dims[i..]`,
`m_add[i..]`, the last one is the current `m_idx`; the result is the new
`m_state[i..]` and the new `m_idx`. -/
def superindex.incr_loop (ns : Nat) :
    Nat → List Nat → List Nat → List Nat → Nat → List Nat × Nat
  | i, st :: sts, d :: ds, a :: as, idx =>
    if st = d ∧ i < ns - 1 then
      let r := superindex.incr_loop ns (i + 1) sts ds as (wsub idx (wmul a (wsub d 1)))
      (1 :: r.1, r.2)
    else
      (wadd st 1 :: sts, wadd idx a)
  | _, sts, _, _, idx => (sts, idx)

/-- `superindex::operator++` (prefix). -/
def superindex.incr (s : superindex) : superindex :=
  let r := superindex.incr_loop s.m_ns 0 s.m_state s.m_dims s.m_add s.m_idx
  { s with m_state := r.1, m_idx := r.2 }

/-- `superindex::operator size_t`. -/
def superindex.toIndex (s : superindex) : Nat := s.m_idx

/-- Number of digits that one `superindex::operator++` resets: the number of
iterations of its loop that take the wrap branch. -/
def superindex.resets (ns : Nat) : Nat → List Nat → List Nat → Nat
  | i, st :: sts, d :: ds =>
    if st = d ∧ i < ns - 1 then superindex.resets ns (i + 1) sts ds + 1 else 0
  | _, _, _ => 0

/-- The `j`-th mixed-radix digit of `k` over `dims`:
`(k / Π_{j' < j} dims[j']) mod dims[j]`. -/
def radix_digit (dims : List Nat) (k j : Nat) : Nat :=
  (k / (dims.take j).prod) % dims.getD j 1

/-- Stride of the variable `v` in the linear index of `full`: the product of
the domain sizes of the variables of `full` that precede `v`. -/
def stride_full (full : variable_set) (v : Variable) : Nat :=
  ((full.takeWhile (fun w => !(Variable.eq w v))).map Variable.states).prod

/-! ## `permute_index` -/

/-- The fields of `class permute_index`. -/
structure permute_index where
  m_i : Nat
  m_pi : List Nat
  m_dim : List Nat
deriving DecidableEq, Repr

/-- The inner loop of the `permute_index` constructor: the first `k` with
`_vs[k] == v`, from position `k` on (the list is `_vs[k..]`). -/
def permute_index.find (v : Variable) : List Variable → Nat → Option Nat
  | [], _ => none
  | w :: ws, k => if Variable.eq w v then some k else permute_index.find v ws (k + 1)

/-- `permute_index::permute_index(order, big_endian)` on an `order` of pairwise
distinct variables, where every read of `_vs` is in range. On an `order` with a
repeated variable the source reads `_vs[j]` past the end of the canonical
collection; that case is `permute_index.new_checked`, which agrees with this
function whenever no read is out of range. -/
def permute_index.new (order : List Variable) (big_endian : Bool) : permute_index :=
  let vs := variable_set.ofList order
  let size := order.length
  let dim := (List.range size).map (fun j => (vs.getD j ⟨0, 0⟩).states)
  let pi := (List.range size).foldl
    (fun (pi : List Nat) j =>
      let jj := if big_endian then size - 1 - j else j
      match permute_index.find (order.getD j ⟨0, 0⟩) vs 0 with
      | some k => pi.set jj k
      | none => pi)
    (List.replicate size 0)
  { m_i := 0, m_pi := pi, m_dim := dim }

/-- First loop of the `permute_index` constructor with its reads checked:
`m_dim[j] = _vs[j].states()` for the positions `j` of the list; `none` when
`_vs[j]` is read past the end of `_vs`. -/
def permute_index.read_dims (vs : variable_set) : List Nat → Option (List Nat)
  | [] => some []
  | j :: js =>
    match vs[j]? with
    | none => none
    | some v => (permute_index.read_dims vs js).map (fun r => v.states :: r)

/-- Inner loop of the `permute_index` constructor with its reads checked, over
the positions `k` of the list: `none` when `_vs[k]` is read past the end of
`_vs`, `some none` when no position matches, `some (some k)` at the first
match. -/
def permute_index.find_checked (v : Variable) (vs : variable_set) :
    List Nat → Option (Option Nat)
  | [] => some none
  | k :: ks =>
    match vs[k]? with
    | none => none
    | some w =>
      if Variable.eq w v then some (some k) else permute_index.find_checked v vs ks

/-- Second loop of the `permute_index` constructor with its reads checked, over
the positions `j` of the list, `pi` being the current `m_pi`. -/
def permute_index.fill_checked (order : List Variable) (vs : variable_set)
    (big_endian : Bool) : List Nat → List Nat → Option (List Nat)
  | [], pi => some pi
  | j :: js, pi =>
    match order[j]? with
    | none => none
    | some v =>
      match permute_index.find_checked v vs (List.range order.length) with
      | none => none
      | some (some k) =>
        permute_index.fill_checked order vs big_endian js
          (pi.set (if big_endian then order.length - 1 - j else j) k)
      | some none => permute_index.fill_checked order vs big_endian js pi

/-- `permute_index::permute_index(order, big_endian)` for any `order`; `none`
when the constructor reads an array out of range. -/
def permute_index.new_checked (order : List Variable) (big_endian : Bool) :
    Option permute_index :=
  let vs := variable_set.ofList order
  let size := order.length
  match permute_index.read_dims vs (List.range size) with
  | none => none
  | some dim =>
    match permute_index.fill_checked order vs big_endian (List.range size)
        (List.replicate size 0) with
    | none => none
    | some pi => some { m_i := 0, m_pi := pi, m_dim := dim }

/-- `permute_index::set`. -/
def permute_index.set (p : permute_index) (i : Nat) : permute_index :=
  { p with m_i := i }

/-- First loop of `permute_index::convert`: the digits `I[v..]` of `i` over
`m_dim[v..]`, for domain sizes that are not 0. With a domain size of 0 the
source divides by zero; that case is `permute_index.decompose_checked`, which
agrees with this function whenever no size is 0. -/
def permute_index.decompose : List Nat → Nat → List Nat
  | [], _ => []
  | d :: ds, i => (i % d) :: permute_index.decompose ds (wsub i (i % d) / d)

/-- Second loop of `permute_index::convert`, from position `j` on: the list is
`m_pi[j..]`, `r` and `m` are the running result and stride. -/
def permute_index.recompose (dim I : List Nat) : List Nat → Nat → Nat → Nat
  | [], r, _ => r
  | p :: ps, r, m =>
    permute_index.recompose dim I ps (wadd r (wmul m (I.getD p 0))) (wmul m (dim.getD p 0))

/-- `permute_index::convert`. -/
def permute_index.convert (p : permute_index) (i : Nat) : Nat :=
  permute_index.recompose p.m_dim (permute_index.decompose p.m_dim i) p.m_pi 0 1

/-- `permute_index::operator size_t`. -/
def permute_index.toIndex (p : permute_index) : Nat := p.convert p.m_i

/-- `permute_index::inverse`. -/
def permute_index.inverse (p : permute_index) : permute_index :=
  let inv := (List.range p.m_pi.length).foldl
    (fun (inv : permute_index) i =>
      { inv with
        m_pi := inv.m_pi.set (p.m_pi.getD i 0) i
        m_dim := inv.m_dim.set i (p.m_dim.getD (p.m_pi.getD i 0) 0) })
    p
  { inv with m_i := p.toIndex }

/-- First loop of `permute_index::convert` with its divisions checked: `none`
when `i % m_dim[v]` or `i /= m_dim[v]` divides by zero. -/
def permute_index.decompose_checked : List Nat → Nat → Option (List Nat)
  | [], _ => some []
  | d :: ds, i =>
    if d = 0 then none
    else (permute_index.decompose_checked ds (wsub i (i % d) / d)).map (fun r => (i % d) :: r)

/-- `permute_index::convert` with its divisions checked. -/
def permute_index.convert_checked (p : permute_index) (i : Nat) : Option Nat :=
  (permute_index.decompose_checked p.m_dim i).map
    (fun I => permute_index.recompose p.m_dim I p.m_pi 0 1)

/-- `permute_index::inverse` with the divisions of its `convert` checked:
`none` when `(size_t) *this` divides by zero, in which case no cursor is
returned. -/
def permute_index.inverse_checked (p : permute_index) : Option permute_index :=
  let inv := (List.range p.m_pi.length).foldl
    (fun (inv : permute_index) i =>
      { inv with
        m_pi := inv.m_pi.set (p.m_pi.getD i 0) i
        m_dim := inv.m_dim.set i (p.m_dim.getD (p.m_pi.getD i 0) 0) })
    p
  (p.convert_checked p.m_i).map (fun c => { inv with m_i := c })

/-- `permute_index::operator++`. -/
def permute_index.incr (p : permute_index) : permute_index :=
  { p with m_i := wadd p.m_i 1 }

/-- `permute_index::operator--`. -/
def permute_index.decr (p : permute_index) : permute_index :=
  { p with m_i := wsub p.m_i 1 }

/-! ## Reference functions used to state and prove the contract -/

/-- Mixed-radix digits (0-based, least significant first) of `k` over `dims`;
the digits of `k` and of `k + Π dims` coincide. -/
def digits : List Nat → Nat → List Nat
  | [], _ => []
  | d :: ds, k => (k % d) :: digits ds (k / d)

/-- The 1-based digit state that represents `k` over `dims`. -/
def state_of (dims : List Nat) (k : Nat) : List Nat := (digits dims k).map (· + 1)

/-- Exact (unbounded) value of the index tracked by a `subindex` whose counter
stands at `k`, computed along the matching of `subindex.loop`. -/
def subindex.proj : List Variable → List Variable → Nat → Nat → Nat
  | [], _, _, _ => 0
  | f :: fs, sub, a, k =>
    let skipped : Bool :=
      match sub with
      | [] => true
      | s :: _ => !(Variable.eq s f)
    if skipped then subindex.proj fs sub a (k / f.states)
    else (k % f.states) * a + subindex.proj fs sub.tail (a * f.states) (k / f.states)

/-- Exact strides computed by the loop of the `superindex` constructor: the
recursion of `superindex.loop` with unbounded multiplication. -/
def superindex.strides : List Variable → List Variable → Nat → List Nat
  | _, [], _ => []
  | [], _ :: _, _ => []
  | f :: fs, s :: ss, d =>
    if Variable.eq f s then d :: superindex.strides fs ss (d * f.states)
    else superindex.strides fs (s :: ss) (d * f.states)

/-- The digit state of a `superindex` whose counter stands at `k`: mixed-radix
digits of `k` (1-based), the last digit not being reduced. -/
def superindex.state_at : List Nat → Nat → List Nat
  | [], _ => []
  | d :: ds, k => ((if ds.isEmpty then k else k % d) + 1) :: superindex.state_at ds (k / d)

/-- Exact value, relative to the offset, of the index of a `superindex` whose
counter stands at `k`, over domain sizes `dims` and strides `adds`. -/
def superindex.val : List Nat → List Nat → Nat → Nat
  | [], _, _ => 0
  | _ :: _, [], _ => 0
  | d :: ds, a :: as, k => (if ds.isEmpty then k else k % d) * a + superindex.val ds as (k / d)

/-- The product `add[last] * dims[last]`. -/
def superindex.last_span : List Nat → List Nat → Nat
  | [], _ => 0
  | _ :: _, [] => 0
  | d :: ds, a :: as => if ds.isEmpty then a * d else superindex.last_span ds as

/-- Strides that grow at least as fast as the digits they carry:
`lo ≤ add[0]`, `add[j] * dims[j] ≤ add[j+1]` and `add[last] * dims[last] ≤ hi`. -/
def superindex.strides_ok : Nat → List Nat → List Nat → Nat → Prop
  | lo, [], [], hi => lo ≤ hi
  | lo, d :: ds, a :: as, hi => lo ≤ a ∧ superindex.strides_ok (a * d) ds as hi
  | _, _, _, _ => False

/-- Value of the digits `xs` over the domain sizes `dims`, least significant
first: `Σ xs[j] * Π_{j' < j} dims[j']`, in nested form. -/
def compose : List Nat → List Nat → Nat
  | d :: ds, x :: xs => x + d * compose ds xs
  | _, _ => 0

/-- Well-formed `permute_index`: `m_pi` is a permutation of the positions of
`m_dim`, the domain sizes are positive and their product fits a `size_t`. -/
def permute_index.wf (p : permute_index) : Prop :=
  p.m_pi.Perm (List.range p.m_dim.length) ∧ (∀ d ∈ p.m_dim, 1 ≤ d) ∧
    p.m_dim.prod < wordSize

/-- The variables of `order` are pairwise distinct. -/
def distinct (order : List Variable) : Prop :=
  order.Pairwise (fun a b => a.label ≠ b.label)

instance (order : List Variable) : Decidable (distinct order) := by
  unfold distinct; infer_instance

/-- Canonical position of the variable `v` in the collection `vs`, as found by
the search loop of the `permute_index` constructor (0 when `v` is absent). -/
def permute_index.pos (vs : variable_set) (v : Variable) : Nat :=
  (permute_index.find v vs 0).getD 0

/-- Whether every subtraction `m_idx -= m_subtract[i]` of one
`subindex::operator++` stays within the unsigned range: the loop of
`subindex.incr_loop`, checking `m_subtract[i] <= m_idx` wherever it subtracts. -/
def subindex.no_underflow :
    List Nat → List Nat → List Bool → List Nat → List Nat → Nat → Bool
  | st :: sts, d :: ds, sk :: sks, _ :: as, sb :: sbs, idx =>
    if st = d then
      (sk || decide (sb ≤ idx)) &&
        subindex.no_underflow sts ds sks as sbs (if sk then idx else wsub idx sb)
    else true
  | _, _, _, _, _, _ => true

/-- The check `subindex.no_underflow` for the next `operator++` of a cursor. -/
def subindex.incr_no_underflow (s : subindex) : Bool :=
  subindex.no_underflow s.m_state s.m_dims s.m_skipped s.m_add s.m_subtract s.m_idx

/-- Number of digit positions that one `subindex::operator++` examines: the
number of iterations of its loop, for `m_state[i..]` and `m_dims[i..]`. -/
def subindex.examined : List Nat → List Nat → Nat
  | st :: sts, d :: ds => if st = d then 1 + subindex.examined sts ds else 1
  | _, _ => 0

/-- Total number of digit positions examined by the `end()` increments of one
full pass from the constructed state. -/
def subindex.pass_cost (full sub : variable_set) : Nat :=
  Finset.sum (Finset.range (subindex.new full sub).end_)
    (fun k => subindex.examined (subindex.incr^[k] (subindex.new full sub)).m_state
      (subindex.new full sub).m_dims)

/-! ## Machine words: exactness below the word size -/

theorem wadd_eq {a b : Nat} (h : a + b < wordSize) : wadd a b = a + b :=
  Nat.mod_eq_of_lt h

theorem wmul_eq {a b : Nat} (h : a * b < wordSize) : wmul a b = a * b :=
  Nat.mod_eq_of_lt h

theorem wsub_eq {a b : Nat} (hb : b ≤ a) (ha : a < wordSize) : wsub a b = a - b := by
  unfold wsub
  have hb' : b < wordSize := lt_of_le_of_lt hb ha
  rw [Nat.mod_eq_of_lt hb']
  have h : a + wordSize - b = (a - b) + wordSize := by omega
  rw [h, Nat.add_mod_right, Nat.mod_eq_of_lt]
  omega

theorem wordSize_pos : 0 < wordSize := by unfold wordSize; positivity

/-! ## Mixed-radix counting -/

theorem succ_mod_of_wrap {k d : Nat} (hd : 1 ≤ d) (h : k % d + 1 = d) :
    (k + 1) % d = 0 ∧ (k + 1) / d = k / d + 1 := by
  have h1 : k + 1 = d * (k / d + 1) := by
    have := Nat.div_add_mod k d
    rw [Nat.mul_add]; omega
  constructor
  · rw [h1]; exact Nat.mul_mod_right _ _
  · rw [h1]; exact Nat.mul_div_cancel_left _ (by omega)

theorem succ_mod_of_lt {k d : Nat} (hd : 1 ≤ d) (h : k % d + 1 ≠ d) :
    (k + 1) % d = k % d + 1 ∧ (k + 1) / d = k / d := by
  have hlt : k % d < d := Nat.mod_lt _ (by omega)
  have h0 := Nat.div_add_mod k d
  have h1 : k + 1 = (k % d + 1) + d * (k / d) := by omega
  constructor
  · rw [h1, Nat.add_mul_mod_self_left]; exact Nat.mod_eq_of_lt (by omega)
  · rw [h1, Nat.add_mul_div_left _ _ (by omega : 0 < d)]
    rw [Nat.div_eq_of_lt (by omega)]; omega

theorem prod_states_pos (fs : List Variable) (hd : ∀ f ∈ fs, 1 ≤ f.states) :
    1 ≤ (fs.map Variable.states).prod := by
  induction fs with
  | nil => simp
  | cons f fs ih =>
    have h1 := hd f (List.mem_cons_self _ _)
    have h2 := ih (fun g hg => hd g (List.mem_cons_of_mem _ hg))
    simp only [List.map_cons, List.prod_cons]
    exact Nat.mul_pos h1 h2

/-! ## `subindex`: the tracked index is exact -/

theorem subindex_proj_bound (fs : List Variable) :
    ∀ (sub : List Variable) (a k : Nat), (∀ f ∈ fs, 1 ≤ f.states) →
      subindex.proj fs sub a k + a ≤ a * (fs.map Variable.states).prod := by
  induction fs with
  | nil => intro sub a k _; simp [subindex.proj]
  | cons f fs ih =>
    intro sub a k hd
    have h1 := hd f (List.mem_cons_self _ _)
    have hd' : ∀ g ∈ fs, 1 ≤ g.states := fun g hg => hd g (List.mem_cons_of_mem _ hg)
    have hP := prod_states_pos fs hd'
    have hlt : k % f.states < f.states := Nat.mod_lt _ h1
    simp only [List.map_cons, List.prod_cons, subindex.proj]
    split_ifs with hsk
    · have := ih sub a (k / f.states) hd'
      calc subindex.proj fs sub a (k / f.states) + a
          ≤ a * (fs.map Variable.states).prod := this
        _ ≤ a * (f.states * (fs.map Variable.states).prod) :=
            Nat.mul_le_mul_left _ (Nat.le_mul_of_pos_left _ h1)
    · have := ih sub.tail (a * f.states) (k / f.states) hd'
      have h2 : k % f.states * a + a ≤ a * f.states := by
        have : (k % f.states + 1) * a ≤ f.states * a := Nat.mul_le_mul_right _ hlt
        linarith
      have h3 : a * f.states * (fs.map Variable.states).prod
          = a * (f.states * (fs.map Variable.states).prod) := by ring
      omega

theorem subindex_incr_loop_spec (fs : List Variable) :
    ∀ (sub : List Variable) (a e k : Nat), (∀ f ∈ fs, 1 ≤ f.states) →
      a * (fs.map Variable.states).prod < wordSize →
      (fs.map Variable.states).prod < wordSize →
      subindex.incr_loop (state_of (fs.map Variable.states) k) (fs.map Variable.states)
          (subindex.loop fs sub a e).skipped (subindex.loop fs sub a e).add
          (subindex.loop fs sub a e).subtract (subindex.proj fs sub a k)
        = (state_of (fs.map Variable.states) (k + 1), subindex.proj fs sub a (k + 1)) := by
  induction fs with
  | nil => intro sub a e k _ _ _; simp [subindex.incr_loop, state_of, digits, subindex.proj]
  | cons f fs ih =>
    intro sub a e k hd hfit hfit1
    have h1 := hd f (List.mem_cons_self _ _)
    have hd' : ∀ g ∈ fs, 1 ≤ g.states := fun g hg => hd g (List.mem_cons_of_mem _ hg)
    have hP := prod_states_pos fs hd'
    have hlt : k % f.states < f.states := Nat.mod_lt _ h1
    simp only [List.map_cons, List.prod_cons] at hfit hfit1
    have hfs : f.states ≤ f.states * (fs.map Variable.states).prod :=
      Nat.le_mul_of_pos_right _ hP
    have hP1 : (fs.map Variable.states).prod ≤ f.states * (fs.map Variable.states).prod :=
      Nat.le_mul_of_pos_left _ h1
    have hfit1' : (fs.map Variable.states).prod < wordSize := by omega
    have haP : a * (fs.map Variable.states).prod
        ≤ a * (f.states * (fs.map Variable.states).prod) := Nat.mul_le_mul_left _ hP1
    have had : a * f.states ≤ a * (f.states * (fs.map Variable.states).prod) :=
      Nat.mul_le_mul_left _ hfs
    have hadP : a * f.states * (fs.map Variable.states).prod
        = a * (f.states * (fs.map Variable.states).prod) := Nat.mul_assoc _ _ _
    have hbound := subindex_proj_bound (f :: fs) sub a k hd
    simp only [List.map_cons, List.prod_cons] at hbound
    simp only [List.map_cons, subindex.loop, state_of, digits, subindex.incr_loop,
      subindex.proj] at hbound ⊢
    generalize hskdef : (match sub with
      | [] => true
      | s :: _ => !(Variable.eq s f)) = sk at hbound ⊢
    cases sk
    · simp only [Bool.false_eq_true, if_false] at hbound ⊢
      have hwm : wmul a f.states = a * f.states := wmul_eq (by omega)
      by_cases hwrap : k % f.states + 1 = f.states
      · obtain ⟨hm, hq⟩ := succ_mod_of_wrap h1 hwrap
        have hs1 : wsub f.states 1 = f.states - 1 := wsub_eq h1 (by omega)
        have hsb : a * (f.states - 1) = k % f.states * a := by
          have : f.states - 1 = k % f.states := by omega
          rw [this, Nat.mul_comm]
        have hwm2 : wmul a (f.states - 1) = k % f.states * a := by
          rw [← hsb]; apply wmul_eq
          have : a * (f.states - 1) ≤ a * f.states := Nat.mul_le_mul_left _ (by omega)
          omega
        have hws : wsub (k % f.states * a
              + subindex.proj fs sub.tail (a * f.states) (k / f.states)) (k % f.states * a)
            = subindex.proj fs sub.tail (a * f.states) (k / f.states) := by
          rw [wsub_eq (by omega) (by omega)]; omega
        have := ih sub.tail (a * f.states) (wmul e f.states) (k / f.states) hd'
          (by omega) hfit1'
        rw [if_pos hwrap, hm, hq, hwm, hs1, hwm2, hws]
        simp only [state_of] at this
        rw [this]
        simp
      · obtain ⟨hm, hq⟩ := succ_mod_of_lt h1 hwrap
        have hw1 : wadd (k % f.states + 1) 1 = k % f.states + 1 + 1 := wadd_eq (by omega)
        rw [if_neg hwrap, hm, hq, hw1, wadd_eq (by omega)]
        congr 1
        ring
    · simp only [if_true] at hbound ⊢
      have hwm : wmul a 1 = a := by rw [wmul_eq (by omega)]; simp
      by_cases hwrap : k % f.states + 1 = f.states
      · obtain ⟨hm, hq⟩ := succ_mod_of_wrap h1 hwrap
        have := ih sub a (wmul e f.states) (k / f.states) hd' (by omega) hfit1'
        rw [if_pos hwrap, hm, hq, hwm]
        simp only [state_of] at this
        rw [this]
      · obtain ⟨hm, hq⟩ := succ_mod_of_lt h1 hwrap
        have hw1 : wadd (k % f.states + 1) 1 = k % f.states + 1 + 1 := wadd_eq (by omega)
        rw [if_neg hwrap, hm, hq, hw1]

/-! ## Matching `sub` against `full` -/

theorem mem_iff (s : variable_set) (g : Variable) :
    s.mem g = true ↔ ∃ w ∈ s, w.label = g.label := by
  simp [variable_set.mem, Variable.eq]

theorem canonical_tail {f : Variable} {fs : List Variable}
    (h : variable_set.canonical (f :: fs)) : variable_set.canonical fs :=
  (List.pairwise_cons.mp h).2

theorem canonical_head_lt {f : Variable} {fs : List Variable}
    (h : variable_set.canonical (f :: fs)) : ∀ g ∈ fs, f.label < g.label :=
  (List.pairwise_cons.mp h).1

/-- A matched head: the head of `sub` is the head of `full`. -/
theorem match_head {f w : Variable} {fs s : List Variable}
    (hcan : variable_set.canonical (f :: fs)) (hsub : (w :: s).Sublist (f :: fs))
    (heq : w.label = f.label) : w = f ∧ s.Sublist fs := by
  cases hsub with
  | cons _ h =>
    have hw : w ∈ fs := h.subset (List.mem_cons_self _ _)
    have := canonical_head_lt hcan w hw
    omega
  | cons₂ _ h => exact ⟨rfl, h⟩

/-- An unmatched head: `sub` lies in the tail of `full`. -/
theorem skip_head {f w : Variable} {fs s : List Variable}
    (hsub : (w :: s).Sublist (f :: fs)) (hne : w.label ≠ f.label) :
    (w :: s).Sublist fs := by
  cases hsub with
  | cons _ h => exact h
  | cons₂ _ h => exact absurd rfl hne

theorem sublist_tail_no_head {f : Variable} {fs s : List Variable}
    (hcan : variable_set.canonical (f :: fs)) (hsub : s.Sublist fs) :
    variable_set.mem s f = false := by
  rw [Bool.eq_false_iff]
  intro h
  obtain ⟨w, hw, hl⟩ := (mem_iff s f).mp h
  have := canonical_head_lt hcan w (hsub.subset hw)
  omega

theorem sub_config_cons (f : Variable) (fs SUB : List Variable) (x : Nat) (xs : List Nat) :
    sub_config (f :: fs) SUB (x :: xs)
      = if variable_set.mem SUB f then (x, f.states) :: sub_config fs SUB xs
        else sub_config fs SUB xs := by
  unfold sub_config
  by_cases h : variable_set.mem SUB f = true <;> simp [List.filter_cons, h]

theorem subindex_proj_eq_linear_index (SUB : List Variable) (fs : List Variable) :
    ∀ (s : List Variable) (a k : Nat), variable_set.canonical fs → s.Sublist fs →
      (∀ g ∈ fs, variable_set.mem SUB g = variable_set.mem s g) →
      subindex.proj fs s a k
        = linear_index a (sub_config fs SUB (state_of (fs.map Variable.states) k)) := by
  induction fs with
  | nil => intro s a k _ _ _; simp [subindex.proj, sub_config, linear_index]
  | cons f fs ih =>
    intro s a k hcan hsub hmem
    have hcan' := canonical_tail hcan
    simp only [List.map_cons, state_of, digits, sub_config_cons, subindex.proj]
    rw [hmem f (List.mem_cons_self _ _)]
    cases s with
    | nil =>
      have h0 : variable_set.mem [] f = false := rfl
      simp only [h0, if_true, Bool.false_eq_true, if_false]
      exact ih [] a (k / f.states) hcan' (List.nil_sublist _)
        (fun g hg => hmem g (List.mem_cons_of_mem _ hg))
    | cons w s =>
      by_cases heq : w.label = f.label
      · obtain ⟨hwf, hs⟩ := match_head hcan hsub heq
        subst hwf
        have hm : variable_set.mem (w :: s) w = true :=
          (mem_iff _ _).mpr ⟨w, List.mem_cons_self _ _, rfl⟩
        have he : Variable.eq w w = true := by simp [Variable.eq]
        simp only [hm, he, Bool.not_true, Bool.false_eq_true, if_false, if_true,
          List.tail_cons, linear_index, Nat.add_sub_cancel]
        rw [ih s (a * w.states) (k / w.states) hcan' hs]
        · rfl
        · intro g hg
          rw [hmem g (List.mem_cons_of_mem _ hg)]
          have hlt := canonical_head_lt hcan g hg
          simp only [variable_set.mem, List.any_cons, Variable.eq]
          have : (w.label == g.label) = false := by
            rw [beq_eq_false_iff_ne]; omega
          rw [this, Bool.false_or]
      · have hs := skip_head hsub heq
        have hm : variable_set.mem (w :: s) f = false := sublist_tail_no_head hcan hs
        have he : Variable.eq w f = false := by simp [Variable.eq, heq]
        simp only [hm, he, Bool.not_false, if_true, Bool.false_eq_true, if_false]
        exact ih (w :: s) a (k / f.states) hcan' hs
          (fun g hg => hmem g (List.mem_cons_of_mem _ hg))

/-! ## `subindex`: digit state, cross-check and cyclic closure -/

theorem digits_length (ds : List Nat) : ∀ k, (digits ds k).length = ds.length := by
  induction ds with
  | nil => intro k; rfl
  | cons d ds ih => intro k; simp [digits, ih]

theorem digits_getElem? (ds : List Nat) :
    ∀ (k i : Nat), i < ds.length → (digits ds k)[i]? = some (radix_digit ds k i) := by
  induction ds with
  | nil => intro k i h; simp at h
  | cons d ds ih =>
    intro k i h
    cases i with
    | zero => simp [digits, radix_digit]
    | succ i =>
      have hi : i < ds.length := by simpa using h
      simp only [digits, List.getElem?_cons_succ, ih (k / d) i hi, radix_digit,
        List.take_succ_cons, List.prod_cons, List.getD_cons_succ, Nat.div_div_eq_div_mul]

theorem state_of_getElem? (ds : List Nat) (k i : Nat) (h : i < ds.length) :
    (state_of ds k)[i]? = some (radix_digit ds k i + 1) := by
  simp [state_of, digits_getElem? ds k i h]

theorem digits_prod (ds : List Nat) (hd : ∀ d ∈ ds, 1 ≤ d) :
    ∀ m, digits ds (ds.prod * m) = digits ds 0 := by
  induction ds with
  | nil => intro m; rfl
  | cons d ds ih =>
    intro m
    have h1 := hd d (List.mem_cons_self _ _)
    have hd' : ∀ x ∈ ds, 1 ≤ x := fun x hx => hd x (List.mem_cons_of_mem _ hx)
    simp only [digits, List.prod_cons, Nat.zero_mod, Nat.zero_div]
    rw [Nat.mul_assoc, Nat.mul_mod_right, Nat.mul_div_cancel_left _ (by omega), ih hd']

theorem subindex_loop_state (fs : List Variable) :
    ∀ (sub : List Variable) (a e : Nat),
      (subindex.loop fs sub a e).state = state_of (fs.map Variable.states) 0 := by
  induction fs with
  | nil => intro sub a e; rfl
  | cons f fs ih => intro sub a e; simp [subindex.loop, state_of, digits, ih]

theorem subindex_loop_end (fs : List Variable) :
    ∀ (sub : List Variable) (a e : Nat), (∀ f ∈ fs, 1 ≤ f.states) →
      e * (fs.map Variable.states).prod < wordSize →
      (subindex.loop fs sub a e).m_end = e * (fs.map Variable.states).prod := by
  induction fs with
  | nil => intro sub a e _ _; simp [subindex.loop]
  | cons f fs ih =>
    intro sub a e hd hfit
    have h1 := hd f (List.mem_cons_self _ _)
    have hd' : ∀ g ∈ fs, 1 ≤ g.states := fun g hg => hd g (List.mem_cons_of_mem _ hg)
    have hP := prod_states_pos fs hd'
    simp only [List.map_cons, List.prod_cons] at hfit ⊢
    have hass : e * f.states * (fs.map Variable.states).prod
        = e * (f.states * (fs.map Variable.states).prod) := Nat.mul_assoc _ _ _
    have hle : e * f.states ≤ e * f.states * (fs.map Variable.states).prod :=
      Nat.le_mul_of_pos_right _ hP
    have hw : wmul e f.states = e * f.states := wmul_eq (by omega)
    simp only [subindex.loop]
    rw [hw, ih _ _ _ hd' (by omega), hass]

theorem subindex_proj_zero (fs : List Variable) :
    ∀ (sub : List Variable) (a : Nat), subindex.proj fs sub a 0 = 0 := by
  induction fs with
  | nil => intro sub a; rfl
  | cons f fs ih => intro sub a; simp [subindex.proj, ih]

/-- The state of a `subindex` after `k` increments from construction. -/
theorem subindex_iterate (full sub : variable_set) (hd : ∀ v ∈ full, 1 ≤ v.states)
    (hfit : full.num_states < wordSize) (k : Nat) :
    subindex.incr^[k] (subindex.new full sub)
      = { subindex.new full sub with
          m_state := state_of full.dims k
          m_idx := subindex.proj full sub 1 k } := by
  have hfit' : (full.map Variable.states).prod < wordSize := hfit
  induction k with
  | zero =>
    simp only [Function.iterate_zero, id_eq, subindex.new, subindex_loop_state,
      subindex_proj_zero, variable_set.dims]
  | succ k ih =>
    rw [Function.iterate_succ_apply', ih]
    have := subindex_incr_loop_spec full sub 1 1 k hd (by simpa using hfit') hfit'
    simp only [subindex.incr, subindex.new, variable_set.dims, this]

theorem state_of_zero (ds : List Nat) : state_of ds 0 = List.replicate ds.length 1 := by
  induction ds with
  | nil => rfl
  | cons d ds ih =>
    simp only [state_of, digits, Nat.zero_mod, Nat.zero_div, List.map_cons, List.length_cons,
      List.replicate_succ] at ih ⊢
    rw [ih]

theorem state_of_length (ds : List Nat) (k : Nat) : (state_of ds k).length = ds.length := by
  simp [state_of, digits_length]

theorem map_const_one (l : List Nat) : l.map (fun _ => 1) = List.replicate l.length 1 := by
  induction l with
  | nil => rfl
  | cons x l ih => simp [List.replicate_succ, ih]

theorem subindex_proj_prod (fs : List Variable) :
    ∀ (sub : List Variable) (a : Nat), (∀ f ∈ fs, 1 ≤ f.states) →
      subindex.proj fs sub a (fs.map Variable.states).prod = 0 := by
  induction fs with
  | nil => intro sub a _; rfl
  | cons f fs ih =>
    intro sub a hd
    have h1 := hd f (List.mem_cons_self _ _)
    have hd' : ∀ g ∈ fs, 1 ≤ g.states := fun g hg => hd g (List.mem_cons_of_mem _ hg)
    simp only [subindex.proj, List.map_cons, List.prod_cons, Nat.mul_mod_right,
      Nat.mul_div_cancel_left _ (show 0 < f.states by omega), ih _ _ hd']
    simp

/-- C1. Cross-check of `subindex` against direct computation: after `k`
increments from construction (`k < end()`), the digit state is the mixed-radix
representation of `k` over the domain sizes of `full`, and the index read is the
linear index of the configuration of `sub`, recomputed from scratch from the
digits at the positions of `full` that belong to `sub`. -/
theorem subindex_cross_check (full sub : variable_set) (k : Nat)
    (hcan : full.canonical) (hsub : full.contains sub)
    (hd : ∀ v ∈ full, 1 ≤ v.states) (hfit : full.num_states < wordSize)
    (_hk : k < (subindex.new full sub).end_) :
    (∀ i, i < full.nvar →
      (subindex.incr^[k] (subindex.new full sub)).m_state[i]?
        = some (radix_digit full.dims k i + 1)) ∧
    (subindex.incr^[k] (subindex.new full sub)).toIndex
      = linear_index 1
          (sub_config full sub (subindex.incr^[k] (subindex.new full sub)).m_state) := by
  rw [subindex_iterate full sub hd hfit k]
  refine ⟨fun i hi => ?_, ?_⟩
  · exact state_of_getElem? full.dims k i (by simpa [variable_set.dims] using hi)
  · exact subindex_proj_eq_linear_index sub full sub 1 k hcan hsub (fun _ _ => rfl)

/-- Scenario A of the specification, and an instance of C1: over
`full = [A(2), B(3)]`, `sub = [A]` the six configurations of `full` yield the
tracked indices `0, 1, 0, 1, 0, 1`. -/
theorem subindex_cross_check_witness :
    (List.range 6).map
        (fun k => (subindex.incr^[k] (subindex.new [⟨0, 2⟩, ⟨1, 3⟩] [⟨0, 2⟩])).toIndex)
      = [0, 1, 0, 1, 0, 1] ∧
    ((∀ i, i < variable_set.nvar [⟨0, 2⟩, ⟨1, 3⟩] →
      (subindex.incr^[3] (subindex.new [⟨0, 2⟩, ⟨1, 3⟩] [⟨0, 2⟩])).m_state[i]?
        = some (radix_digit (variable_set.dims [⟨0, 2⟩, ⟨1, 3⟩]) 3 i + 1)) ∧
    (subindex.incr^[3] (subindex.new [⟨0, 2⟩, ⟨1, 3⟩] [⟨0, 2⟩])).toIndex
      = linear_index 1 (sub_config [⟨0, 2⟩, ⟨1, 3⟩] [⟨0, 2⟩]
          (subindex.incr^[3] (subindex.new [⟨0, 2⟩, ⟨1, 3⟩] [⟨0, 2⟩])).m_state)) :=
  ⟨by decide,
   subindex_cross_check [⟨0, 2⟩, ⟨1, 3⟩] [⟨0, 2⟩] 3 (by decide) (by decide) (by decide)
     (by decide) (by decide)⟩

/-- C2. Cyclic closure of `subindex`: `end()` is the product of the domain
sizes of `full`, and `end()` increments applied to a freshly constructed (or
reset) cursor give back index 0 and the all-ones digit state, which is the
state after construction. -/
theorem subindex_cyclic_closure (full sub : variable_set)
    (hd : ∀ v ∈ full, 1 ≤ v.states) (hfit : full.num_states < wordSize) :
    (subindex.new full sub).end_ = full.num_states ∧
    subindex.incr^[(subindex.new full sub).end_] (subindex.new full sub)
      = subindex.new full sub ∧
    (subindex.new full sub).toIndex = 0 ∧
    (subindex.new full sub).m_state = List.replicate full.nvar 1 ∧
    ∀ n, (subindex.incr^[n] (subindex.new full sub)).reset = subindex.new full sub := by
  have hend : (subindex.new full sub).end_ = full.num_states := by
    have := subindex_loop_end full sub 1 1 hd (by simpa using hfit)
    simpa [subindex.end_, subindex.new, variable_set.num_states, variable_set.dims] using this
  have hst : (subindex.new full sub).m_state = List.replicate full.nvar 1 := by
    simp [subindex.new, subindex_loop_state, state_of_zero, variable_set.nvar]
  refine ⟨hend, ?_, rfl, hst, ?_⟩
  · rw [hend, subindex_iterate full sub hd hfit]
    have h1 : state_of full.dims full.num_states = state_of full.dims 0 := by
      have := digits_prod full.dims (by simpa [variable_set.dims] using hd) 1
      simp only [Nat.mul_one] at this
      simp only [state_of, variable_set.num_states, this]
    have h2 : subindex.proj full sub 1 full.num_states = 0 :=
      subindex_proj_prod full sub 1 hd
    rw [h1, h2]
    simp [subindex.new, subindex_loop_state, variable_set.dims]
  · intro n
    rw [subindex_iterate full sub hd hfit]
    simp only [subindex.reset, map_const_one, state_of_length]
    simp [subindex.new, subindex_loop_state, state_of_zero, variable_set.dims]

/-- An instance of C2 that includes the empty `full`. -/
theorem subindex_cyclic_closure_witness :
    ((subindex.new [⟨0, 2⟩, ⟨1, 3⟩] [⟨1, 3⟩]).end_ = 6 ∧
      subindex.incr^[6] (subindex.new [⟨0, 2⟩, ⟨1, 3⟩] [⟨1, 3⟩])
        = subindex.new [⟨0, 2⟩, ⟨1, 3⟩] [⟨1, 3⟩]) ∧
    ((subindex.new [] []).end_ = variable_set.num_states [] ∧
      subindex.incr^[(subindex.new [] []).end_] (subindex.new [] []) = subindex.new [] [] ∧
      (subindex.new [] []).toIndex = 0 ∧
      (subindex.new [] []).m_state = List.replicate (variable_set.nvar []) 1 ∧
      ∀ n, (subindex.incr^[n] (subindex.new [] [])).reset = subindex.new [] []) :=
  ⟨by decide, subindex_cyclic_closure [] [] (by decide) (by decide)⟩

/-! ## `superindex`: exact index value over growing strides -/

theorem strides_ok_mono {lo lo' : Nat} (h : lo' ≤ lo) :
    ∀ (ds as : List Nat) (hi : Nat),
      superindex.strides_ok lo ds as hi → superindex.strides_ok lo' ds as hi := by
  intro ds as hi hok
  cases ds with
  | nil =>
    cases as with
    | nil => simp only [superindex.strides_ok] at hok ⊢; omega
    | cons a as => simp [superindex.strides_ok] at hok
  | cons d ds =>
    cases as with
    | nil => simp [superindex.strides_ok] at hok
    | cons a as =>
      simp only [superindex.strides_ok] at hok ⊢
      exact ⟨by omega, hok.2⟩

theorem strides_ok_length (ds : List Nat) :
    ∀ (lo : Nat) (as : List Nat) (hi : Nat),
      superindex.strides_ok lo ds as hi → as.length = ds.length := by
  induction ds with
  | nil =>
    intro lo as hi hok
    cases as with
    | nil => rfl
    | cons a as => simp [superindex.strides_ok] at hok
  | cons d ds ih =>
    intro lo as hi hok
    cases as with
    | nil => simp [superindex.strides_ok] at hok
    | cons a as =>
      simp only [superindex.strides_ok] at hok
      simp [ih _ _ _ hok.2]

theorem last_span_le (ds : List Nat) :
    ∀ (lo : Nat) (as : List Nat) (hi : Nat), ds ≠ [] →
      superindex.strides_ok lo ds as hi → superindex.last_span ds as ≤ hi := by
  induction ds with
  | nil => intro lo as hi h; exact absurd rfl h
  | cons d ds ih =>
    intro lo as hi _ hok
    cases as with
    | nil => simp [superindex.strides_ok] at hok
    | cons a as =>
      simp only [superindex.strides_ok] at hok
      cases ds with
      | nil =>
        cases as with
        | nil => simpa [superindex.last_span, superindex.strides_ok] using hok.2
        | cons a2 as => simp [superindex.strides_ok] at hok
      | cons d2 ds =>
        simp only [superindex.last_span, List.isEmpty_cons, Bool.false_eq_true, if_false]
        exact ih _ _ _ (by simp) hok.2

theorem val_bound (ds : List Nat) :
    ∀ (lo : Nat) (as : List Nat) (hi k : Nat), ds ≠ [] → (∀ d ∈ ds, 1 ≤ d) →
      superindex.strides_ok lo ds as hi → k < ds.prod →
      superindex.val ds as k + lo ≤ superindex.last_span ds as := by
  induction ds with
  | nil => intro lo as hi k h; exact absurd rfl h
  | cons d ds ih =>
    intro lo as hi k _ hd hok hk
    have h1 := hd d (List.mem_cons_self _ _)
    have hd' : ∀ x ∈ ds, 1 ≤ x := fun x hx => hd x (List.mem_cons_of_mem _ hx)
    cases as with
    | nil => simp [superindex.strides_ok] at hok
    | cons a as =>
      simp only [superindex.strides_ok] at hok
      cases ds with
      | nil =>
        simp only [List.prod_cons, List.prod_nil, Nat.mul_one] at hk
        simp only [superindex.val, superindex.last_span, List.isEmpty_nil, if_true,
          Nat.add_zero]
        have : (k + 1) * a ≤ d * a := Nat.mul_le_mul_right _ hk
        have h2 : (k + 1) * a = k * a + a := by ring
        have h3 : d * a = a * d := Nat.mul_comm _ _
        omega
      | cons d2 ds =>
        rw [List.prod_cons] at hk
        have hq : k / d < (d2 :: ds).prod := Nat.div_lt_of_lt_mul hk
        have := ih (a * d) as hi (k / d) (by simp) hd' hok.2 hq
        simp only [superindex.val, superindex.last_span, List.isEmpty_cons,
          Bool.false_eq_true, if_false] at this ⊢
        have hlt : k % d < d := Nat.mod_lt _ h1
        have h2 : (k % d + 1) * a ≤ d * a := Nat.mul_le_mul_right _ hlt
        have h3 : (k % d + 1) * a = k % d * a + a := by ring
        have h4 : d * a = a * d := Nat.mul_comm _ _
        omega

theorem val_succ (ds : List Nat) :
    ∀ (lo : Nat) (as : List Nat) (hi k : Nat), ds ≠ [] → (∀ d ∈ ds, 1 ≤ d) →
      superindex.strides_ok lo ds as hi → k < ds.prod →
      superindex.val ds as k + lo ≤ superindex.val ds as (k + 1) := by
  induction ds with
  | nil => intro lo as hi k h; exact absurd rfl h
  | cons d ds ih =>
    intro lo as hi k _ hd hok hk
    have h1 := hd d (List.mem_cons_self _ _)
    have hd' : ∀ x ∈ ds, 1 ≤ x := fun x hx => hd x (List.mem_cons_of_mem _ hx)
    cases as with
    | nil => simp [superindex.strides_ok] at hok
    | cons a as =>
      simp only [superindex.strides_ok] at hok
      cases ds with
      | nil =>
        simp only [superindex.val, List.isEmpty_nil, if_true, Nat.add_zero]
        have h2 : (k + 1) * a = k * a + a := by ring
        omega
      | cons d2 ds =>
        rw [List.prod_cons] at hk
        have hq : k / d < (d2 :: ds).prod := Nat.div_lt_of_lt_mul hk
        simp only [superindex.val, List.isEmpty_cons, Bool.false_eq_true, if_false]
        by_cases hwrap : k % d + 1 = d
        · obtain ⟨hm, hq'⟩ := succ_mod_of_wrap h1 hwrap
          have := ih (a * d) as hi (k / d) (by simp) hd' hok.2 hq
          simp only [superindex.val, List.isEmpty_cons, Bool.false_eq_true, if_false] at this
          rw [hm, hq']
          have h3 : a * (k % d + 1) = k % d * a + a := by ring
          rw [hwrap] at h3
          omega
        · obtain ⟨hm, hq'⟩ := succ_mod_of_lt h1 hwrap
          rw [hm, hq']
          have h3 : (k % d + 1) * a = k % d * a + a := by ring
          omega

theorem val_prod (ds : List Nat) :
    ∀ (as : List Nat), ds ≠ [] → (∀ d ∈ ds, 1 ≤ d) → as.length = ds.length →
      superindex.val ds as ds.prod = superindex.last_span ds as := by
  induction ds with
  | nil => intro as h; exact absurd rfl h
  | cons d ds ih =>
    intro as _ hd hlen
    have h1 := hd d (List.mem_cons_self _ _)
    have hd' : ∀ x ∈ ds, 1 ≤ x := fun x hx => hd x (List.mem_cons_of_mem _ hx)
    cases as with
    | nil => simp at hlen
    | cons a as =>
      cases ds with
      | nil => simp [superindex.val, superindex.last_span, Nat.mul_comm]
      | cons d2 ds =>
        have := ih as (by simp) hd' (by simpa using hlen)
        simp only [superindex.val, superindex.last_span, List.isEmpty_cons,
          Bool.false_eq_true, if_false] at this ⊢
        rw [List.prod_cons, Nat.mul_mod_right, Nat.mul_div_cancel_left _ (by omega), this]
        simp

theorem superindex_incr_loop_spec (ns : Nat) (ds : List Nat) :
    ∀ (lo : Nat) (as : List Nat) (hi off i k : Nat), ds ≠ [] → (∀ d ∈ ds, 1 ≤ d) →
      1 ≤ lo → superindex.strides_ok lo ds as hi → k < ds.prod → off + hi < wordSize →
      i + ds.length = ns →
      (superindex.incr_loop ns i (superindex.state_at ds k) ds as
          (off + superindex.val ds as k)).2 = off + superindex.val ds as (k + 1) ∧
      (k + 1 < ds.prod →
        (superindex.incr_loop ns i (superindex.state_at ds k) ds as
          (off + superindex.val ds as k)).1 = superindex.state_at ds (k + 1)) := by
  induction ds with
  | nil => intro lo as hi off i k h; exact absurd rfl h
  | cons d ds ih =>
    intro lo as hi off i k _ hd hlo hok hk hfit hlen
    have h1 := hd d (List.mem_cons_self _ _)
    have hd' : ∀ x ∈ ds, 1 ≤ x := fun x hx => hd x (List.mem_cons_of_mem _ hx)
    have hb := val_bound (d :: ds) lo as hi k (by simp) hd hok hk
    have hs := val_succ (d :: ds) lo as hi k (by simp) hd hok hk
    have hl := last_span_le (d :: ds) lo as hi (by simp) hok
    cases as with
    | nil => simp [superindex.strides_ok] at hok
    | cons a as =>
      have hoka : superindex.strides_ok a (d :: ds) (a :: as) hi := by
        simp only [superindex.strides_ok] at hok ⊢
        exact ⟨le_refl _, hok.2⟩
      have hba := val_bound (d :: ds) a (a :: as) hi k (by simp) hd hoka hk
      simp only [superindex.strides_ok] at hok
      have ha : 1 ≤ a := by omega
      cases ds with
      | nil =>
        simp only [List.prod_cons, List.prod_nil, Nat.mul_one] at hk
        simp only [List.length_cons, List.length_nil] at hlen
        simp only [superindex.val, superindex.last_span, List.isEmpty_nil, if_true,
          Nat.add_zero, superindex.state_at, superindex.incr_loop] at hb hba hl ⊢
        have hnot : ¬ (k + 1 = d ∧ i < ns - 1) := by omega
        rw [if_neg hnot]
        have hda : d ≤ a * d := Nat.le_mul_of_pos_left _ ha
        refine ⟨?_, fun hk1 => ?_⟩
        · show wadd (off + k * a) a = off + (k + 1) * a
          rw [wadd_eq (by omega)]; ring
        · simp only [List.prod_cons, List.prod_nil, Nat.mul_one] at hk1
          show wadd (k + 1) 1 :: _ = _
          rw [wadd_eq (by omega)]
      | cons d2 ds =>
        rw [List.prod_cons] at hk
        have hq : k / d < (d2 :: ds).prod := Nat.div_lt_of_lt_mul hk
        simp only [List.length_cons] at hlen
        have hlt : k % d < d := Nat.mod_lt _ h1
        have had1 : 1 ≤ a * d := Nat.mul_pos ha h1
        have hda : d ≤ a * d := Nat.le_mul_of_pos_left _ ha
        have hl2 := last_span_le (d2 :: ds) (a * d) as hi (by simp) hok.2
        have hb2 := val_bound (d2 :: ds) (a * d) as hi (k / d) (by simp) hd' hok.2 hq
        simp only [superindex.val, superindex.last_span, List.isEmpty_cons,
          Bool.false_eq_true, if_false, superindex.state_at, superindex.incr_loop]
          at hb hba hl ⊢
        by_cases hwrap : k % d + 1 = d
        · obtain ⟨hm, hq'⟩ := succ_mod_of_wrap h1 hwrap
          have hcond : k % d + 1 = d ∧ i < ns - 1 := ⟨hwrap, by omega⟩
          have hs1 : wsub d 1 = d - 1 := wsub_eq h1 (by omega)
          have hmul : a * (d - 1) = k % d * a := by
            have : d - 1 = k % d := by omega
            rw [this, Nat.mul_comm]
          have hle : a * (d - 1) ≤ a * d := Nat.mul_le_mul_left _ (by omega)
          have hwm : wmul a (d - 1) = k % d * a := by
            rw [← hmul]; exact wmul_eq (by omega)
          have hws : wsub (off + (k % d * a + superindex.val (d2 :: ds) as (k / d)))
              (k % d * a) = off + superindex.val (d2 :: ds) as (k / d) := by
            rw [wsub_eq (by omega) (by omega)]; omega
          have := ih (a * d) as hi off (i + 1) (k / d) (by simp) hd' had1 hok.2 hq hfit
            (by simp only [List.length_cons]; omega)
          simp only [superindex.state_at] at this
          rw [if_pos hcond, hs1, hwm, hws, hm, hq']
          refine ⟨by simp only [this.1]; simp, fun hk1 => ?_⟩
          have hk2 : k / d + 1 < (d2 :: ds).prod := by
            have h5 : k + 1 = d * (k / d + 1) := by
              have := Nat.div_add_mod k d
              rw [Nat.mul_add]; omega
            rw [List.prod_cons, h5] at hk1
            exact Nat.lt_of_mul_lt_mul_left hk1
          simp only [this.2 hk2]
        · obtain ⟨hm, hq'⟩ := succ_mod_of_lt h1 hwrap
          have hnot : ¬ (k % d + 1 = d ∧ i < ns - 1) := fun h => hwrap h.1
          rw [if_neg hnot, hm, hq']
          refine ⟨?_, fun _ => ?_⟩
          · show wadd _ a = _
            rw [wadd_eq (by omega)]; ring
          · show wadd (k % d + 1) 1 :: _ = _
            rw [wadd_eq (by omega)]

/-! ## `superindex`: the constructor -/

theorem stride_full_head (f : Variable) (fs : List Variable) :
    stride_full (f :: fs) f = 1 := by
  simp [stride_full, Variable.eq, List.takeWhile_cons]

theorem stride_full_cons {f v : Variable} (fs : List Variable) (h : f.label ≠ v.label) :
    stride_full (f :: fs) v = f.states * stride_full fs v := by
  simp [stride_full, Variable.eq, List.takeWhile_cons, h]

theorem sublist_label_ne {f : Variable} {fs ss : List Variable}
    (hcan : variable_set.canonical (f :: fs)) (hsub : ss.Sublist fs) :
    ∀ v ∈ ss, f.label ≠ v.label := by
  intro v hv
  have := canonical_head_lt hcan v (hsub.subset hv)
  omega

/-- The strides of the constructor are the strides of `sub`'s variables in the
linear index of `full`. -/
theorem strides_eq_map (fs : List Variable) :
    ∀ (ss : List Variable) (d : Nat), variable_set.canonical fs → ss.Sublist fs →
      superindex.strides fs ss d = ss.map (fun v => d * stride_full fs v) := by
  induction fs with
  | nil =>
    intro ss d _ hsub
    have : ss = [] := List.sublist_nil.mp hsub
    subst this
    rfl
  | cons f fs ih =>
    intro ss d hcan hsub
    have hcan' := canonical_tail hcan
    cases ss with
    | nil => rfl
    | cons s ss =>
      by_cases heq : s.label = f.label
      · obtain ⟨hsf, hs⟩ := match_head hcan hsub heq
        subst hsf
        have he : Variable.eq s s = true := by simp [Variable.eq]
        simp only [superindex.strides, he, if_true, List.map_cons, stride_full_head, Nat.mul_one]
        rw [ih ss (d * s.states) hcan' hs]
        congr 1
        apply List.map_congr_left
        intro v hv
        rw [stride_full_cons fs (sublist_label_ne hcan hs v hv), Nat.mul_assoc]
      · have hs := skip_head hsub heq
        have he : Variable.eq f s = false := by
          simp only [Variable.eq, beq_eq_false_iff_ne]; exact fun h => heq h.symm
        simp only [superindex.strides, he, Bool.false_eq_true, if_false]
        rw [ih (s :: ss) (d * f.states) hcan' hs]
        apply List.map_congr_left
        intro v hv
        rw [stride_full_cons fs (sublist_label_ne hcan hs v hv), Nat.mul_assoc]

theorem strides_ok_of_new (fs : List Variable) :
    ∀ (ss : List Variable) (d : Nat), variable_set.canonical fs → ss.Sublist fs →
      (∀ f ∈ fs, 1 ≤ f.states) →
      superindex.strides_ok d (ss.map Variable.states) (superindex.strides fs ss d)
        (d * (fs.map Variable.states).prod) := by
  induction fs with
  | nil =>
    intro ss d _ hsub _
    have : ss = [] := List.sublist_nil.mp hsub
    subst this
    simp [superindex.strides, superindex.strides_ok]
  | cons f fs ih =>
    intro ss d hcan hsub hd
    have hcan' := canonical_tail hcan
    have h1 := hd f (List.mem_cons_self _ _)
    have hd' : ∀ g ∈ fs, 1 ≤ g.states := fun g hg => hd g (List.mem_cons_of_mem _ hg)
    have hpos := prod_states_pos (f :: fs) hd
    cases ss with
    | nil =>
      simp only [superindex.strides, List.map_nil, superindex.strides_ok]
      exact Nat.le_mul_of_pos_right _ hpos
    | cons s ss =>
      simp only [List.map_cons, List.prod_cons]
      by_cases heq : s.label = f.label
      · obtain ⟨hsf, hs⟩ := match_head hcan hsub heq
        subst hsf
        have he : Variable.eq s s = true := by simp [Variable.eq]
        simp only [superindex.strides, he, if_true, superindex.strides_ok, le_refl, true_and]
        rw [← Nat.mul_assoc]
        exact ih ss (d * s.states) hcan' hs hd'
      · have hs := skip_head hsub heq
        have he : Variable.eq f s = false := by
          simp only [Variable.eq, beq_eq_false_iff_ne]; exact fun h => heq h.symm
        simp only [superindex.strides, he, Bool.false_eq_true, if_false]
        have := ih (s :: ss) (d * f.states) hcan' hs hd'
        rw [← Nat.mul_assoc]
        exact strides_ok_mono (Nat.le_mul_of_pos_right _ h1) _ _ _ (by simpa using this)

theorem superindex_loop_eq (fs : List Variable) :
    ∀ (ss : List Variable) (d : Nat), variable_set.canonical fs → ss.Sublist fs →
      (∀ f ∈ fs, 1 ≤ f.states) → d * (fs.map Variable.states).prod < wordSize →
      superindex.loop fs ss d
        = some (List.replicate ss.length 1, superindex.strides fs ss d) := by
  induction fs with
  | nil =>
    intro ss d _ hsub _ _
    have : ss = [] := List.sublist_nil.mp hsub
    subst this
    rfl
  | cons f fs ih =>
    intro ss d hcan hsub hd hfit
    have hcan' := canonical_tail hcan
    have h1 := hd f (List.mem_cons_self _ _)
    have hd' : ∀ g ∈ fs, 1 ≤ g.states := fun g hg => hd g (List.mem_cons_of_mem _ hg)
    have hP := prod_states_pos fs hd'
    simp only [List.map_cons, List.prod_cons] at hfit
    have hass : d * f.states * (fs.map Variable.states).prod
        = d * (f.states * (fs.map Variable.states).prod) := Nat.mul_assoc _ _ _
    have hle : d * f.states ≤ d * f.states * (fs.map Variable.states).prod :=
      Nat.le_mul_of_pos_right _ hP
    have hw : wmul d f.states = d * f.states := wmul_eq (by omega)
    cases ss with
    | nil => rfl
    | cons s ss =>
      by_cases heq : s.label = f.label
      · obtain ⟨hsf, hs⟩ := match_head hcan hsub heq
        subst hsf
        have he : Variable.eq s s = true := by simp [Variable.eq]
        simp only [superindex.loop, superindex.strides, he, if_true, hw]
        rw [ih ss (d * s.states) hcan' hs hd' (by omega)]
        simp [List.replicate_succ]
      · have hs := skip_head hsub heq
        have he : Variable.eq f s = false := by
          simp only [Variable.eq, beq_eq_false_iff_ne]; exact fun h => heq h.symm
        simp only [superindex.loop, superindex.strides, he, Bool.false_eq_true, if_false, hw]
        exact ih (s :: ss) (d * f.states) hcan' hs hd' (by omega)

theorem last_span_getElem? (ds : List Nat) :
    ∀ (as : List Nat), ds ≠ [] → as.length = ds.length →
      ∃ a d, as[ds.length - 1]? = some a ∧ ds[ds.length - 1]? = some d ∧
        a * d = superindex.last_span ds as := by
  induction ds with
  | nil => intro as h; exact absurd rfl h
  | cons d ds ih =>
    intro as _ hlen
    cases as with
    | nil => simp at hlen
    | cons a as =>
      cases ds with
      | nil => exact ⟨a, d, by simp [superindex.last_span]⟩
      | cons d2 ds =>
        obtain ⟨a', d', h1, h2, h3⟩ := ih as (by simp) (by simpa using hlen)
        refine ⟨a', d', ?_, ?_, ?_⟩
        · simpa using h1
        · simpa using h2
        · simpa [superindex.last_span] using h3

theorem state_at_zero (ds : List Nat) :
    superindex.state_at ds 0 = List.replicate ds.length 1 := by
  induction ds with
  | nil => rfl
  | cons d ds ih => simp [superindex.state_at, List.replicate_succ, ih]

theorem val_zero (ds : List Nat) : ∀ as, superindex.val ds as 0 = 0 := by
  induction ds with
  | nil => intro as; rfl
  | cons d ds ih =>
    intro as
    cases as with
    | nil => rfl
    | cons a as => simp [superindex.val, ih]

/-- The cursor built by `superindex::superindex` under its preconditions. -/
theorem superindex_new_eq (full sub : variable_set) (offset : Nat)
    (hcan : full.canonical) (hsub : full.contains sub) (hne : sub ≠ [])
    (hd : ∀ v ∈ full, 1 ≤ v.states) (hfit : offset + full.num_states < wordSize) :
    superindex.new full sub offset
      = some { m_idx := offset
               m_end := offset + superindex.last_span sub.dims (superindex.strides full sub 1)
               m_ns := sub.nvar
               m_state := List.replicate sub.nvar 1
               m_dims := sub.dims
               m_add := superindex.strides full sub 1 } := by
  have hfit' : 1 * (full.map Variable.states).prod < wordSize := by
    simp only [variable_set.num_states, variable_set.dims] at hfit
    omega
  have hok := strides_ok_of_new full sub 1 hcan hsub hd
  have hlen := strides_ok_length _ _ _ _ hok
  have hne' : sub.dims ≠ [] := by simpa [variable_set.dims] using hne
  obtain ⟨a, d, h1, h2, h3⟩ := last_span_getElem? sub.dims _ hne' hlen
  have hl := last_span_le _ _ _ _ hne' hok
  simp only [variable_set.num_states, variable_set.dims, Nat.one_mul] at hfit hl h1 h2 h3
  simp only [List.length_map] at h1 h2
  simp only [superindex.new, superindex_loop_eq full sub 1 hcan hsub hd hfit',
    variable_set.nvar, variable_set.dims, h1, h2]
  rw [wmul_eq (by omega), wadd_eq (by omega), h3, Nat.add_comm]

/-- The state of a well-formed `superindex` after `k` increments. -/
theorem superindex_iterate (ds as : List Nat) (hi off e : Nat) (hne : ds ≠ [])
    (hd : ∀ d ∈ ds, 1 ≤ d) (hok : superindex.strides_ok 1 ds as hi)
    (hfit : off + hi < wordSize) :
    ∀ k, k ≤ ds.prod →
      (superindex.incr^[k] ⟨off, e, ds.length, List.replicate ds.length 1, ds, as⟩).m_idx
        = off + superindex.val ds as k ∧
      (k < ds.prod →
        superindex.incr^[k] ⟨off, e, ds.length, List.replicate ds.length 1, ds, as⟩
          = ⟨off + superindex.val ds as k, e, ds.length, superindex.state_at ds k, ds, as⟩) := by
  intro k
  induction k with
  | zero =>
    intro _
    simp [state_at_zero, val_zero]
  | succ k ih =>
    intro hk
    have hk' : k < ds.prod := by omega
    have hst := (ih (by omega)).2 hk'
    have := superindex_incr_loop_spec ds.length ds 1 as hi off 0 k hne hd (le_refl _) hok hk'
      hfit (by simp)
    rw [Function.iterate_succ_apply', hst]
    refine ⟨?_, fun hk1 => ?_⟩
    · simp only [superindex.incr, this.1]
    · simp only [superindex.incr, this.1, this.2 hk1]

/-! ## `superindex`: embedding, termination, final index and coverage -/

theorem radix_digit_zero (d : Nat) (ds : List Nat) (k : Nat) :
    radix_digit (d :: ds) k 0 = k % d := by
  simp [radix_digit]

theorem radix_digit_succ (d : Nat) (ds : List Nat) (k j : Nat) :
    radix_digit (d :: ds) k (j + 1) = radix_digit ds (k / d) j := by
  simp [radix_digit, Nat.div_div_eq_div_mul]

theorem sum_range_succ_shift (f : Nat → Nat) (n : Nat) :
    ((List.range (n + 1)).map f).sum
      = f 0 + ((List.range n).map (fun j => f (j + 1))).sum := by
  rw [List.range_succ_eq_map, List.map_cons, List.sum_cons, List.map_map]
  rfl

/-- The index value as the sum of the digits weighted by the strides. -/
theorem val_eq_sum (ds : List Nat) :
    ∀ (as : List Nat) (k : Nat), (∀ d ∈ ds, 1 ≤ d) → k < ds.prod →
      superindex.val ds as k
        = ((List.range ds.length).map (fun j => radix_digit ds k j * as.getD j 0)).sum := by
  induction ds with
  | nil => intro as k _ _; rfl
  | cons d ds ih =>
    intro as k hd hk
    have h1 := hd d (List.mem_cons_self _ _)
    have hd' : ∀ x ∈ ds, 1 ≤ x := fun x hx => hd x (List.mem_cons_of_mem _ hx)
    rw [List.prod_cons] at hk
    have hq : k / d < ds.prod := Nat.div_lt_of_lt_mul hk
    cases as with
    | nil => simp [superindex.val]
    | cons a as =>
      rw [List.length_cons, sum_range_succ_shift]
      simp only [superindex.val, radix_digit_zero, radix_digit_succ, List.getD_cons_zero,
        List.getD_cons_succ]
      rw [ih as (k / d) hd' hq]
      congr 1
      cases ds with
      | nil =>
        simp only [List.prod_nil, Nat.mul_one] at hk
        simp [Nat.mod_eq_of_lt hk]
      | cons d2 ds => simp

theorem val_strict_mono (ds as : List Nat) (hi : Nat) (hne : ds ≠ [])
    (hd : ∀ d ∈ ds, 1 ≤ d) (hok : superindex.strides_ok 1 ds as hi) :
    ∀ k2 k1, k1 < k2 → k2 ≤ ds.prod → superindex.val ds as k1 < superindex.val ds as k2 := by
  intro k2
  induction k2 with
  | zero => intro k1 h; omega
  | succ k2 ih =>
    intro k1 h hk2
    have hs := val_succ ds 1 as hi k2 hne hd hok (by omega)
    by_cases hk : k1 = k2
    · subst hk; omega
    · have := ih k1 (by omega) (by omega)
      omega

theorem sub_dims_pos {full sub : variable_set} (hsub : full.contains sub)
    (hd : ∀ v ∈ full, 1 ≤ v.states) : ∀ d ∈ sub.dims, 1 ≤ d := by
  intro d hdm
  simp only [variable_set.dims, List.mem_map] at hdm
  obtain ⟨v, hv, rfl⟩ := hdm
  exact hd v (hsub.subset hv)

theorem getD_map_stride (full sub : variable_set) (j : Nat) (hj : j < sub.length) :
    (sub.map (fun v => 1 * stride_full full v)).getD j 0
      = stride_full full (sub.getD j ⟨0, 0⟩) := by
  simp [List.getD_eq_getElem?_getD, List.getElem?_map, List.getElem?_eq_getElem hj]

/-- C3. Functional correctness of `superindex`: after `k` increments from
construction (`k` below the number of configurations of `sub`) the index read
is `offset + Σ_j d_j(k) * stride_full(sub[j])`, where `d_j(k)` is the `j`-th
mixed-radix digit of `k` over the domain sizes of `sub` and `stride_full(v)` is
the product of the domain sizes of the variables of `full` that precede `v`. -/
theorem superindex_embedding (full sub : variable_set) (offset k : Nat)
    (hcan : full.canonical) (hsub : full.contains sub) (hne : sub ≠ [])
    (hd : ∀ v ∈ full, 1 ≤ v.states) (hfit : offset + full.num_states < wordSize)
    (hk : k < sub.num_states) :
    ∃ s, superindex.new full sub offset = some s ∧
      (superindex.incr^[k] s).toIndex
        = offset + ((List.range sub.nvar).map
            (fun j => radix_digit sub.dims k j * stride_full full (sub.getD j ⟨0, 0⟩))).sum := by
  refine ⟨_, superindex_new_eq full sub offset hcan hsub hne hd hfit, ?_⟩
  have hok := strides_ok_of_new full sub 1 hcan hsub hd
  have hne' : sub.dims ≠ [] := by simpa [variable_set.dims] using hne
  have hds := sub_dims_pos hsub hd
  have hlen : sub.nvar = sub.dims.length := by simp [variable_set.nvar, variable_set.dims]
  have hfit' : offset + 1 * (full.map Variable.states).prod < wordSize := by
    simpa [variable_set.num_states, variable_set.dims] using hfit
  have := (superindex_iterate sub.dims _ _ offset
    (offset + superindex.last_span sub.dims (superindex.strides full sub 1)) hne' hds hok hfit'
    k (le_of_lt hk)).1
  rw [hlen, superindex.toIndex, this, val_eq_sum sub.dims _ k hds hk,
    strides_eq_map full sub 1 hcan hsub]
  refine congrArg _ (congrArg _ (List.map_congr_left ?_))
  intro j hj
  rw [getD_map_stride full sub j (by simpa [variable_set.dims] using hj)]

/-- Scenario B of the specification, and an instance of C3: over
`full = [A(2), B(3)]`, `sub = [A]` the cursor yields `0, 1` at offset 0 and
`4, 5` at offset 4. -/
theorem superindex_embedding_witness :
    ((superindex.new [⟨0, 2⟩, ⟨1, 3⟩] [⟨0, 2⟩] 0).map
        (fun s => (List.range 2).map (fun k => (superindex.incr^[k] s).toIndex))
      = some [0, 1] ∧
     (superindex.new [⟨0, 2⟩, ⟨1, 3⟩] [⟨0, 2⟩] 4).map
        (fun s => (List.range 2).map (fun k => (superindex.incr^[k] s).toIndex))
      = some [4, 5]) ∧
    ∃ s, superindex.new [⟨0, 2⟩, ⟨1, 3⟩, ⟨2, 2⟩] [⟨0, 2⟩, ⟨2, 2⟩] 2 = some s ∧
      (superindex.incr^[3] s).toIndex
        = 2 + ((List.range (variable_set.nvar [⟨0, 2⟩, ⟨2, 2⟩])).map
            (fun j => radix_digit (variable_set.dims [⟨0, 2⟩, ⟨2, 2⟩]) 3 j
              * stride_full [⟨0, 2⟩, ⟨1, 3⟩, ⟨2, 2⟩]
                  (List.getD [⟨0, 2⟩, ⟨2, 2⟩] j ⟨0, 0⟩))).sum :=
  ⟨by decide,
   superindex_embedding [⟨0, 2⟩, ⟨1, 3⟩, ⟨2, 2⟩] [⟨0, 2⟩, ⟨2, 2⟩] 2 3 (by decide) (by decide)
     (by decide) (by decide) (by decide) (by decide)⟩

/-- The run of a `superindex` built under its preconditions: the cursor exists,
and its index after `k ≤ Π dims(sub)` increments is `offset` plus the exact
value `superindex.val`. -/
theorem superindex_run (full sub : variable_set) (offset : Nat)
    (hcan : full.canonical) (hsub : full.contains sub) (hne : sub ≠ [])
    (hd : ∀ v ∈ full, 1 ≤ v.states) (hfit : offset + full.num_states < wordSize) :
    ∃ s, superindex.new full sub offset = some s ∧
      s.m_ns = sub.nvar ∧ s.m_dims = sub.dims ∧ s.m_add = superindex.strides full sub 1 ∧
      s.end_ = offset + superindex.last_span sub.dims (superindex.strides full sub 1) ∧
      (∀ k, k ≤ sub.num_states → (superindex.incr^[k] s).toIndex
        = offset + superindex.val sub.dims (superindex.strides full sub 1) k) ∧
      (∀ k, k < sub.num_states →
        (superindex.incr^[k] s).m_state = superindex.state_at sub.dims k) := by
  refine ⟨_, superindex_new_eq full sub offset hcan hsub hne hd hfit, rfl, rfl, rfl, rfl, ?_⟩
  have hok := strides_ok_of_new full sub 1 hcan hsub hd
  have hne' : sub.dims ≠ [] := by simpa [variable_set.dims] using hne
  have hds := sub_dims_pos hsub hd
  have hlen : sub.nvar = sub.dims.length := by simp [variable_set.nvar, variable_set.dims]
  have hfit' : offset + 1 * (full.map Variable.states).prod < wordSize := by
    simpa [variable_set.num_states, variable_set.dims] using hfit
  have key := superindex_iterate sub.dims _ _ offset
    (offset + superindex.last_span sub.dims (superindex.strides full sub 1)) hne' hds hok hfit'
  rw [hlen]
  refine ⟨fun k hk => (key k hk).1, fun k hk => ?_⟩
  rw [(key k (le_of_lt hk)).2 hk]

/-- C4. Termination of a `superindex` sweep by bound check: the index read
after `k` increments is below `end()` for every `k < Π dims(sub)`, it equals
`end() = offset + add[last] * dims[last]` after exactly `Π dims(sub)`
increments, so the first step at which the index equals `end()` is
`Π dims(sub)`. -/
theorem superindex_terminates_at_end (full sub : variable_set) (offset : Nat)
    (hcan : full.canonical) (hsub : full.contains sub) (hne : sub ≠ [])
    (hd : ∀ v ∈ full, 1 ≤ v.states) (hfit : offset + full.num_states < wordSize) :
    ∃ s, superindex.new full sub offset = some s ∧
      s.end_ = offset + s.m_add.getD (s.m_ns - 1) 0 * s.m_dims.getD (s.m_ns - 1) 0 ∧
      (∀ k, k < sub.num_states → (superindex.incr^[k] s).toIndex < s.end_) ∧
      (superindex.incr^[sub.num_states] s).toIndex = s.end_ ∧
      (∀ k, ((superindex.incr^[k] s).toIndex = s.end_ ∧
          ∀ j, j < k → (superindex.incr^[j] s).toIndex ≠ s.end_) ↔ k = sub.num_states) := by
  obtain ⟨s, hs, hns, hdims, hadd, hend, hidx, _⟩ :=
    superindex_run full sub offset hcan hsub hne hd hfit
  have hok := strides_ok_of_new full sub 1 hcan hsub hd
  have hne' : sub.dims ≠ [] := by simpa [variable_set.dims] using hne
  have hds := sub_dims_pos hsub hd
  have hlen := strides_ok_length _ _ _ _ hok
  have hlen' : sub.nvar = sub.dims.length := by simp [variable_set.nvar, variable_set.dims]
  obtain ⟨a, d, h1, h2, h3⟩ := last_span_getElem? sub.dims _ hne' hlen
  have hlt : ∀ k, k < sub.num_states → (superindex.incr^[k] s).toIndex < s.end_ := by
    intro k hk
    have := val_bound sub.dims 1 _ _ k hne' hds hok hk
    rw [hidx k (le_of_lt hk), hend]
    omega
  have heq : (superindex.incr^[sub.num_states] s).toIndex = s.end_ := by
    rw [hidx _ (le_refl _), hend, variable_set.num_states, val_prod sub.dims _ hne' hds hlen]
  refine ⟨s, hs, ?_, hlt, heq, fun k => ⟨fun h => ?_, fun h => ?_⟩⟩
  · rw [hend, hns, hdims, hadd, hlen', ← h3]
    simp [List.getD_eq_getElem?_getD, h1, h2]
  · rcases Nat.lt_trichotomy k sub.num_states with hk | hk | hk
    · exact absurd h.1 (Nat.ne_of_lt (hlt k hk))
    · exact hk
    · exact absurd heq (h.2 _ hk)
  · subst h
    exact ⟨heq, fun j hj => Nat.ne_of_lt (hlt j hj)⟩

/-- An instance of C4 over `full = [A(2), B(3), C(2)]`, `sub = [A, C]`,
`offset = 2`. -/
theorem superindex_terminates_at_end_witness :
    ∃ s, superindex.new [⟨0, 2⟩, ⟨1, 3⟩, ⟨2, 2⟩] [⟨0, 2⟩, ⟨2, 2⟩] 2 = some s ∧
      s.end_ = 2 + s.m_add.getD (s.m_ns - 1) 0 * s.m_dims.getD (s.m_ns - 1) 0 ∧
      (∀ k, k < variable_set.num_states [⟨0, 2⟩, ⟨2, 2⟩] →
        (superindex.incr^[k] s).toIndex < s.end_) ∧
      (superindex.incr^[variable_set.num_states [⟨0, 2⟩, ⟨2, 2⟩]] s).toIndex = s.end_ ∧
      (∀ k, ((superindex.incr^[k] s).toIndex = s.end_ ∧
          ∀ j, j < k → (superindex.incr^[j] s).toIndex ≠ s.end_)
        ↔ k = variable_set.num_states [⟨0, 2⟩, ⟨2, 2⟩]) :=
  superindex_terminates_at_end [⟨0, 2⟩, ⟨1, 3⟩, ⟨2, 2⟩] [⟨0, 2⟩, ⟨2, 2⟩] 2 (by decide)
    (by decide) (by decide) (by decide) (by decide)

/-- C6. Coverage of a `superindex` sweep: the indices read at the steps
`0 .. Π dims(sub) - 1` are pairwise distinct, and an increment in that range
that resets no digit strictly increases the index. -/
theorem superindex_coverage (full sub : variable_set) (offset : Nat)
    (hcan : full.canonical) (hsub : full.contains sub) (hne : sub ≠ [])
    (hd : ∀ v ∈ full, 1 ≤ v.states) (hfit : offset + full.num_states < wordSize) :
    ∃ s, superindex.new full sub offset = some s ∧
      ((List.range sub.num_states).map (fun k => (superindex.incr^[k] s).toIndex)).Nodup ∧
      (∀ k1 k2, k1 < sub.num_states → k2 < sub.num_states →
        (superindex.incr^[k1] s).toIndex = (superindex.incr^[k2] s).toIndex → k1 = k2) ∧
      (∀ k, k + 1 < sub.num_states →
        superindex.resets s.m_ns 0 (superindex.incr^[k] s).m_state s.m_dims = 0 →
        (superindex.incr^[k] s).toIndex < (superindex.incr^[k + 1] s).toIndex) := by
  obtain ⟨s, hs, _, _, _, _, hidx, _⟩ :=
    superindex_run full sub offset hcan hsub hne hd hfit
  have hok := strides_ok_of_new full sub 1 hcan hsub hd
  have hne' : sub.dims ≠ [] := by simpa [variable_set.dims] using hne
  have hds := sub_dims_pos hsub hd
  have hmono : ∀ k1 k2, k1 < k2 → k2 ≤ sub.num_states →
      (superindex.incr^[k1] s).toIndex < (superindex.incr^[k2] s).toIndex := by
    intro k1 k2 h12 h2
    have := val_strict_mono sub.dims _ _ hne' hds hok k2 k1 h12 h2
    rw [hidx k1 (by omega), hidx k2 h2]
    omega
  have hinj : ∀ k1 k2, k1 < sub.num_states → k2 < sub.num_states →
      (superindex.incr^[k1] s).toIndex = (superindex.incr^[k2] s).toIndex → k1 = k2 := by
    intro k1 k2 h1 h2 he
    rcases Nat.lt_trichotomy k1 k2 with h | h | h
    · exact absurd he (Nat.ne_of_lt (hmono k1 k2 h (le_of_lt h2)))
    · exact h
    · exact absurd he.symm (Nat.ne_of_lt (hmono k2 k1 h (le_of_lt h1)))
  refine ⟨s, hs, ?_, hinj, fun k hk _ => hmono k (k + 1) (by omega) (le_of_lt hk)⟩
  rw [List.nodup_map_iff_inj_on (List.nodup_range _)]
  intro k1 hk1 k2 hk2 he
  exact hinj k1 k2 (List.mem_range.mp hk1) (List.mem_range.mp hk2) he

theorem radix_digit_pred (ds : List Nat) (hd : ∀ d ∈ ds, 1 ≤ d) :
    ∀ j, j < ds.length → radix_digit ds (ds.prod - 1) j = ds.getD j 0 - 1 := by
  induction ds with
  | nil => intro j h; simp at h
  | cons d ds ih =>
    intro j hj
    have h1 := hd d (List.mem_cons_self _ _)
    have hd' : ∀ x ∈ ds, 1 ≤ x := fun x hx => hd x (List.mem_cons_of_mem _ hx)
    have hP : 1 ≤ ds.prod := by
      have : ∀ x ∈ ds, 0 < x := fun x hx => hd' x hx
      exact List.prod_pos this
    have hsplit : d * ds.prod - 1 = (d - 1) + d * (ds.prod - 1) := by
      have : d * ds.prod = d * (ds.prod - 1) + d := by
        rw [← Nat.mul_succ]; congr 1; omega
      omega
    cases j with
    | zero =>
      rw [radix_digit_zero, List.prod_cons, hsplit, Nat.add_mul_mod_self_left,
        Nat.mod_eq_of_lt (by omega)]
      simp
    | succ j =>
      rw [radix_digit_succ, List.prod_cons, hsplit, Nat.add_mul_div_left _ _ (by omega),
        Nat.div_eq_of_lt (by omega), Nat.zero_add, ih hd' j (by simpa using hj)]
      simp

/-- C5 fails as stated: over `full = sub = [A(2), B(3)]`, `offset = 0`, the last
of the six enumerated positions reads index 5, whereas `end() - add[last]` is
`6 - 2 = 4`. -/
theorem superindex_final_index_counterexample :
    ∃ s, superindex.new [⟨0, 2⟩, ⟨1, 3⟩] [⟨0, 2⟩, ⟨1, 3⟩] 0 = some s ∧
      (superindex.incr^[variable_set.num_states [⟨0, 2⟩, ⟨1, 3⟩] - 1] s).toIndex = 5 ∧
      s.end_ - s.m_add.getD (s.m_ns - 1) 0 = 4 ∧
      (superindex.incr^[variable_set.num_states [⟨0, 2⟩, ⟨1, 3⟩] - 1] s).toIndex
        ≠ s.end_ - s.m_add.getD (s.m_ns - 1) 0 :=
  ⟨_, rfl, by decide, by decide, by decide⟩

/-- C5, amended. The index read at the last of the `Π dims(sub)` enumerated
positions is `end() - add[last]` plus the contribution
`Σ_{j < last} (dims[j] - 1) * add[j]` of the non-final digits at their maximum;
it is `end() - add[last]` when `sub` has a single variable. -/
theorem superindex_final_index (full sub : variable_set) (offset : Nat)
    (hcan : full.canonical) (hsub : full.contains sub) (hne : sub ≠ [])
    (hd : ∀ v ∈ full, 1 ≤ v.states) (hfit : offset + full.num_states < wordSize) :
    ∃ s, superindex.new full sub offset = some s ∧
      (superindex.incr^[sub.num_states - 1] s).toIndex
        = s.end_ - s.m_add.getD (s.m_ns - 1) 0
          + ((List.range (s.m_ns - 1)).map
              (fun j => (s.m_dims.getD j 0 - 1) * s.m_add.getD j 0)).sum ∧
      (sub.nvar = 1 →
        (superindex.incr^[sub.num_states - 1] s).toIndex
          = s.end_ - s.m_add.getD (s.m_ns - 1) 0) := by
  obtain ⟨s, hs, hns, hdims, hadd, hend, hidx, _⟩ :=
    superindex_run full sub offset hcan hsub hne hd hfit
  have hok := strides_ok_of_new full sub 1 hcan hsub hd
  have hne' : sub.dims ≠ [] := by simpa [variable_set.dims] using hne
  have hds := sub_dims_pos hsub hd
  have hlen := strides_ok_length _ _ _ _ hok
  have hlen' : sub.nvar = sub.dims.length := by simp [variable_set.nvar, variable_set.dims]
  obtain ⟨a, d, h1, h2, h3⟩ := last_span_getElem? sub.dims _ hne' hlen
  have hN : 1 ≤ sub.num_states := List.prod_pos (fun x hx => hds x hx)
  have hn : 1 ≤ sub.dims.length := List.length_pos.mpr hne'
  have hd1 : 1 ≤ d := hds d (List.getElem?_mem h2)
  have hga : (superindex.strides full sub 1).getD (sub.dims.length - 1) 0 = a := by
    simp [List.getD_eq_getElem?_getD, h1]
  have hgd : sub.dims.getD (sub.dims.length - 1) 0 = d := by
    simp [List.getD_eq_getElem?_getD, h2]
  have hsum : superindex.val sub.dims (superindex.strides full sub 1) (sub.num_states - 1)
      = ((List.range (sub.dims.length - 1)).map
          (fun j => (sub.dims.getD j 0 - 1) * (superindex.strides full sub 1).getD j 0)).sum
        + (d - 1) * a := by
    have hN' : sub.num_states - 1 < sub.dims.prod := by
      simp only [variable_set.num_states] at hN ⊢; omega
    rw [val_eq_sum sub.dims _ _ hds hN']
    have hmap : (List.range sub.dims.length).map
          (fun j => radix_digit sub.dims (sub.num_states - 1) j
            * (superindex.strides full sub 1).getD j 0)
        = (List.range sub.dims.length).map
          (fun j => (sub.dims.getD j 0 - 1) * (superindex.strides full sub 1).getD j 0) := by
      apply List.map_congr_left
      intro j hj
      rw [variable_set.num_states, radix_digit_pred sub.dims hds j (List.mem_range.mp hj)]
    rw [hmap]
    obtain ⟨m, hm⟩ : ∃ m, sub.dims.length = m + 1 := ⟨sub.dims.length - 1, by omega⟩
    rw [hm, List.range_succ, List.map_append, List.sum_append]
    simp only [Nat.add_sub_cancel, List.map_cons, List.map_nil, List.sum_cons, List.sum_nil,
      Nat.add_zero]
    rw [hm, Nat.add_sub_cancel] at hga hgd
    rw [hga, hgd]
  have hfin : (superindex.incr^[sub.num_states - 1] s).toIndex
      = s.end_ - s.m_add.getD (s.m_ns - 1) 0
        + ((List.range (s.m_ns - 1)).map
            (fun j => (s.m_dims.getD j 0 - 1) * s.m_add.getD j 0)).sum := by
    rw [hidx _ (by omega), hsum, hend, hns, hdims, hadd, hlen', hga, ← h3]
    have h5 : a * d = a + (d - 1) * a := by
      have : d = (d - 1) + 1 := by omega
      calc a * d = a * ((d - 1) + 1) := by rw [← this]
        _ = a + (d - 1) * a := by ring
    omega
  refine ⟨s, hs, hfin, fun h1v => ?_⟩
  rw [hfin, hns, h1v]
  simp

/-- An instance of the amended C5 over `full = sub = [A(2), B(3)]`,
`offset = 0`: the final index is `5 = (6 - 2) + (2 - 1) * 1`. -/
theorem superindex_final_index_witness :
    ∃ s, superindex.new [⟨0, 2⟩, ⟨1, 3⟩] [⟨0, 2⟩, ⟨1, 3⟩] 0 = some s ∧
      (superindex.incr^[variable_set.num_states [⟨0, 2⟩, ⟨1, 3⟩] - 1] s).toIndex
        = s.end_ - s.m_add.getD (s.m_ns - 1) 0
          + ((List.range (s.m_ns - 1)).map
              (fun j => (s.m_dims.getD j 0 - 1) * s.m_add.getD j 0)).sum ∧
      (variable_set.nvar [⟨0, 2⟩, ⟨1, 3⟩] = 1 →
        (superindex.incr^[variable_set.num_states [⟨0, 2⟩, ⟨1, 3⟩] - 1] s).toIndex
          = s.end_ - s.m_add.getD (s.m_ns - 1) 0) :=
  superindex_final_index [⟨0, 2⟩, ⟨1, 3⟩] [⟨0, 2⟩, ⟨1, 3⟩] 0 (by decide) (by decide)
    (by decide) (by decide) (by decide)

/-- An instance of C6 over `full = [A(2), B(3), C(2)]`, `sub = [A, C]`,
`offset = 2`; the first increment resets no digit, the second resets one. -/
theorem superindex_coverage_witness :
    ((superindex.new [⟨0, 2⟩, ⟨1, 3⟩, ⟨2, 2⟩] [⟨0, 2⟩, ⟨2, 2⟩] 2).map
        (fun s => (List.range 4).map (fun k =>
          ((superindex.incr^[k] s).toIndex,
            superindex.resets s.m_ns 0 (superindex.incr^[k] s).m_state s.m_dims)))
      = some [(2, 0), (3, 1), (8, 0), (9, 1)]) ∧
    ∃ s, superindex.new [⟨0, 2⟩, ⟨1, 3⟩, ⟨2, 2⟩] [⟨0, 2⟩, ⟨2, 2⟩] 2 = some s ∧
      ((List.range (variable_set.num_states [⟨0, 2⟩, ⟨2, 2⟩])).map
        (fun k => (superindex.incr^[k] s).toIndex)).Nodup ∧
      (∀ k1 k2, k1 < variable_set.num_states [⟨0, 2⟩, ⟨2, 2⟩] →
        k2 < variable_set.num_states [⟨0, 2⟩, ⟨2, 2⟩] →
        (superindex.incr^[k1] s).toIndex = (superindex.incr^[k2] s).toIndex → k1 = k2) ∧
      (∀ k, k + 1 < variable_set.num_states [⟨0, 2⟩, ⟨2, 2⟩] →
        superindex.resets s.m_ns 0 (superindex.incr^[k] s).m_state s.m_dims = 0 →
        (superindex.incr^[k] s).toIndex < (superindex.incr^[k + 1] s).toIndex) :=
  ⟨by decide,
   superindex_coverage [⟨0, 2⟩, ⟨1, 3⟩, ⟨2, 2⟩] [⟨0, 2⟩, ⟨2, 2⟩] 2 (by decide) (by decide)
     (by decide) (by decide) (by decide)⟩

/-! ## The canonical collection of a sequence of variables -/

theorem mem_insert {v x : Variable} (ws : List Variable) :
    x ∈ variable_set.insert v ws → x = v ∨ x ∈ ws := by
  induction ws with
  | nil => intro h; simpa [variable_set.insert] using h
  | cons w ws ih =>
    intro h
    simp only [variable_set.insert] at h
    split_ifs at h with h1 h2
    · simpa using h
    · exact Or.inr h
    · rcases List.mem_cons.mp h with h | h
      · exact Or.inr (by simp [h])
      · rcases ih h with h | h
        · exact Or.inl h
        · exact Or.inr (List.mem_cons_of_mem _ h)

theorem insert_canonical (v : Variable) (ws : List Variable)
    (h : variable_set.canonical ws) : variable_set.canonical (variable_set.insert v ws) := by
  induction ws with
  | nil => simp [variable_set.insert, variable_set.canonical]
  | cons w ws ih =>
    have hw := canonical_head_lt h
    have ht := canonical_tail h
    simp only [variable_set.insert]
    split_ifs with h1 h2
    · refine List.pairwise_cons.mpr ⟨fun x hx => ?_, h⟩
      rcases List.mem_cons.mp hx with hx | hx
      · rw [hx]; exact h1
      · exact lt_trans h1 (hw x hx)
    · exact h
    · refine List.pairwise_cons.mpr ⟨fun x hx => ?_, ih ht⟩
      rcases mem_insert ws hx with hx | hx
      · rw [hx]; omega
      · exact hw x hx

theorem ofList_canonical (l : List Variable) :
    variable_set.canonical (variable_set.ofList l) := by
  induction l with
  | nil => simp [variable_set.ofList, variable_set.canonical]
  | cons v l ih => exact insert_canonical v _ ih

theorem insert_perm (v : Variable) (ws : List Variable)
    (h : ∀ w ∈ ws, v.label ≠ w.label) : (variable_set.insert v ws).Perm (v :: ws) := by
  induction ws with
  | nil => simp [variable_set.insert]
  | cons w ws ih =>
    have hw := h w (List.mem_cons_self _ _)
    simp only [variable_set.insert]
    split_ifs with h1
    · exact List.Perm.refl _
    · exact ((ih (fun x hx => h x (List.mem_cons_of_mem _ hx))).cons w).trans
        (List.Perm.swap v w ws)

theorem ofList_perm (l : List Variable) (h : distinct l) :
    (variable_set.ofList l).Perm l := by
  induction l with
  | nil => simp [variable_set.ofList]
  | cons v l ih =>
    have h' := List.pairwise_cons.mp h
    have ihp := ih h'.2
    have : (variable_set.insert v (variable_set.ofList l)).Perm (v :: variable_set.ofList l) :=
      insert_perm v _ (fun w hw => h'.1 w (ihp.subset hw))
    exact this.trans (ihp.cons v)

theorem ofList_of_canonical (l : List Variable) (h : variable_set.canonical l) :
    variable_set.ofList l = l := by
  induction l with
  | nil => rfl
  | cons v l ih =>
    have hv := canonical_head_lt h
    show variable_set.insert v (variable_set.ofList l) = v :: l
    rw [ih (canonical_tail h)]
    cases l with
    | nil => rfl
    | cons w l => simp [variable_set.insert, hv w (List.mem_cons_self _ _)]

theorem canonical_unique {l₁ l₂ : List Variable} (hp : l₁.Perm l₂)
    (h₁ : variable_set.canonical l₁) (h₂ : variable_set.canonical l₂) : l₁ = l₂ := by
  haveI : IsAntisymm Variable (fun a b => a.label < b.label) :=
    ⟨fun a b hab hba => absurd hab (Nat.lt_asymm hba)⟩
  exact List.eq_of_perm_of_sorted hp h₁ h₂

theorem distinct_reverse {l : List Variable} (h : distinct l) : distinct l.reverse := by
  unfold distinct at h ⊢
  rw [List.pairwise_reverse]
  exact h.imp (fun hab => hab.symm)

theorem ofList_reverse (l : List Variable) (h : distinct l) :
    variable_set.ofList l.reverse = variable_set.ofList l :=
  canonical_unique
    (((ofList_perm _ (distinct_reverse h)).trans (List.reverse_perm l)).trans
      (ofList_perm l h).symm)
    (ofList_canonical _) (ofList_canonical _)

theorem canonical_label_inj {vs : List Variable} (h : variable_set.canonical vs) :
    ∀ x ∈ vs, ∀ y ∈ vs, x.label = y.label → x = y := by
  induction vs with
  | nil => intro x hx; simp at hx
  | cons v vs ih =>
    intro x hx y hy hxy
    have hv := canonical_head_lt h
    rcases List.mem_cons.mp hx with hx | hx <;> rcases List.mem_cons.mp hy with hy | hy
    · rw [hx, hy]
    · have := hv y hy; rw [hx] at hxy; omega
    · have := hv x hx; rw [hy] at hxy; omega
    · exact ih (canonical_tail h) x hx y hy hxy

theorem distinct_label_inj {l : List Variable} (h : distinct l) :
    ∀ x ∈ l, ∀ y ∈ l, x.label = y.label → x = y := by
  induction l with
  | nil => intro x hx; simp at hx
  | cons v l ih =>
    intro x hx y hy hxy
    have h' := List.pairwise_cons.mp h
    rcases List.mem_cons.mp hx with hx | hx <;> rcases List.mem_cons.mp hy with hy | hy
    · rw [hx, hy]
    · rw [hx] at hxy; exact absurd hxy (h'.1 y hy)
    · rw [hy] at hxy; exact absurd hxy.symm (h'.1 x hx)
    · exact ih h'.2 x hx y hy hxy

/-! ## Mixed-radix composition and decomposition -/

theorem digits_compose (ds : List Nat) :
    ∀ xs, List.Forall₂ (fun x d => x < d) xs ds → digits ds (compose ds xs) = xs := by
  induction ds with
  | nil => intro xs h; cases h; rfl
  | cons d ds ih =>
    intro xs h
    cases h with
    | cons hx hrest =>
      rename_i x xs'
      simp only [compose, digits]
      rw [Nat.add_mul_mod_self_left, Nat.mod_eq_of_lt hx,
        Nat.add_mul_div_left _ _ (by omega), Nat.div_eq_of_lt hx, Nat.zero_add, ih _ hrest]

theorem compose_digits (ds : List Nat) :
    ∀ i, i < ds.prod → compose ds (digits ds i) = i := by
  induction ds with
  | nil => intro i h; simp at h; simp [compose, h]
  | cons d ds ih =>
    intro i h
    rw [List.prod_cons] at h
    simp only [digits, compose]
    rw [ih _ (Nat.div_lt_of_lt_mul h)]
    exact Nat.mod_add_div i d

theorem compose_lt (ds : List Nat) :
    ∀ xs, List.Forall₂ (fun x d => x < d) xs ds → compose ds xs < ds.prod := by
  induction ds with
  | nil => intro xs h; cases h; simp [compose]
  | cons d ds ih =>
    intro xs h
    cases h with
    | cons hx hrest =>
      rename_i x xs'
      have := ih _ hrest
      simp only [compose, List.prod_cons]
      calc x + d * compose ds xs' < d + d * compose ds xs' := by omega
        _ = d * (compose ds xs' + 1) := by ring
        _ ≤ d * ds.prod := Nat.mul_le_mul_left _ this

theorem digits_lt (ds : List Nat) (hd : ∀ d ∈ ds, 1 ≤ d) :
    ∀ i, List.Forall₂ (fun x d => x < d) (digits ds i) ds := by
  induction ds with
  | nil => intro i; exact List.Forall₂.nil
  | cons d ds ih =>
    intro i
    exact List.Forall₂.cons (Nat.mod_lt _ (hd d (List.mem_cons_self _ _)))
      (ih (fun x hx => hd x (List.mem_cons_of_mem _ hx)) _)

theorem forall₂_getD {xs ds : List Nat} (h : List.Forall₂ (fun x d => x < d) xs ds) :
    ∀ t, t < ds.length → xs.getD t 0 < ds.getD t 0 := by
  induction h with
  | nil => intro t ht; simp at ht
  | cons hx _ ih =>
    intro t ht
    cases t with
    | zero => simpa using hx
    | succ t => simpa using ih t (by simpa using ht)

theorem forall₂_map_getD (xs ds : List Nat) (ps : List Nat)
    (h : ∀ t ∈ ps, xs.getD t 0 < ds.getD t 0) :
    List.Forall₂ (fun x d => x < d) (ps.map (fun t => xs.getD t 0))
      (ps.map (fun t => ds.getD t 0)) := by
  induction ps with
  | nil => exact List.Forall₂.nil
  | cons p ps ih =>
    exact List.Forall₂.cons (h p (List.mem_cons_self _ _))
      (ih (fun t ht => h t (List.mem_cons_of_mem _ ht)))

/-- The first loop of `convert` computes the mixed-radix digits. -/
theorem decompose_eq (ds : List Nat) :
    ∀ i, i < wordSize → permute_index.decompose ds i = digits ds i := by
  induction ds with
  | nil => intro i _; rfl
  | cons d ds ih =>
    intro i hi
    have hle : i % d ≤ i := Nat.mod_le _ _
    have hdiv : (i - i % d) / d = i / d := by
      rcases Nat.eq_zero_or_pos d with h0 | hpos
      · subst h0; simp
      · have h1 : i - i % d = d * (i / d) := by
          have := Nat.div_add_mod i d
          omega
        rw [h1, Nat.mul_div_cancel_left _ hpos]
    simp only [permute_index.decompose, digits]
    rw [wsub_eq hle hi, hdiv, ih _ (lt_of_le_of_lt (Nat.div_le_self _ _) hi)]

/-- The second loop of `convert` composes the digits read through `m_pi`. -/
theorem recompose_eq (dim I : List Nat) (ps : List Nat) :
    ∀ r m, (∀ t ∈ ps, I.getD t 0 < dim.getD t 0) → r < m →
      m * (ps.map (fun t => dim.getD t 0)).prod < wordSize →
      permute_index.recompose dim I ps r m
        = r + m * compose (ps.map (fun t => dim.getD t 0)) (ps.map (fun t => I.getD t 0)) := by
  induction ps with
  | nil => intro r m _ _ _; simp [permute_index.recompose, compose]
  | cons p ps ih =>
    intro r m h hrm hfit
    have hp := h p (List.mem_cons_self _ _)
    have h' : ∀ t ∈ ps, I.getD t 0 < dim.getD t 0 :=
      fun t ht => h t (List.mem_cons_of_mem _ ht)
    simp only [List.map_cons, List.prod_cons] at hfit
    have hP : 1 ≤ (ps.map (fun t => dim.getD t 0)).prod := by
      have hpos : ∀ x ∈ ps.map (fun t => dim.getD t 0), 0 < x := by
        intro x hx
        obtain ⟨t, ht, rfl⟩ := List.mem_map.mp hx
        have := h' t ht
        omega
      exact List.prod_pos hpos
    have hmd : m * dim.getD p 0 ≤ m * (dim.getD p 0 * (ps.map (fun t => dim.getD t 0)).prod) :=
      Nat.mul_le_mul_left _ (Nat.le_mul_of_pos_right _ hP)
    have hmx : m * (I.getD p 0 + 1) ≤ m * dim.getD p 0 := Nat.mul_le_mul_left _ hp
    have hmx' : m * (I.getD p 0 + 1) = m * I.getD p 0 + m := by ring
    have hass : m * dim.getD p 0 * (ps.map (fun t => dim.getD t 0)).prod
        = m * (dim.getD p 0 * (ps.map (fun t => dim.getD t 0)).prod) := Nat.mul_assoc _ _ _
    simp only [permute_index.recompose, List.map_cons, compose]
    rw [wmul_eq (by omega), wmul_eq (by omega), wadd_eq (by omega),
      ih _ _ h' (by omega) (by omega)]
    ring

/-! ## `permute_index`: `convert` and `inverse` on a well-formed cursor -/

theorem range_map_getD (l : List Nat) :
    (List.range l.length).map (fun t => l.getD t 0) = l := by
  apply List.ext_getElem?
  intro n
  by_cases h : n < l.length
  · simp [List.getElem?_map, List.getElem?_range h, List.getElem?_eq_getElem h]
  · have h' : l.length ≤ n := by omega
    rw [List.getElem?_eq_none (by simpa using h'), List.getElem?_eq_none h']

/-- Assignments `a[g i] = f i` for `i = 0 .. m - 1` at pairwise distinct
positions: every assigned position holds its value at the end. -/
theorem foldl_set_spec (g f : Nat → Nat) (init : List Nat) :
    ∀ m, (∀ i, i < m → ∀ j, j < m → g i = g j → i = j) → (∀ i, i < m → g i < init.length) →
      ((List.range m).foldl (fun a i => a.set (g i) (f i)) init).length = init.length ∧
      ∀ i, i < m →
        ((List.range m).foldl (fun a i => a.set (g i) (f i)) init)[g i]? = some (f i) := by
  intro m
  induction m with
  | zero => intro _ _; exact ⟨rfl, fun i hi => absurd hi (Nat.not_lt_zero _)⟩
  | succ m ih =>
    intro hinj hlt
    obtain ⟨hlen, hval⟩ := ih (fun i hi j hj => hinj i (by omega) j (by omega))
      (fun i hi => hlt i (by omega))
    rw [List.range_succ, List.foldl_append]
    simp only [List.foldl_cons, List.foldl_nil, List.length_set]
    refine ⟨hlen, fun i hi => ?_⟩
    by_cases him : i = m
    · subst him
      rw [List.getElem?_set_self (by rw [hlen]; exact hlt i (by omega))]
    · have hne : g m ≠ g i := fun h => him (hinj m (by omega) i hi h).symm
      rw [List.getElem?_set_ne hne]
      exact hval i (by omega)

theorem inverse_fold (p : permute_index) (l : List Nat) :
    ∀ q : permute_index,
      l.foldl (fun (inv : permute_index) i =>
          { inv with
            m_pi := inv.m_pi.set (p.m_pi.getD i 0) i
            m_dim := inv.m_dim.set i (p.m_dim.getD (p.m_pi.getD i 0) 0) }) q
        = { m_i := q.m_i
            m_pi := l.foldl (fun a i => a.set (p.m_pi.getD i 0) i) q.m_pi
            m_dim := l.foldl (fun a i => a.set i (p.m_dim.getD (p.m_pi.getD i 0) 0)) q.m_dim } := by
  induction l with
  | nil => intro q; rfl
  | cons x l ih => intro q; simp only [List.foldl_cons, ih]

theorem perm_range_lt {pi : List Nat} {n : Nat} (h : pi.Perm (List.range n)) :
    ∀ t ∈ pi, t < n := fun _ ht => List.mem_range.mp (h.subset ht)

theorem perm_range_getD_inj {pi : List Nat} {n : Nat} (h : pi.Perm (List.range n)) :
    ∀ i, i < n → ∀ j, j < n → pi.getD i 0 = pi.getD j 0 → i = j := by
  intro i hi j hj hij
  have hlen : pi.length = n := by simpa using h.length_eq
  have hnd : pi.Nodup := h.nodup_iff.mpr (List.nodup_range n)
  have hi' : i < pi.length := by omega
  have hj' : j < pi.length := by omega
  simp only [List.getD_eq_getElem?_getD, List.getElem?_eq_getElem hi',
    List.getElem?_eq_getElem hj', Option.getD_some] at hij
  exact (hnd.getElem_inj_iff).mp hij

theorem perm_range_surj {pi : List Nat} {n : Nat} (h : pi.Perm (List.range n)) :
    ∀ j, j < n → ∃ i, i < n ∧ pi.getD i 0 = j := by
  intro j hj
  have hlen : pi.length = n := by simpa using h.length_eq
  have hmem : j ∈ pi := h.symm.subset (List.mem_range.mpr hj)
  obtain ⟨i, hi, hget⟩ := List.getElem_of_mem hmem
  exact ⟨i, by omega, by simp [List.getD_eq_getElem?_getD, List.getElem?_eq_getElem hi, hget]⟩

theorem getD_map_of_lt (F : Nat → Nat) (l : List Nat) (t : Nat) (h : t < l.length) :
    (l.map F).getD t 0 = F (l.getD t 0) := by
  simp [List.getD_eq_getElem?_getD, List.getElem?_map, List.getElem?_eq_getElem h]

theorem prod_map_perm_range (dim pi : List Nat) (h : pi.Perm (List.range dim.length)) :
    (pi.map (fun t => dim.getD t 0)).prod = dim.prod := by
  rw [(h.map _).prod_eq, range_map_getD]

/-- What `permute_index::convert` computes on a well-formed cursor: the digits
of `i` over `m_dim`, read through `m_pi`, composed over the permuted sizes. -/
theorem convert_eq (p : permute_index) (hwf : p.wf) (i : Nat) (hi : i < p.m_dim.prod) :
    p.convert i
      = compose (p.m_pi.map (fun t => p.m_dim.getD t 0))
          (p.m_pi.map (fun t => (digits p.m_dim i).getD t 0)) := by
  obtain ⟨hperm, hd, hfit⟩ := hwf
  have hdig := forall₂_getD (digits_lt p.m_dim hd i)
  have := recompose_eq p.m_dim (digits p.m_dim i) p.m_pi 0 1
    (fun t ht => hdig t (perm_range_lt hperm t ht)) (by omega)
    (by rw [prod_map_perm_range _ _ hperm]; omega)
  rw [permute_index.convert, decompose_eq _ _ (by omega), this]
  omega

/-- The arrays built by `permute_index::inverse`. -/
theorem inverse_spec_of_perm (p : permute_index)
    (hperm : p.m_pi.Perm (List.range p.m_dim.length)) :
    p.inverse.m_dim = p.m_pi.map (fun t => p.m_dim.getD t 0) ∧
    p.inverse.m_pi.length = p.m_dim.length ∧
    (∀ i, i < p.m_dim.length → p.inverse.m_pi[p.m_pi.getD i 0]? = some i) ∧
    p.inverse.m_i = p.convert p.m_i := by
  have hlen : p.m_pi.length = p.m_dim.length := by simpa using hperm.length_eq
  have hpi := foldl_set_spec (fun i => p.m_pi.getD i 0) (fun i => i) p.m_pi p.m_dim.length
    (perm_range_getD_inj hperm)
    (fun i hi => by
      show p.m_pi.getD i 0 < p.m_pi.length
      rw [hlen]
      refine perm_range_lt hperm _ ?_
      simp only [List.getD_eq_getElem?_getD, List.getElem?_eq_getElem (hlen ▸ hi),
        Option.getD_some]
      exact List.getElem_mem _)
  have hdim := foldl_set_spec (fun i => i) (fun i => p.m_dim.getD (p.m_pi.getD i 0) 0)
    p.m_dim p.m_dim.length (fun i _ j _ h => h) (fun i hi => hi)
  simp only [permute_index.inverse, inverse_fold, hlen, permute_index.toIndex]
  refine ⟨?_, hpi.1.trans hlen, hpi.2, trivial⟩
  apply List.ext_getElem?
  intro j
  by_cases hj : j < p.m_dim.length
  · rw [hdim.2 j hj, List.getElem?_map, List.getElem?_eq_getElem (hlen ▸ hj)]
    simp [List.getD_eq_getElem?_getD, List.getElem?_eq_getElem (hlen ▸ hj)]
  · rw [List.getElem?_eq_none (by rw [hdim.1]; omega),
      List.getElem?_eq_none (by rw [List.length_map]; omega)]

theorem inverse_spec (p : permute_index) (hwf : p.wf) :
    p.inverse.m_dim = p.m_pi.map (fun t => p.m_dim.getD t 0) ∧
    p.inverse.m_pi.length = p.m_dim.length ∧
    (∀ i, i < p.m_dim.length → p.inverse.m_pi[p.m_pi.getD i 0]? = some i) ∧
    p.inverse.m_i = p.convert p.m_i :=
  inverse_spec_of_perm p hwf.1

/-- On a well-formed cursor the inverse array undoes `m_pi` on both sides. -/
theorem inverse_pi (p : permute_index) (hwf : p.wf) :
    ∀ j, j < p.m_dim.length →
      p.inverse.m_pi.getD j 0 < p.m_dim.length ∧
      p.m_pi.getD (p.inverse.m_pi.getD j 0) 0 = j := by
  intro j hj
  obtain ⟨_, _, hinv, _⟩ := inverse_spec p hwf
  obtain ⟨i, hi, hij⟩ := perm_range_surj hwf.1 j hj
  have := hinv i hi
  rw [hij] at this
  simp only [List.getD_eq_getElem?_getD, this, Option.getD_some]
  exact ⟨hi, by simpa [List.getD_eq_getElem?_getD] using hij⟩

theorem map_inverse (p : permute_index) (hwf : p.wf) (F : Nat → Nat) :
    p.inverse.m_pi.map (fun t => (p.m_pi.map F).getD t 0)
      = (List.range p.m_dim.length).map F := by
  obtain ⟨_, hlen, _, _⟩ := inverse_spec p hwf
  have hlenpi : p.m_pi.length = p.m_dim.length := by simpa using hwf.1.length_eq
  apply List.ext_getElem?
  intro j
  by_cases hj : j < p.m_dim.length
  · obtain ⟨h1, h2⟩ := inverse_pi p hwf j hj
    have hj' : j < p.inverse.m_pi.length := by omega
    rw [List.getElem?_map, List.getElem?_map, List.getElem?_range hj,
      List.getElem?_eq_getElem hj']
    simp only [Option.map_some']
    have h3 : p.inverse.m_pi[j] = p.inverse.m_pi.getD j 0 := by
      simp [List.getD_eq_getElem?_getD, List.getElem?_eq_getElem hj']
    rw [h3, getD_map_of_lt F p.m_pi _ (by omega), h2]
  · rw [List.getElem?_eq_none (by rw [List.length_map]; omega),
      List.getElem?_eq_none (by rw [List.length_map, List.length_range]; omega)]

theorem inverse_wf (p : permute_index) (hwf : p.wf) : p.inverse.wf := by
  obtain ⟨hdim, hlen, _, _⟩ := inverse_spec p hwf
  have hlenpi : p.m_pi.length = p.m_dim.length := by simpa using hwf.1.length_eq
  have hdl : p.inverse.m_dim.length = p.m_dim.length := by rw [hdim, List.length_map, hlenpi]
  refine ⟨?_, ?_, ?_⟩
  · rw [hdl]
    have hnd : p.inverse.m_pi.Nodup := by
      rw [List.nodup_iff_injective_getElem]
      intro a b hab
      have ha := inverse_pi p hwf a.1 (by have := a.2; omega)
      have hb := inverse_pi p hwf b.1 (by have := b.2; omega)
      have ea : p.inverse.m_pi.getD a.1 0 = p.inverse.m_pi[a.1] := by
        simp [List.getD_eq_getElem?_getD, List.getElem?_eq_getElem a.2]
      have eb : p.inverse.m_pi.getD b.1 0 = p.inverse.m_pi[b.1] := by
        simp [List.getD_eq_getElem?_getD, List.getElem?_eq_getElem b.2]
      have hab' : p.inverse.m_pi[a.1] = p.inverse.m_pi[b.1] := hab
      apply Fin.ext
      rw [← ha.2, ← hb.2, ea, eb, hab']
    have hsub : p.inverse.m_pi ⊆ List.range p.m_dim.length := by
      intro t ht
      obtain ⟨j, hj, hget⟩ := List.getElem_of_mem ht
      have := (inverse_pi p hwf j (by omega)).1
      rw [List.mem_range, ← hget]
      simpa [List.getD_eq_getElem?_getD, List.getElem?_eq_getElem hj] using this
    exact (List.subperm_of_subset hnd hsub).perm_of_length_le (by simp [hlen])
  · intro d hd
    rw [hdim] at hd
    obtain ⟨t, ht, rfl⟩ := List.mem_map.mp hd
    have htl := perm_range_lt hwf.1 t ht
    apply hwf.2.1
    simp only [List.getD_eq_getElem?_getD, List.getElem?_eq_getElem htl, Option.getD_some]
    exact List.getElem_mem _
  · rw [hdim, prod_map_perm_range _ _ hwf.1]
    exact hwf.2.2

/-- Round trip on a well-formed cursor. -/
theorem inverse_convert_convert (p : permute_index) (hwf : p.wf) (i : Nat)
    (hi : i < p.m_dim.prod) : p.inverse.convert (p.convert i) = i := by
  obtain ⟨hdim, _, _, _⟩ := inverse_spec p hwf
  have hdig := forall₂_getD (digits_lt p.m_dim hwf.2.1 i)
  have hfa := forall₂_map_getD (digits p.m_dim i) p.m_dim p.m_pi
    (fun t ht => hdig t (perm_range_lt hwf.1 t ht))
  have hc := convert_eq p hwf i hi
  have hlt : p.convert i < p.inverse.m_dim.prod := by
    rw [hc, hdim]; exact compose_lt _ _ hfa
  rw [convert_eq p.inverse (inverse_wf p hwf) _ hlt, hdim, hc, digits_compose _ _ hfa,
    map_inverse p hwf, map_inverse p hwf, range_map_getD]
  have : (List.range p.m_dim.length).map (fun t => (digits p.m_dim i).getD t 0)
      = digits p.m_dim i := by
    have := range_map_getD (digits p.m_dim i)
    rwa [digits_length] at this
  rw [this, compose_digits _ _ hi]

/-! ## The `permute_index` constructor -/

theorem find_spec (v : Variable) (vs : List Variable) :
    ∀ k, (∃ w ∈ vs, w.label = v.label) →
      ∃ i, permute_index.find v vs k = some (k + i) ∧ i < vs.length ∧
        ∃ w, vs[i]? = some w ∧ w.label = v.label := by
  induction vs with
  | nil => intro k h; obtain ⟨w, hw, _⟩ := h; simp at hw
  | cons u vs ih =>
    intro k h
    by_cases hu : u.label = v.label
    · exact ⟨0, by simp [permute_index.find, Variable.eq, hu], by simp, u, by simp, hu⟩
    · obtain ⟨w, hw, hwl⟩ := h
      have hw' : w ∈ vs := by
        rcases List.mem_cons.mp hw with h | h
        · rw [h] at hwl; exact absurd hwl hu
        · exact h
      obtain ⟨i, h1, h2, x, h3, h4⟩ := ih (k + 1) ⟨w, hw', hwl⟩
      refine ⟨i + 1, ?_, by simpa using h2, x, by simpa using h3, h4⟩
      simp only [permute_index.find, Variable.eq, beq_iff_eq, hu, if_false]
      rw [h1]; congr 1; omega

/-- The search loop finds the canonical position of a variable of `order`. -/
theorem pos_spec {order : List Variable} (hdist : distinct order) (v : Variable)
    (hv : v ∈ order) :
    permute_index.find v (variable_set.ofList order) 0
        = some (permute_index.pos (variable_set.ofList order) v) ∧
      permute_index.pos (variable_set.ofList order) v < order.length ∧
      (variable_set.ofList order)[permute_index.pos (variable_set.ofList order) v]? = some v := by
  have hperm := ofList_perm order hdist
  have hmem : v ∈ variable_set.ofList order := hperm.symm.subset hv
  obtain ⟨i, h1, h2, w, h3, h4⟩ := find_spec v (variable_set.ofList order) 0 ⟨v, hmem, rfl⟩
  have hw : w = v :=
    canonical_label_inj (ofList_canonical order) w (List.getElem?_mem h3) v hmem h4
  simp only [Nat.zero_add] at h1
  have hpos : permute_index.pos (variable_set.ofList order) v = i := by
    simp [permute_index.pos, h1]
  rw [hpos, h1, ← hw]
  exact ⟨rfl, by rw [← hperm.length_eq]; exact h2, h3⟩

theorem pos_inj {order : List Variable} (hdist : distinct order) :
    ∀ x ∈ order, ∀ y ∈ order,
      permute_index.pos (variable_set.ofList order) x
        = permute_index.pos (variable_set.ofList order) y → x = y := by
  intro x hx y hy hxy
  have h1 := (pos_spec hdist x hx).2.2
  have h2 := (pos_spec hdist y hy).2.2
  rw [hxy, h2] at h1
  exact (Option.some.inj h1).symm

theorem getD_mem {order : List Variable} {j : Nat} (hj : j < order.length) :
    order.getD j ⟨0, 0⟩ ∈ order := by
  simp only [List.getD_eq_getElem?_getD, List.getElem?_eq_getElem hj, Option.getD_some]
  exact List.getElem_mem _

theorem new_dim (order : List Variable) (be : Bool) (hdist : distinct order) :
    (permute_index.new order be).m_dim = (variable_set.ofList order).dims := by
  have hlen : (variable_set.ofList order).length = order.length :=
    (ofList_perm order hdist).length_eq
  simp only [permute_index.new, variable_set.dims]
  apply List.ext_getElem?
  intro j
  by_cases hj : j < order.length
  · rw [List.getElem?_map, List.getElem?_map, List.getElem?_range hj,
      List.getElem?_eq_getElem (hlen ▸ hj)]
    simp [List.getD_eq_getElem?_getD, List.getElem?_eq_getElem (hlen ▸ hj)]
  · rw [List.getElem?_eq_none (by rw [List.length_map, List.length_range]; omega),
      List.getElem?_eq_none (by rw [List.length_map, hlen]; omega)]

theorem insert_label_mem (v : Variable) (ws : List Variable) :
    (∃ w ∈ variable_set.insert v ws, w.label = v.label) ∧
      ∀ x ∈ ws, x ∈ variable_set.insert v ws := by
  induction ws with
  | nil => simp [variable_set.insert]
  | cons u ws ih =>
    simp only [variable_set.insert]
    split_ifs with h1 h2
    · exact ⟨⟨v, by simp, rfl⟩, fun x hx => List.mem_cons_of_mem _ hx⟩
    · exact ⟨⟨u, by simp, h2.symm⟩, fun x hx => hx⟩
    · obtain ⟨⟨w, hw, hwl⟩, hall⟩ := ih
      refine ⟨⟨w, List.mem_cons_of_mem _ hw, hwl⟩, fun x hx => ?_⟩
      rcases List.mem_cons.mp hx with h | h
      · rw [h]; exact List.mem_cons_self _ _
      · exact List.mem_cons_of_mem _ (hall x h)

/-- Every variable of `order` has a variable of the same identity in the
canonical collection, duplicates or not. -/
theorem ofList_label_mem (l : List Variable) :
    ∀ v ∈ l, ∃ w ∈ variable_set.ofList l, w.label = v.label := by
  induction l with
  | nil => intro v hv; simp at hv
  | cons u l ih =>
    intro v hv
    rcases List.mem_cons.mp hv with h | h
    · rw [h]; exact (insert_label_mem u (variable_set.ofList l)).1
    · obtain ⟨w, hw, hwl⟩ := ih v h
      exact ⟨w, (insert_label_mem u (variable_set.ofList l)).2 w hw, hwl⟩

theorem find_eq_pos (order : List Variable) (v : Variable) (hv : v ∈ order) :
    permute_index.find v (variable_set.ofList order) 0
      = some (permute_index.pos (variable_set.ofList order) v) := by
  obtain ⟨i, h1, _⟩ := find_spec v (variable_set.ofList order) 0 (ofList_label_mem order v hv)
  simp [permute_index.pos, h1]

/-- The permutation array built by the constructor, for any `order`: the
canonical positions of the variables of `order`, in the order of `order`,
reversed when `big_endian`. -/
theorem new_pi_gen (order : List Variable) (be : Bool) :
    (permute_index.new order be).m_pi
      = if be then (order.map (permute_index.pos (variable_set.ofList order))).reverse
        else order.map (permute_index.pos (variable_set.ofList order)) := by
  have hstep : (List.range order.length).foldl
        (fun (pi : List Nat) j =>
          let jj := if be then order.length - 1 - j else j
          match permute_index.find (order.getD j ⟨0, 0⟩) (variable_set.ofList order) 0 with
          | some k => pi.set jj k
          | none => pi)
        (List.replicate order.length 0)
      = (List.range order.length).foldl
        (fun a j => a.set (if be then order.length - 1 - j else j)
          (permute_index.pos (variable_set.ofList order) (order.getD j ⟨0, 0⟩)))
        (List.replicate order.length 0) := by
    apply List.foldl_ext
    intro a j hj
    have := find_eq_pos order _ (getD_mem (List.mem_range.mp hj))
    simp only [this]
  have hspec := foldl_set_spec (fun j => if be then order.length - 1 - j else j)
    (fun j => permute_index.pos (variable_set.ofList order) (order.getD j ⟨0, 0⟩))
    (List.replicate order.length 0) order.length
    (fun i hi j hj h => by
      cases be
      · simpa using h
      · simp only [if_true] at h; omega)
    (fun i hi => by
      cases be
      · simpa using hi
      · simp only [if_true, List.length_replicate]; omega)
  simp only [permute_index.new, hstep]
  obtain ⟨hlen, hval⟩ := hspec
  simp only [List.length_replicate] at hlen hval
  apply List.ext_getElem?
  intro t
  by_cases ht : t < order.length
  · cases be
    · have := hval t ht
      simp only [Bool.false_eq_true, if_false] at this ⊢
      rw [this, List.getElem?_map, List.getElem?_eq_getElem ht]
      simp [List.getD_eq_getElem?_getD, List.getElem?_eq_getElem ht]
    · have := hval (order.length - 1 - t) (by omega)
      have hidx : order.length - 1 - (order.length - 1 - t) = t := by omega
      simp only [if_true, hidx] at this ⊢
      have hlt : order.length - 1 - t < order.length := by omega
      rw [this, List.getElem?_reverse (by simpa using ht), List.length_map,
        List.getElem?_map, List.getElem?_eq_getElem hlt]
      simp [List.getD_eq_getElem?_getD, List.getElem?_eq_getElem hlt]
  · rw [List.getElem?_eq_none (by omega)]
    cases be
    · simp only [Bool.false_eq_true, if_false]
      rw [List.getElem?_eq_none (by rw [List.length_map]; omega)]
    · simp only [if_true]
      rw [List.getElem?_eq_none (by rw [List.length_reverse, List.length_map]; omega)]

/-- The permutation array built by the constructor: the canonical positions of
the variables of `order`, in the order of `order`, reversed when `big_endian`. -/
theorem new_pi (order : List Variable) (be : Bool) (_hdist : distinct order) :
    (permute_index.new order be).m_pi
      = if be then (order.map (permute_index.pos (variable_set.ofList order))).reverse
        else order.map (permute_index.pos (variable_set.ofList order)) :=
  new_pi_gen order be

theorem distinct_nodup {order : List Variable} (h : distinct order) : order.Nodup :=
  List.Pairwise.imp (fun hab he => hab (by rw [he])) h

theorem map_pos_perm (order : List Variable) (hdist : distinct order) :
    (order.map (permute_index.pos (variable_set.ofList order))).Perm
      (List.range order.length) := by
  have hnd : (order.map (permute_index.pos (variable_set.ofList order))).Nodup :=
    List.Nodup.map_on (pos_inj hdist) (distinct_nodup hdist)
  have hsub : order.map (permute_index.pos (variable_set.ofList order))
      ⊆ List.range order.length := by
    intro t ht
    obtain ⟨v, hv, rfl⟩ := List.mem_map.mp ht
    exact List.mem_range.mpr (pos_spec hdist v hv).2.1
  exact (List.subperm_of_subset hnd hsub).perm_of_length_le (by simp)

/-- The constructor builds a well-formed cursor from pairwise distinct
variables with positive domain sizes whose state count fits a `size_t`. -/
theorem new_wf (order : List Variable) (be : Bool) (hdist : distinct order)
    (hd : ∀ v ∈ order, 1 ≤ v.states)
    (hfit : (variable_set.ofList order).num_states < wordSize) :
    (permute_index.new order be).wf := by
  have hperm := ofList_perm order hdist
  have hlen : (variable_set.ofList order).dims.length = order.length := by
    simp [variable_set.dims, hperm.length_eq]
  refine ⟨?_, ?_, ?_⟩
  · rw [new_dim order be hdist, new_pi order be hdist, hlen]
    cases be
    · exact map_pos_perm order hdist
    · exact (List.reverse_perm _).trans (map_pos_perm order hdist)
  · rw [new_dim order be hdist]
    intro d hdm
    simp only [variable_set.dims, List.mem_map] at hdm
    obtain ⟨v, hv, rfl⟩ := hdm
    exact hd v (hperm.subset hv)
  · rw [new_dim order be hdist]
    exact hfit

/-- C7. Round trip of `permute_index`: for pairwise distinct variables with
domain sizes at least 1, either value of `big_endian` and every
`i < num_states`, `p.inverse().convert(p.convert(i)) == i`. -/
theorem permute_index_round_trip (order : List Variable) (big_endian : Bool) (i : Nat)
    (hdist : distinct order) (hd : ∀ v ∈ order, 1 ≤ v.states)
    (hfit : (variable_set.ofList order).num_states < wordSize)
    (hi : i < (variable_set.ofList order).num_states) :
    (permute_index.new order big_endian).inverse.convert
      ((permute_index.new order big_endian).convert i) = i := by
  apply inverse_convert_convert _ (new_wf order big_endian hdist hd hfit)
  rw [new_dim order big_endian hdist]
  exact hi

/-- An instance of C7 over `order = [C(2), A(2), B(3)]` with `big_endian` set,
and the whole range of indices evaluated for both byte orders. -/
theorem permute_index_round_trip_witness :
    (∀ be : Bool, (List.range 12).map (fun i =>
        (permute_index.new [⟨2, 2⟩, ⟨0, 2⟩, ⟨1, 3⟩] be).inverse.convert
          ((permute_index.new [⟨2, 2⟩, ⟨0, 2⟩, ⟨1, 3⟩] be).convert i)) = List.range 12) ∧
    (permute_index.new [⟨2, 2⟩, ⟨0, 2⟩, ⟨1, 3⟩] true).inverse.convert
      ((permute_index.new [⟨2, 2⟩, ⟨0, 2⟩, ⟨1, 3⟩] true).convert 7) = 7 :=
  ⟨by decide,
   permute_index_round_trip [⟨2, 2⟩, ⟨0, 2⟩, ⟨1, 3⟩] true 7 (by decide) (by decide)
     (by decide) (by decide)⟩

/-! ## `permute_index`: re-expression, identity and big-endian reversal -/

theorem compose_eq_sum (ds : List Nat) :
    ∀ xs, compose ds xs
      = ((List.range ds.length).map (fun j => xs.getD j 0 * (ds.take j).prod)).sum := by
  induction ds with
  | nil => intro xs; simp [compose]
  | cons d ds ih =>
    intro xs
    cases xs with
    | nil => simp [compose]
    | cons x xs =>
      rw [List.length_cons, sum_range_succ_shift]
      simp only [compose, List.getD_cons_zero, List.getD_cons_succ, List.take_zero,
        List.prod_nil, Nat.mul_one, List.take_succ_cons, List.prod_cons, ih xs]
      congr 1
      rw [← List.sum_map_mul_left]
      refine congrArg _ (List.map_congr_left (fun j _ => ?_))
      ring

/-- On a well-formed cursor, `convert` sends the index of the digits `x` over
`m_dim` to the index of the same digits read through `m_pi`. -/
theorem convert_compose (p : permute_index) (hwf : p.wf) (x : List Nat)
    (hx : List.Forall₂ (fun a d => a < d) x p.m_dim) :
    p.convert (compose p.m_dim x)
      = compose (p.m_pi.map (fun t => p.m_dim.getD t 0)) (p.m_pi.map (fun t => x.getD t 0)) := by
  rw [convert_eq p hwf _ (compose_lt _ _ hx), digits_compose _ _ hx]

theorem new_pi_getD (order : List Variable) (be : Bool) (hdist : distinct order) (j : Nat)
    (hj : j < order.length) :
    (variable_set.ofList order)[(permute_index.new order be).m_pi.getD j 0]?
      = order[if be then order.length - 1 - j else j]? := by
  rw [new_pi order be hdist]
  cases be
  · simp only [Bool.false_eq_true, if_false]
    rw [List.getD_eq_getElem?_getD, List.getElem?_map, List.getElem?_eq_getElem hj]
    simp only [Option.map_some', Option.getD_some]
    exact (pos_spec hdist _ (List.getElem_mem _)).2.2
  · have hlt : order.length - 1 - j < order.length := by omega
    simp only [if_true]
    rw [List.getD_eq_getElem?_getD, List.getElem?_reverse (by simpa using hj),
      List.length_map, List.getElem?_map, List.getElem?_eq_getElem hlt]
    simp only [Option.map_some', Option.getD_some]
    exact (pos_spec hdist _ (List.getElem_mem _)).2.2

/-- C8. `convert` re-expresses a configuration in the target order: for digits
`x` with `x[v] < dim[v]` at every canonical position `v`,
`convert(Σ_v x[v] * Π_{v' < v} dim[v']) = Σ_j x[pi[j]] * Π_{j' < j} dim[pi[j']]`,
where `pi[j]` is the canonical position of the variable at target position `j`
(`order[j]`, or `order[n - 1 - j]` when `big_endian`). -/
theorem permute_index_convert_reexpress (order : List Variable) (big_endian : Bool)
    (x : List Nat) (hdist : distinct order)
    (hfit : (variable_set.ofList order).num_states < wordSize)
    (hx : List.Forall₂ (fun a (v : Variable) => a < v.states) x (variable_set.ofList order)) :
    (permute_index.new order big_endian).convert
        (((List.range order.length).map (fun v =>
          x.getD v 0 * ((permute_index.new order big_endian).m_dim.take v).prod)).sum)
      = ((List.range order.length).map (fun j =>
          x.getD ((permute_index.new order big_endian).m_pi.getD j 0) 0
            * (((permute_index.new order big_endian).m_pi.take j).map
                (fun t => (permute_index.new order big_endian).m_dim.getD t 0)).prod)).sum ∧
    ∀ j, j < order.length →
      (variable_set.ofList order)[(permute_index.new order big_endian).m_pi.getD j 0]?
        = order[if big_endian then order.length - 1 - j else j]? := by
  refine ⟨?_, fun j hj => new_pi_getD order big_endian hdist j hj⟩
  have hperm := ofList_perm order hdist
  have hd : ∀ v ∈ order, 1 ≤ v.states := by
    intro v hv
    have hrel : ∀ (xs : List Nat) (vs : List Variable),
        List.Forall₂ (fun a (v : Variable) => a < v.states) xs vs →
        ∀ w ∈ vs, 1 ≤ w.states := by
      intro xs vs h
      induction h with
      | nil => intro w hw; simp at hw
      | cons hhead _ ih =>
        intro w hw
        rcases List.mem_cons.mp hw with h | h
        · rw [h]; omega
        · exact ih w h
    exact hrel _ _ hx v (hperm.symm.subset hv)
  have hwf := new_wf order big_endian hdist hd hfit
  have hdim := new_dim order big_endian hdist
  have hx' : List.Forall₂ (fun a d => a < d) x (permute_index.new order big_endian).m_dim := by
    rw [hdim, variable_set.dims, List.forall₂_map_right_iff]
    exact hx
  have hlen : (permute_index.new order big_endian).m_dim.length = order.length := by
    rw [hdim]; simp [variable_set.dims, hperm.length_eq]
  have hlenpi : (permute_index.new order big_endian).m_pi.length = order.length := by
    rw [← hlen]; simpa using hwf.1.length_eq
  have h1 := compose_eq_sum (permute_index.new order big_endian).m_dim x
  rw [hlen] at h1
  rw [← h1, convert_compose _ hwf x hx', compose_eq_sum, List.length_map, hlenpi]
  refine congrArg _ (List.map_congr_left (fun j hj => ?_))
  rw [getD_map_of_lt _ _ _ (by rw [hlenpi]; exact List.mem_range.mp hj), List.map_take]

/-- An instance of C8 over `order = [C(2), A(2), B(3)]` (canonical order
`A, B, C`) and the digits `x = [1, 2, 0]`: source index `1 + 2 * 2 = 5`, target
index `0 + 2 * 1 + 4 * 2 = 10`. -/
theorem permute_index_convert_reexpress_witness :
    (permute_index.new [⟨2, 2⟩, ⟨0, 2⟩, ⟨1, 3⟩] false).convert 5 = 10 ∧
    (permute_index.new [⟨2, 2⟩, ⟨0, 2⟩, ⟨1, 3⟩] false).convert
        (((List.range (List.length [(⟨2, 2⟩ : Variable), ⟨0, 2⟩, ⟨1, 3⟩])).map (fun v =>
          List.getD [1, 2, 0] v 0
            * ((permute_index.new [⟨2, 2⟩, ⟨0, 2⟩, ⟨1, 3⟩] false).m_dim.take v).prod)).sum)
      = ((List.range (List.length [(⟨2, 2⟩ : Variable), ⟨0, 2⟩, ⟨1, 3⟩])).map (fun j =>
          List.getD [1, 2, 0] ((permute_index.new [⟨2, 2⟩, ⟨0, 2⟩, ⟨1, 3⟩] false).m_pi.getD j 0) 0
            * (((permute_index.new [⟨2, 2⟩, ⟨0, 2⟩, ⟨1, 3⟩] false).m_pi.take j).map
                (fun t => (permute_index.new [⟨2, 2⟩, ⟨0, 2⟩, ⟨1, 3⟩] false).m_dim.getD t 0)).prod)).sum ∧
    ∀ j, j < List.length [(⟨2, 2⟩ : Variable), ⟨0, 2⟩, ⟨1, 3⟩] →
      (variable_set.ofList [⟨2, 2⟩, ⟨0, 2⟩, ⟨1, 3⟩])[(permute_index.new
          [⟨2, 2⟩, ⟨0, 2⟩, ⟨1, 3⟩] false).m_pi.getD j 0]?
        = [(⟨2, 2⟩ : Variable), ⟨0, 2⟩, ⟨1, 3⟩][if false = true
            then List.length [(⟨2, 2⟩ : Variable), ⟨0, 2⟩, ⟨1, 3⟩] - 1 - j else j]? :=
  ⟨by decide,
   permute_index_convert_reexpress [⟨2, 2⟩, ⟨0, 2⟩, ⟨1, 3⟩] false [1, 2, 0] (by decide)
     (by decide) (by decide)⟩

theorem canonical_distinct {order : List Variable} (h : variable_set.canonical order) :
    distinct order :=
  List.Pairwise.imp (fun hab => Nat.ne_of_lt hab) h

theorem map_pos_of_canonical (order : List Variable) (hcan : variable_set.canonical order) :
    order.map (permute_index.pos (variable_set.ofList order)) = List.range order.length := by
  have hdist := canonical_distinct hcan
  have hnd := distinct_nodup hdist
  apply List.ext_getElem?
  intro j
  by_cases hj : j < order.length
  · rw [List.getElem?_map, List.getElem?_range hj, List.getElem?_eq_getElem hj]
    simp only [Option.map_some']
    obtain ⟨_, hlt, hget⟩ := pos_spec hdist order[j] (List.getElem_mem _)
    rw [ofList_of_canonical order hcan] at hget hlt ⊢
    rw [List.getElem?_eq_getElem hlt] at hget
    have := (hnd.getElem_inj_iff).mp (Option.some.inj hget)
    rw [this]
  · rw [List.getElem?_eq_none (by rw [List.length_map]; omega),
      List.getElem?_eq_none (by rw [List.length_range]; omega)]

/-- C9. Identity ordering: when `order` is in canonical order and `big_endian`
is false, `convert(i) == i` for every `i < num_states`. -/
theorem permute_index_identity (order : List Variable) (i : Nat)
    (hcan : variable_set.canonical order) (hd : ∀ v ∈ order, 1 ≤ v.states)
    (hfit : variable_set.num_states order < wordSize)
    (hi : i < variable_set.num_states order) :
    (permute_index.new order false).convert i = i := by
  have hdist := canonical_distinct hcan
  have hof := ofList_of_canonical order hcan
  have hwf := new_wf order false hdist hd (by rw [hof]; exact hfit)
  have hdim : (permute_index.new order false).m_dim = variable_set.dims order := by
    rw [new_dim order false hdist, hof]
  have hpi : (permute_index.new order false).m_pi
      = List.range (variable_set.dims order).length := by
    rw [new_pi order false hdist]
    simp only [Bool.false_eq_true, if_false]
    rw [map_pos_of_canonical order hcan]
    simp [variable_set.dims]
  have hi' : i < (variable_set.dims order).prod := hi
  rw [convert_eq _ hwf i (by rw [hdim]; exact hi'), hdim, hpi, range_map_getD]
  have : (List.range (variable_set.dims order).length).map
        (fun t => (digits (variable_set.dims order) i).getD t 0)
      = digits (variable_set.dims order) i := by
    have := range_map_getD (digits (variable_set.dims order) i)
    rwa [digits_length] at this
  rw [this, compose_digits _ _ hi']

/-- Scenario C of the specification (first half), and an instance of C9:
`order = [A(2), B(3)]` with `big_endian` false is the identity on `[0, 6)`. -/
theorem permute_index_identity_witness :
    (List.range 6).map (permute_index.new [⟨0, 2⟩, ⟨1, 3⟩] false).convert = List.range 6 ∧
    (permute_index.new [⟨0, 2⟩, ⟨1, 3⟩] false).convert 4 = 4 :=
  ⟨by decide,
   permute_index_identity [⟨0, 2⟩, ⟨1, 3⟩] 4 (by decide) (by decide) (by decide) (by decide)⟩

/-- C10. Big-endian reversal: `permute_index(order, true)` and
`permute_index(reverse(order), false)` have the same `m_pi` and `m_dim`, hence
the same `convert`; and for the canonical two-variable order `[A, B]` the
big-endian cursor maps `a + dA * b` to `dB * a + b`. -/
theorem permute_index_big_endian (order : List Variable) (hdist : distinct order) :
    (permute_index.new order true).m_pi = (permute_index.new order.reverse false).m_pi ∧
    (permute_index.new order true).m_dim = (permute_index.new order.reverse false).m_dim ∧
    (∀ i, (permute_index.new order true).convert i
        = (permute_index.new order.reverse false).convert i) ∧
    (∀ (A B : Variable) (a b : Nat), A.label < B.label → a < A.states → b < B.states →
      A.states * B.states < wordSize →
      (permute_index.new [A, B] true).convert (a + A.states * b) = B.states * a + b) := by
  have hpi : (permute_index.new order true).m_pi
      = (permute_index.new order.reverse false).m_pi := by
    rw [new_pi order true hdist, new_pi order.reverse false (distinct_reverse hdist),
      ofList_reverse order hdist]
    simp
  have hdim : (permute_index.new order true).m_dim
      = (permute_index.new order.reverse false).m_dim := by
    rw [new_dim order true hdist, new_dim order.reverse false (distinct_reverse hdist),
      ofList_reverse order hdist]
  refine ⟨hpi, hdim, fun i => ?_, ?_⟩
  · simp only [permute_index.convert, hpi, hdim]
  · intro A B a b hAB ha hb hfit
    have hcan : variable_set.canonical [A, B] := by
      simp [variable_set.canonical, hAB]
    have hd2 : distinct [A, B] := canonical_distinct hcan
    have hof := ofList_of_canonical [A, B] hcan
    have hwf := new_wf [A, B] true hd2
      (by intro v hv; simp only [List.mem_cons, List.mem_singleton, List.not_mem_nil,
            or_false] at hv; rcases hv with h | h <;> rw [h] <;> omega)
      (by rw [hof]; simpa [variable_set.num_states, variable_set.dims] using hfit)
    have hdimAB : (permute_index.new [A, B] true).m_dim = [A.states, B.states] := by
      rw [new_dim _ _ hd2, hof]; rfl
    have hne : ¬ A.label = B.label := by omega
    have hpiAB : (permute_index.new [A, B] true).m_pi = [1, 0] := by
      rw [new_pi _ _ hd2, hof]
      simp [permute_index.pos, permute_index.find, Variable.eq, hne]
    have hx : List.Forall₂ (fun x d => x < d) [a, b] (permute_index.new [A, B] true).m_dim := by
      rw [hdimAB]
      exact List.Forall₂.cons ha (List.Forall₂.cons hb List.Forall₂.nil)
    have := convert_compose _ hwf [a, b] hx
    rw [hdimAB, hpiAB] at this
    simp only [compose, List.map_cons, List.map_nil, List.getD_cons_zero, List.getD_cons_succ,
      Nat.mul_zero, Nat.add_zero] at this
    rw [this]
    ring

/-- Scenario C of the specification (second half), and an instance of C10:
over `order = [A(2), B(3)]` the big-endian cursor maps `a + 2 b` to `3 a + b`. -/
theorem permute_index_big_endian_witness :
    (List.range 6).map (permute_index.new [⟨0, 2⟩, ⟨1, 3⟩] true).convert
      = [0, 3, 1, 4, 2, 5] ∧
    ((permute_index.new [⟨2, 2⟩, ⟨0, 2⟩, ⟨1, 3⟩] true).m_pi
        = (permute_index.new (List.reverse [⟨2, 2⟩, ⟨0, 2⟩, ⟨1, 3⟩]) false).m_pi ∧
      (permute_index.new [⟨2, 2⟩, ⟨0, 2⟩, ⟨1, 3⟩] true).m_dim
        = (permute_index.new (List.reverse [⟨2, 2⟩, ⟨0, 2⟩, ⟨1, 3⟩]) false).m_dim ∧
      (∀ i, (permute_index.new [⟨2, 2⟩, ⟨0, 2⟩, ⟨1, 3⟩] true).convert i
          = (permute_index.new (List.reverse [⟨2, 2⟩, ⟨0, 2⟩, ⟨1, 3⟩]) false).convert i) ∧
      (∀ (A B : Variable) (a b : Nat), A.label < B.label → a < A.states → b < B.states →
        A.states * B.states < wordSize →
        (permute_index.new [A, B] true).convert (a + A.states * b) = B.states * a + b)) :=
  ⟨by decide, permute_index_big_endian [⟨2, 2⟩, ⟨0, 2⟩, ⟨1, 3⟩] (by decide)⟩

/-! ## `permute_index`: bijection and involution -/

theorem convert_lt (p : permute_index) (hwf : p.wf) (i : Nat) (hi : i < p.m_dim.prod) :
    p.convert i < p.m_dim.prod := by
  have hdig := forall₂_getD (digits_lt p.m_dim hwf.2.1 i)
  have hfa := forall₂_map_getD (digits p.m_dim i) p.m_dim p.m_pi
    (fun t ht => hdig t (perm_range_lt hwf.1 t ht))
  rw [convert_eq p hwf i hi]
  have := compose_lt _ _ hfa
  rwa [prod_map_perm_range _ _ hwf.1] at this

theorem convert_congr (p q : permute_index) (hpi : p.m_pi = q.m_pi) (hdim : p.m_dim = q.m_dim)
    (i : Nat) : p.convert i = q.convert i := by
  simp only [permute_index.convert, hpi, hdim]

/-- Inverting twice gives back the arrays of a well-formed cursor. -/
theorem inverse_inverse_arrays (p : permute_index) (hwf : p.wf) :
    p.inverse.inverse.m_pi = p.m_pi ∧ p.inverse.inverse.m_dim = p.m_dim := by
  have hwfi := inverse_wf p hwf
  obtain ⟨hdim, hlen, hinv, _⟩ := inverse_spec p hwf
  obtain ⟨hdim2, hlen2, hinv2, _⟩ := inverse_spec p.inverse hwfi
  have hlenpi : p.m_pi.length = p.m_dim.length := by simpa using hwf.1.length_eq
  have hdl : p.inverse.m_dim.length = p.m_dim.length := by rw [hdim, List.length_map, hlenpi]
  constructor
  · apply List.ext_getElem?
    intro t
    by_cases ht : t < p.m_dim.length
    · have h1 := hinv t ht
      have hpt : p.m_pi.getD t 0 < p.m_dim.length := by
        refine perm_range_lt hwf.1 _ ?_
        simp only [List.getD_eq_getElem?_getD, List.getElem?_eq_getElem (hlenpi ▸ ht),
          Option.getD_some]
        exact List.getElem_mem _
      have h2 := hinv2 (p.m_pi.getD t 0) (by rw [hdl]; exact hpt)
      have h3 : p.inverse.m_pi.getD (p.m_pi.getD t 0) 0 = t :=
        (List.getD_eq_getElem?_getD _ _ _).trans (by rw [h1]; rfl)
      rw [h3] at h2
      rw [h2, List.getElem?_eq_getElem (hlenpi ▸ ht)]
      simp [List.getD_eq_getElem?_getD, List.getElem?_eq_getElem (hlenpi ▸ ht)]
    · rw [List.getElem?_eq_none (by rw [hlen2, hdl]; omega),
        List.getElem?_eq_none (by rw [hlenpi]; omega)]
  · rw [hdim2, hdim, map_inverse p hwf, range_map_getD]

/-- Inverting twice gives back a well-formed cursor whose position is a valid
index. -/
theorem inverse_inverse (p : permute_index) (hwf : p.wf) (hi : p.m_i < p.m_dim.prod) :
    p.inverse.inverse = p := by
  obtain ⟨hpi, hdim⟩ := inverse_inverse_arrays p hwf
  have hwfi := inverse_wf p hwf
  have h1 := (inverse_spec p hwf).2.2.2
  have h2 := (inverse_spec p.inverse hwfi).2.2.2
  have hm : p.inverse.inverse.m_i = p.m_i := by
    rw [h2, h1, inverse_convert_convert p hwf _ hi]
  cases hq : p.inverse.inverse with
  | mk i' pi' dim' =>
    cases hp : p with
    | mk i pi dim =>
      rw [hq, hp] at hpi hdim hm
      simp only at hpi hdim hm
      rw [hpi, hdim, hm]

theorem convert_inverse_convert (p : permute_index) (hwf : p.wf) (j : Nat)
    (hj : j < p.m_dim.prod) : p.convert (p.inverse.convert j) = j := by
  obtain ⟨hpi, hdim⟩ := inverse_inverse_arrays p hwf
  have hwfi := inverse_wf p hwf
  have hprod : p.inverse.m_dim.prod = p.m_dim.prod := by
    rw [(inverse_spec p hwf).1, prod_map_perm_range _ _ hwf.1]
  rw [← convert_congr _ _ hpi hdim]
  exact inverse_convert_convert p.inverse hwfi j (by rw [hprod]; exact hj)

/-- C11. Bijection of `permute_index`: for pairwise distinct variables with
domain sizes at least 1 and either value of `big_endian`, `convert` maps
`[0, num_states)` into itself, injectively and onto, and
`p.convert(p.inverse().convert(j)) == j` for every `j` in the range. -/
theorem permute_index_bijection (order : List Variable) (big_endian : Bool)
    (hdist : distinct order) (hd : ∀ v ∈ order, 1 ≤ v.states)
    (hfit : (variable_set.ofList order).num_states < wordSize) :
    (∀ i, i < (variable_set.ofList order).num_states →
      (permute_index.new order big_endian).convert i < (variable_set.ofList order).num_states) ∧
    (∀ i j, i < (variable_set.ofList order).num_states →
      j < (variable_set.ofList order).num_states →
      (permute_index.new order big_endian).convert i
        = (permute_index.new order big_endian).convert j → i = j) ∧
    (∀ j, j < (variable_set.ofList order).num_states →
      ∃ i, i < (variable_set.ofList order).num_states ∧
        (permute_index.new order big_endian).convert i = j) ∧
    (∀ j, j < (variable_set.ofList order).num_states →
      (permute_index.new order big_endian).convert
        ((permute_index.new order big_endian).inverse.convert j) = j) := by
  have hwf := new_wf order big_endian hdist hd hfit
  have hwfi := inverse_wf _ hwf
  have hN : (permute_index.new order big_endian).m_dim.prod
      = (variable_set.ofList order).num_states := by
    rw [new_dim order big_endian hdist]; rfl
  have hNi : (permute_index.new order big_endian).inverse.m_dim.prod
      = (variable_set.ofList order).num_states := by
    rw [(inverse_spec _ hwf).1, prod_map_perm_range _ _ hwf.1, hN]
  rw [← hN]
  refine ⟨fun i hi => convert_lt _ hwf i hi, fun i j hi hj h => ?_, fun j hj => ?_,
    fun j hj => convert_inverse_convert _ hwf j hj⟩
  · rw [← inverse_convert_convert _ hwf i hi, ← inverse_convert_convert _ hwf j hj, h]
  · refine ⟨(permute_index.new order big_endian).inverse.convert j, ?_,
      convert_inverse_convert _ hwf j hj⟩
    have := convert_lt _ hwfi j (by rw [hNi, ← hN]; exact hj)
    rwa [hNi, ← hN] at this

/-- An instance of C11 over `order = [C(2), A(2), B(3)]`, big-endian; the images
of `0 .. 11` are listed. -/
theorem permute_index_bijection_witness :
    (List.range 12).map (permute_index.new [⟨2, 2⟩, ⟨0, 2⟩, ⟨1, 3⟩] true).convert
      = [0, 3, 1, 4, 2, 5, 6, 9, 7, 10, 8, 11] ∧
    ((∀ i, i < (variable_set.ofList [⟨2, 2⟩, ⟨0, 2⟩, ⟨1, 3⟩]).num_states →
      (permute_index.new [⟨2, 2⟩, ⟨0, 2⟩, ⟨1, 3⟩] true).convert i
        < (variable_set.ofList [⟨2, 2⟩, ⟨0, 2⟩, ⟨1, 3⟩]).num_states) ∧
    (∀ i j, i < (variable_set.ofList [⟨2, 2⟩, ⟨0, 2⟩, ⟨1, 3⟩]).num_states →
      j < (variable_set.ofList [⟨2, 2⟩, ⟨0, 2⟩, ⟨1, 3⟩]).num_states →
      (permute_index.new [⟨2, 2⟩, ⟨0, 2⟩, ⟨1, 3⟩] true).convert i
        = (permute_index.new [⟨2, 2⟩, ⟨0, 2⟩, ⟨1, 3⟩] true).convert j → i = j) ∧
    (∀ j, j < (variable_set.ofList [⟨2, 2⟩, ⟨0, 2⟩, ⟨1, 3⟩]).num_states →
      ∃ i, i < (variable_set.ofList [⟨2, 2⟩, ⟨0, 2⟩, ⟨1, 3⟩]).num_states ∧
        (permute_index.new [⟨2, 2⟩, ⟨0, 2⟩, ⟨1, 3⟩] true).convert i = j) ∧
    (∀ j, j < (variable_set.ofList [⟨2, 2⟩, ⟨0, 2⟩, ⟨1, 3⟩]).num_states →
      (permute_index.new [⟨2, 2⟩, ⟨0, 2⟩, ⟨1, 3⟩] true).convert
        ((permute_index.new [⟨2, 2⟩, ⟨0, 2⟩, ⟨1, 3⟩] true).inverse.convert j) = j)) :=
  ⟨by decide,
   permute_index_bijection [⟨2, 2⟩, ⟨0, 2⟩, ⟨1, 3⟩] true (by decide) (by decide) (by decide)⟩

theorem new_perm (order : List Variable) (be : Bool) (hdist : distinct order) :
    (permute_index.new order be).m_pi.Perm
      (List.range (permute_index.new order be).m_dim.length) := by
  have hlen : (variable_set.ofList order).dims.length = order.length := by
    simp [variable_set.dims, (ofList_perm order hdist).length_eq]
  rw [new_dim order be hdist, new_pi order be hdist, hlen]
  cases be
  · exact map_pos_perm order hdist
  · exact (List.reverse_perm _).trans (map_pos_perm order hdist)

theorem states_pos_of_prod_pos (order : List Variable) (hdist : distinct order)
    (h : 0 < (variable_set.ofList order).num_states) : ∀ v ∈ order, 1 ≤ v.states := by
  intro v hv
  have hmem : v ∈ variable_set.ofList order := (ofList_perm order hdist).symm.subset hv
  by_contra hlt
  have h0 : v.states = 0 := by omega
  have hz : (0 : Nat) ∈ (variable_set.ofList order).dims := by
    simp only [variable_set.dims, List.mem_map]
    exact ⟨v, hmem, h0⟩
  have := List.prod_eq_zero hz
  simp only [variable_set.num_states] at h
  omega

/-- C19. `inverse` is an involution: for a cursor built from pairwise distinct
variables and set to `i < num_states`, inverting twice gives back the same
`m_pi`, the same `m_dim` and the same cursor value, hence the same cursor and
the same `convert`. -/
theorem permute_index_inverse_involution (order : List Variable) (big_endian : Bool)
    (i : Nat) (hdist : distinct order)
    (hfit : (variable_set.ofList order).num_states < wordSize)
    (hi : i < (variable_set.ofList order).num_states) :
    ((permute_index.new order big_endian).set i).inverse.inverse.m_pi
      = ((permute_index.new order big_endian).set i).m_pi ∧
    ((permute_index.new order big_endian).set i).inverse.inverse.m_dim
      = ((permute_index.new order big_endian).set i).m_dim ∧
    ((permute_index.new order big_endian).set i).inverse.inverse.m_i = i ∧
    ((permute_index.new order big_endian).set i).inverse.inverse
      = (permute_index.new order big_endian).set i ∧
    ∀ j, ((permute_index.new order big_endian).set i).inverse.inverse.convert j
      = ((permute_index.new order big_endian).set i).convert j := by
  have hd := states_pos_of_prod_pos order hdist (by omega)
  have hwf : ((permute_index.new order big_endian).set i).wf :=
    new_wf order big_endian hdist hd hfit
  have hN : ((permute_index.new order big_endian).set i).m_dim.prod
      = (variable_set.ofList order).num_states := by
    show (permute_index.new order big_endian).m_dim.prod = _
    rw [new_dim order big_endian hdist]; rfl
  have hinv := inverse_inverse _ hwf (by rw [hN]; exact hi)
  rw [hinv]
  exact ⟨rfl, rfl, rfl, rfl, fun _ => rfl⟩

/-- An instance of C19 over `order = [C(2), A(2), B(3)]`, big-endian, cursor 7. -/
theorem permute_index_inverse_involution_witness :
    ((permute_index.new [⟨2, 2⟩, ⟨0, 2⟩, ⟨1, 3⟩] true).set 7).inverse.inverse.m_pi
      = ((permute_index.new [⟨2, 2⟩, ⟨0, 2⟩, ⟨1, 3⟩] true).set 7).m_pi ∧
    ((permute_index.new [⟨2, 2⟩, ⟨0, 2⟩, ⟨1, 3⟩] true).set 7).inverse.inverse.m_dim
      = ((permute_index.new [⟨2, 2⟩, ⟨0, 2⟩, ⟨1, 3⟩] true).set 7).m_dim ∧
    ((permute_index.new [⟨2, 2⟩, ⟨0, 2⟩, ⟨1, 3⟩] true).set 7).inverse.inverse.m_i = 7 ∧
    ((permute_index.new [⟨2, 2⟩, ⟨0, 2⟩, ⟨1, 3⟩] true).set 7).inverse.inverse
      = (permute_index.new [⟨2, 2⟩, ⟨0, 2⟩, ⟨1, 3⟩] true).set 7 ∧
    ∀ j, ((permute_index.new [⟨2, 2⟩, ⟨0, 2⟩, ⟨1, 3⟩] true).set 7).inverse.inverse.convert j
      = ((permute_index.new [⟨2, 2⟩, ⟨0, 2⟩, ⟨1, 3⟩] true).set 7).convert j :=
  permute_index_inverse_involution [⟨2, 2⟩, ⟨0, 2⟩, ⟨1, 3⟩] true 7 (by decide) (by decide)
    (by decide)

/-- C15 fails as stated: over `order = [A(2), B(3)]`, big-endian, a cursor set
to 1 has an inverse whose cursor is `convert(1) = 3`, not 1. -/
theorem permute_index_inverse_cursor_counterexample :
    ((permute_index.new [⟨0, 2⟩, ⟨1, 3⟩] true).set 1).m_i = 1 ∧
    ((permute_index.new [⟨0, 2⟩, ⟨1, 3⟩] true).set 1).inverse.m_i = 3 ∧
    ((permute_index.new [⟨0, 2⟩, ⟨1, 3⟩] true).set 1).inverse.m_i
      ≠ ((permute_index.new [⟨0, 2⟩, ⟨1, 3⟩] true).set 1).m_i := by
  decide

/-! ## `superindex`: reset and construction over an empty `sub` -/

/-- C13 at its failing input: over `full = [A(2), B(3)]`, `sub = [A]`,
`offset = 4` the constructed cursor reads `4, 5`; after `reset()` the digits are
back to 1 but the index is 0, not 4, while `end()` is still 6, so the second
pass reads `0, 1` and the cursor differs from the constructed one. -/
theorem superindex_reset_loses_offset :
    ∃ s, superindex.new [⟨0, 2⟩, ⟨1, 3⟩] [⟨0, 2⟩] 4 = some s ∧
      (List.range 2).map (fun k => (superindex.incr^[k] s).toIndex) = [4, 5] ∧
      (superindex.incr^[2] s).reset.m_state = s.m_state ∧
      (superindex.incr^[2] s).reset.toIndex = 0 ∧
      s.toIndex = 4 ∧
      (superindex.incr^[2] s).reset.end_ = 6 ∧
      (List.range 2).map (fun k => (superindex.incr^[k] (superindex.incr^[2] s).reset).toIndex)
        = [0, 1] ∧
      (superindex.incr^[2] s).reset ≠ s :=
  ⟨_, rfl, by decide, by decide, by decide, by decide, by decide, by decide, by decide⟩

/-- The index after `reset()` is 0 whatever the offset, on every cursor. -/
theorem superindex_reset_index (s : superindex) : s.reset.toIndex = 0 := rfl

theorem superindex_loop_some (fs : List Variable) :
    ∀ (ss : List Variable) (d : Nat), variable_set.canonical fs → ss.Sublist fs →
      ∃ st add, superindex.loop fs ss d = some (st, add) ∧ st.length = ss.length ∧
        add.length = ss.length := by
  induction fs with
  | nil =>
    intro ss d _ hsub
    have : ss = [] := List.sublist_nil.mp hsub
    subst this
    exact ⟨[], [], rfl, rfl, rfl⟩
  | cons f fs ih =>
    intro ss d hcan hsub
    have hcan' := canonical_tail hcan
    cases ss with
    | nil => exact ⟨[], [], rfl, rfl, rfl⟩
    | cons s ss =>
      by_cases heq : s.label = f.label
      · obtain ⟨hsf, hs⟩ := match_head hcan hsub heq
        subst hsf
        have he : Variable.eq s s = true := by simp [Variable.eq]
        obtain ⟨st, add, h1, h2, h3⟩ := ih ss (wmul d s.states) hcan' hs
        refine ⟨1 :: st, d :: add, ?_, by simp [h2], by simp [h3]⟩
        simp only [superindex.loop, he, if_true, h1, Option.map_some']
      · have hs := skip_head hsub heq
        have he : Variable.eq f s = false := by
          simp only [Variable.eq, beq_eq_false_iff_ne]; exact fun h => heq h.symm
        obtain ⟨st, add, h1, h2, h3⟩ := ih (s :: ss) (wmul d f.states) hcan' hs
        exact ⟨st, add, by simp only [superindex.loop, he, Bool.false_eq_true, if_false, h1],
          h2, h3⟩

/-- Over a non-empty `sub` contained in `full`, every array access of the
`superindex` constructor is in range: it returns a cursor. -/
theorem superindex_new_in_range (full sub : variable_set) (offset : Nat)
    (hcan : full.canonical) (hsub : full.contains sub) (hne : sub ≠ []) :
    ∃ s, superindex.new full sub offset = some s := by
  obtain ⟨st, add, h1, _, h3⟩ := superindex_loop_some full sub 1 hcan hsub
  have hpos : 0 < sub.length := List.length_pos.mpr hne
  have ha : sub.nvar - 1 < add.length := by simp only [variable_set.nvar]; omega
  have hd : sub.nvar - 1 < sub.dims.length := by
    simp only [variable_set.nvar, variable_set.dims, List.length_map]; omega
  simp only [superindex.new, h1, List.getElem?_eq_getElem ha, List.getElem?_eq_getElem hd]
  exact ⟨_, rfl⟩

/-- C14 at its failing input: over the empty `sub`, which every `full`
contains, the final reads `m_add[m_ns - 1]` and `m_dims[m_ns - 1]` of the
constructor are out of range. -/
theorem superindex_new_empty_sub (full : variable_set) (offset : Nat) :
    full.contains [] ∧ superindex.new full [] offset = none := by
  refine ⟨List.nil_sublist _, ?_⟩
  cases full <;> rfl

/-! ## `subindex`: the tracked index stays inside the table of `sub` -/

theorem subindex_proj_lt_sub (fs : List Variable) :
    ∀ (s : List Variable) (a k : Nat), variable_set.canonical fs → s.Sublist fs →
      (∀ f ∈ fs, 1 ≤ f.states) →
      subindex.proj fs s a k + a ≤ a * (s.map Variable.states).prod := by
  induction fs with
  | nil =>
    intro s a k _ hsub _
    have : s = [] := List.sublist_nil.mp hsub
    subst this
    simp [subindex.proj]
  | cons f fs ih =>
    intro s a k hcan hsub hd
    have hcan' := canonical_tail hcan
    have h1 := hd f (List.mem_cons_self _ _)
    have hd' : ∀ g ∈ fs, 1 ≤ g.states := fun g hg => hd g (List.mem_cons_of_mem _ hg)
    have hlt : k % f.states < f.states := Nat.mod_lt _ h1
    cases s with
    | nil =>
      have := ih [] a (k / f.states) hcan' (List.nil_sublist _) hd'
      simpa [subindex.proj] using this
    | cons w s =>
      by_cases heq : w.label = f.label
      · obtain ⟨hwf, hs⟩ := match_head hcan hsub heq
        subst hwf
        have he : Variable.eq w w = true := by simp [Variable.eq]
        have := ih s (a * w.states) (k / w.states) hcan' hs hd'
        simp only [subindex.proj, he, Bool.not_true, Bool.false_eq_true, if_false,
          List.tail_cons, List.map_cons, List.prod_cons]
        have h2 : (k % w.states + 1) * a ≤ w.states * a := Nat.mul_le_mul_right _ hlt
        have h3 : (k % w.states + 1) * a = k % w.states * a + a := by ring
        have h4 : w.states * a = a * w.states := Nat.mul_comm _ _
        have h5 : a * w.states * (s.map Variable.states).prod
            = a * (w.states * (s.map Variable.states).prod) := Nat.mul_assoc _ _ _
        omega
      · have hs := skip_head hsub heq
        have he : Variable.eq w f = false := by simp [Variable.eq, heq]
        have := ih (w :: s) a (k / f.states) hcan' hs hd'
        simpa [subindex.proj, he] using this

theorem subindex_no_underflow_spec (fs : List Variable) :
    ∀ (sub : List Variable) (a e k : Nat), (∀ f ∈ fs, 1 ≤ f.states) →
      a * (fs.map Variable.states).prod < wordSize →
      (fs.map Variable.states).prod < wordSize →
      subindex.no_underflow (state_of (fs.map Variable.states) k) (fs.map Variable.states)
          (subindex.loop fs sub a e).skipped (subindex.loop fs sub a e).add
          (subindex.loop fs sub a e).subtract (subindex.proj fs sub a k) = true := by
  induction fs with
  | nil => intro sub a e k _ _ _; simp [subindex.no_underflow, state_of, digits]
  | cons f fs ih =>
    intro sub a e k hd hfit hfit1
    have h1 := hd f (List.mem_cons_self _ _)
    have hd' : ∀ g ∈ fs, 1 ≤ g.states := fun g hg => hd g (List.mem_cons_of_mem _ hg)
    have hP := prod_states_pos fs hd'
    simp only [List.map_cons, List.prod_cons] at hfit hfit1
    have hfs : f.states ≤ f.states * (fs.map Variable.states).prod :=
      Nat.le_mul_of_pos_right _ hP
    have hP1 : (fs.map Variable.states).prod ≤ f.states * (fs.map Variable.states).prod :=
      Nat.le_mul_of_pos_left _ h1
    have hfit1' : (fs.map Variable.states).prod < wordSize := by omega
    have haP : a * (fs.map Variable.states).prod
        ≤ a * (f.states * (fs.map Variable.states).prod) := Nat.mul_le_mul_left _ hP1
    have had : a * f.states ≤ a * (f.states * (fs.map Variable.states).prod) :=
      Nat.mul_le_mul_left _ hfs
    have hadP : a * f.states * (fs.map Variable.states).prod
        = a * (f.states * (fs.map Variable.states).prod) := Nat.mul_assoc _ _ _
    have hbound := subindex_proj_bound (f :: fs) sub a k hd
    obtain ⟨sk, hsk⟩ : ∃ sk, (match sub with
      | [] => true
      | s :: _ => !(Variable.eq s f)) = sk := ⟨_, rfl⟩
    simp only [List.map_cons, List.prod_cons] at hbound
    simp only [List.map_cons, subindex.loop, state_of, digits, subindex.no_underflow,
      subindex.proj, hsk] at hbound ⊢
    cases sk
    · simp only [Bool.false_eq_true, if_false, Bool.false_or] at hbound ⊢
      have hwm : wmul a f.states = a * f.states := wmul_eq (by omega)
      by_cases hwrap : k % f.states + 1 = f.states
      · have hs1 : wsub f.states 1 = f.states - 1 := wsub_eq h1 (by omega)
        have hsb : a * (f.states - 1) = k % f.states * a := by
          have : f.states - 1 = k % f.states := by omega
          rw [this, Nat.mul_comm]
        have hwm2 : wmul a (f.states - 1) = k % f.states * a := by
          rw [← hsb]; apply wmul_eq
          have : a * (f.states - 1) ≤ a * f.states := Nat.mul_le_mul_left _ (by omega)
          omega
        have hws : wsub (k % f.states * a
              + subindex.proj fs sub.tail (a * f.states) (k / f.states)) (k % f.states * a)
            = subindex.proj fs sub.tail (a * f.states) (k / f.states) := by
          rw [wsub_eq (by omega) (by omega)]; omega
        have := ih sub.tail (a * f.states) (wmul e f.states) (k / f.states) hd'
          (by omega) hfit1'
        simp only [state_of] at this
        rw [if_pos hwrap, hwm, hs1, hwm2, hws, this]
        simp
      · rw [if_neg hwrap]
    · simp only [if_true, Bool.true_or, Bool.true_and] at hbound ⊢
      have hwm : wmul a 1 = a := by rw [wmul_eq (by omega)]; simp
      by_cases hwrap : k % f.states + 1 = f.states
      · have := ih sub a (wmul e f.states) (k / f.states) hd' (by omega) hfit1'
        simp only [state_of] at this
        rw [if_pos hwrap, hwm, this]
      · rw [if_neg hwrap]

/-- C17. The index tracked by a `subindex` is always a valid offset into the
table of `sub`: after any number `n` of increments from construction it is
below the product of the domain sizes of `sub`, and no subtraction
`m_idx -= m_subtract[i]` of the next increment underflows. -/
theorem subindex_index_in_range (full sub : variable_set) (n : Nat)
    (hcan : full.canonical) (hsub : full.contains sub)
    (hd : ∀ v ∈ full, 1 ≤ v.states) (hfit : full.num_states < wordSize) :
    (subindex.incr^[n] (subindex.new full sub)).toIndex < sub.num_states ∧
    (subindex.incr^[n] (subindex.new full sub)).incr_no_underflow = true := by
  have hfit' : (full.map Variable.states).prod < wordSize := hfit
  rw [subindex_iterate full sub hd hfit n]
  constructor
  · have := subindex_proj_lt_sub full sub 1 n hcan hsub hd
    simp only [subindex.toIndex, variable_set.num_states, variable_set.dims]
    omega
  · have := subindex_no_underflow_spec full sub 1 1 n hd (by simpa using hfit') hfit'
    simpa [subindex.incr_no_underflow, subindex.new, variable_set.dims] using this

/-- An instance of C17 over `full = [A(2), B(3), C(2)]`, `sub = [A, C]`, well
past one pass; the indices of two passes are listed. -/
theorem subindex_index_in_range_witness :
    (List.range 13).map
        (fun n => (subindex.incr^[n] (subindex.new [⟨0, 2⟩, ⟨1, 3⟩, ⟨2, 2⟩]
          [⟨0, 2⟩, ⟨2, 2⟩])).toIndex)
      = [0, 1, 0, 1, 0, 1, 2, 3, 2, 3, 2, 3, 0] ∧
    ((subindex.incr^[17] (subindex.new [⟨0, 2⟩, ⟨1, 3⟩, ⟨2, 2⟩] [⟨0, 2⟩, ⟨2, 2⟩])).toIndex
        < variable_set.num_states [⟨0, 2⟩, ⟨2, 2⟩] ∧
      (subindex.incr^[17] (subindex.new [⟨0, 2⟩, ⟨1, 3⟩, ⟨2, 2⟩]
        [⟨0, 2⟩, ⟨2, 2⟩])).incr_no_underflow = true) :=
  ⟨by decide,
   subindex_index_in_range [⟨0, 2⟩, ⟨1, 3⟩, ⟨2, 2⟩] [⟨0, 2⟩, ⟨2, 2⟩] 17 (by decide)
     (by decide) (by decide) (by decide)⟩

/-! ## Projection undoes embedding -/

/-- The embedded index of the `k`-th configuration of `sub`, divided by the
starting stride, projects back to `k`. -/
theorem embed_project (fs : List Variable) :
    ∀ (ss : List Variable) (d k : Nat), variable_set.canonical fs → ss.Sublist fs →
      (∀ f ∈ fs, 1 ≤ f.states) → k < (ss.map Variable.states).prod →
      ∃ e1, superindex.val (ss.map Variable.states) (superindex.strides fs ss d) k = d * e1 ∧
        ∀ a, subindex.proj fs ss a e1 = a * k := by
  induction fs with
  | nil =>
    intro ss d k _ hsub _ hk
    have : ss = [] := List.sublist_nil.mp hsub
    subst this
    simp only [List.map_nil, List.prod_nil, Nat.lt_one_iff] at hk
    subst hk
    exact ⟨0, by simp [superindex.val], fun a => by simp [subindex.proj]⟩
  | cons f fs ih =>
    intro ss d k hcan hsub hd hk
    have hcan' := canonical_tail hcan
    have h1 := hd f (List.mem_cons_self _ _)
    have hd' : ∀ g ∈ fs, 1 ≤ g.states := fun g hg => hd g (List.mem_cons_of_mem _ hg)
    cases ss with
    | nil =>
      simp only [List.map_nil, List.prod_nil, Nat.lt_one_iff] at hk
      subst hk
      exact ⟨0, by simp [superindex.val], fun a => by rw [subindex_proj_zero]; simp⟩
    | cons s ss =>
      by_cases heq : s.label = f.label
      · obtain ⟨hsf, hs⟩ := match_head hcan hsub heq
        subst hsf
        have he : Variable.eq s s = true := by simp [Variable.eq]
        simp only [List.map_cons, List.prod_cons] at hk
        have hq : k / s.states < (ss.map Variable.states).prod := Nat.div_lt_of_lt_mul hk
        obtain ⟨e1, hval, hproj⟩ := ih ss (d * s.states) (k / s.states) hcan' hs hd' hq
        have hdig : (if (ss.map Variable.states).isEmpty then k else k % s.states)
            = k % s.states := by
          split_ifs with hemp
          · have : ss.map Variable.states = [] := List.isEmpty_iff.mp hemp
            rw [this, List.prod_nil, Nat.mul_one] at hk
            exact (Nat.mod_eq_of_lt hk).symm
          · rfl
        refine ⟨k % s.states + s.states * e1, ?_, fun a => ?_⟩
        · simp only [List.map_cons, superindex.strides, he, if_true, superindex.val, hdig, hval]
          ring
        · have hm : (k % s.states + s.states * e1) % s.states = k % s.states := by
            rw [Nat.add_mul_mod_self_left, Nat.mod_mod]
          have hdv : (k % s.states + s.states * e1) / s.states = e1 := by
            rw [Nat.add_mul_div_left _ _ (by omega : 0 < s.states),
              Nat.div_eq_of_lt (Nat.mod_lt _ h1), Nat.zero_add]
          simp only [subindex.proj, he, Bool.not_true, Bool.false_eq_true, if_false,
            List.tail_cons, hm, hdv, hproj]
          have := Nat.mod_add_div k s.states
          calc k % s.states * a + a * s.states * (k / s.states)
              = a * (k % s.states + s.states * (k / s.states)) := by ring
            _ = a * k := by rw [this]
      · have hs := skip_head hsub heq
        have he : Variable.eq f s = false := by
          simp only [Variable.eq, beq_eq_false_iff_ne]; exact fun h => heq h.symm
        have he' : Variable.eq s f = false := by simp [Variable.eq, heq]
        obtain ⟨e1, hval, hproj⟩ := ih (s :: ss) (d * f.states) k hcan' hs hd' hk
        refine ⟨f.states * e1, ?_, fun a => ?_⟩
        · simp only [superindex.strides, he, Bool.false_eq_true, if_false, hval]
          ring
        · simp only [subindex.proj, he', Bool.not_false, if_true,
            Nat.mul_div_cancel_left _ (show 0 < f.states by omega), hproj]

/-- C18. Projection undoes embedding: for `k` below the number of
configurations of a non-empty `sub`, if `e` is the index read from
`superindex(full, sub, 0)` after `k` increments, then `subindex(full, sub)`
advanced `e` times reads `k`. -/
theorem subindex_undoes_superindex (full sub : variable_set) (k : Nat)
    (hcan : full.canonical) (hsub : full.contains sub) (hne : sub ≠ [])
    (hd : ∀ v ∈ full, 1 ≤ v.states) (hfit : full.num_states < wordSize)
    (hk : k < sub.num_states) :
    ∃ s, superindex.new full sub 0 = some s ∧
      (subindex.incr^[(superindex.incr^[k] s).toIndex] (subindex.new full sub)).toIndex = k := by
  obtain ⟨s, hs, _, _, _, _, hidx, _⟩ :=
    superindex_run full sub 0 hcan hsub hne hd (by omega)
  obtain ⟨e1, hval, hproj⟩ := embed_project full sub 1 k hcan hsub hd hk
  refine ⟨s, hs, ?_⟩
  rw [hidx k (le_of_lt hk), variable_set.dims, hval, subindex_iterate full sub hd hfit]
  simp only [subindex.toIndex, Nat.zero_add, Nat.one_mul, hproj]

/-- An instance of C18 over `full = [A(2), B(3), C(2)]`, `sub = [A, C]`,
`k = 3`; the embedded indices of the four configurations are `0, 1, 6, 7`. -/
theorem subindex_undoes_superindex_witness :
    ((superindex.new [⟨0, 2⟩, ⟨1, 3⟩, ⟨2, 2⟩] [⟨0, 2⟩, ⟨2, 2⟩] 0).map
        (fun s => (List.range 4).map (fun k => (superindex.incr^[k] s).toIndex))
      = some [0, 1, 6, 7]) ∧
    ∃ s, superindex.new [⟨0, 2⟩, ⟨1, 3⟩, ⟨2, 2⟩] [⟨0, 2⟩, ⟨2, 2⟩] 0 = some s ∧
      (subindex.incr^[(superindex.incr^[3] s).toIndex]
        (subindex.new [⟨0, 2⟩, ⟨1, 3⟩, ⟨2, 2⟩] [⟨0, 2⟩, ⟨2, 2⟩])).toIndex = 3 :=
  ⟨by decide,
   subindex_undoes_superindex [⟨0, 2⟩, ⟨1, 3⟩, ⟨2, 2⟩] [⟨0, 2⟩, ⟨2, 2⟩] 3 (by decide)
     (by decide) (by decide) (by decide) (by decide) (by decide)⟩

/-! ## `subindex`: the arrays built by the constructor -/

/-- For a variable of `full`, identity-based membership in a contained `sub`
is membership. -/
theorem mem_eq_decide {full sub : variable_set} (hcan : full.canonical)
    (hsub : full.contains sub) (v : Variable) (hv : v ∈ full) :
    sub.mem v = decide (v ∈ sub) := by
  by_cases h : v ∈ sub
  · rw [decide_eq_true h]
    exact (mem_iff sub v).mpr ⟨v, h, rfl⟩
  · rw [decide_eq_false h, Bool.eq_false_iff]
    intro hm
    obtain ⟨w, hw, hl⟩ := (mem_iff sub v).mp hm
    have : w = v := canonical_label_inj hcan w (hsub.subset hw) v hv hl
    exact h (this ▸ hw)

theorem subindex_loop_skipped (SUB : List Variable) (fs : List Variable) :
    ∀ (s : List Variable) (a e : Nat), variable_set.canonical fs → s.Sublist fs →
      (∀ g ∈ fs, variable_set.mem SUB g = variable_set.mem s g) →
      (subindex.loop fs s a e).skipped = fs.map (fun v => !variable_set.mem SUB v) ∧
      (subindex.loop fs s a e).skipped.count false = s.length := by
  induction fs with
  | nil =>
    intro s a e _ hsub _
    have : s = [] := List.sublist_nil.mp hsub
    subst this
    exact ⟨rfl, rfl⟩
  | cons f fs ih =>
    intro s a e hcan hsub hmem
    have hcan' := canonical_tail hcan
    have hmf := hmem f (List.mem_cons_self _ _)
    cases s with
    | nil =>
      have h0 : variable_set.mem [] f = false := rfl
      obtain ⟨h1, h2⟩ := ih [] (wmul a 1) (wmul e f.states) hcan' (List.nil_sublist _)
        (fun g hg => hmem g (List.mem_cons_of_mem _ hg))
      simp only [subindex.loop, if_true, List.map_cons, hmf, h0, Bool.not_false, h1]
      refine ⟨trivial, ?_⟩
      rw [← h1, List.count_cons_of_ne (by decide), h2]
    | cons w s =>
      by_cases heq : w.label = f.label
      · obtain ⟨hwf, hs⟩ := match_head hcan hsub heq
        subst hwf
        have hm : variable_set.mem (w :: s) w = true :=
          (mem_iff _ _).mpr ⟨w, List.mem_cons_self _ _, rfl⟩
        have he : Variable.eq w w = true := by simp [Variable.eq]
        obtain ⟨h1, h2⟩ := ih s (wmul a w.states) (wmul e w.states) hcan' hs (by
          intro g hg
          rw [hmem g (List.mem_cons_of_mem _ hg)]
          have hlt := canonical_head_lt hcan g hg
          simp only [variable_set.mem, List.any_cons, Variable.eq]
          have : (w.label == g.label) = false := by
            rw [beq_eq_false_iff_ne]; omega
          rw [this, Bool.false_or])
        simp only [subindex.loop, he, Bool.not_true, Bool.false_eq_true, if_false,
          List.tail_cons, List.map_cons, hmf, hm, h1]
        refine ⟨trivial, ?_⟩
        rw [← h1, List.count_cons_self, h2, List.length_cons]
      · have hs := skip_head hsub heq
        have hm : variable_set.mem (w :: s) f = false := sublist_tail_no_head hcan hs
        have he : Variable.eq w f = false := by simp [Variable.eq, heq]
        obtain ⟨h1, h2⟩ := ih (w :: s) (wmul a 1) (wmul e f.states) hcan' hs
          (fun g hg => hmem g (List.mem_cons_of_mem _ hg))
        simp only [subindex.loop, he, Bool.not_false, if_true, List.map_cons, hmf, hm, h1]
        refine ⟨trivial, ?_⟩
        rw [← h1, List.count_cons_of_ne (by decide), h2]

theorem subindex_loop_add (SUB : List Variable) (fs : List Variable) :
    ∀ (s : List Variable) (a e i : Nat), variable_set.canonical fs → s.Sublist fs →
      (∀ g ∈ fs, variable_set.mem SUB g = variable_set.mem s g) →
      (∀ f ∈ fs, 1 ≤ f.states) → a * (fs.map Variable.states).prod < wordSize →
      i < fs.length →
      (subindex.loop fs s a e).add[i]?
        = some (a * (((fs.take i).filter (fun v => variable_set.mem SUB v)).map
            Variable.states).prod) := by
  induction fs with
  | nil => intro s a e i _ _ _ _ _ hi; simp at hi
  | cons f fs ih =>
    intro s a e i hcan hsub hmem hd hfit hi
    have hcan' := canonical_tail hcan
    have hmf := hmem f (List.mem_cons_self _ _)
    have h1 := hd f (List.mem_cons_self _ _)
    have hd' : ∀ g ∈ fs, 1 ≤ g.states := fun g hg => hd g (List.mem_cons_of_mem _ hg)
    have hP := prod_states_pos fs hd'
    simp only [List.map_cons, List.prod_cons] at hfit
    have hP1 : (fs.map Variable.states).prod ≤ f.states * (fs.map Variable.states).prod :=
      Nat.le_mul_of_pos_left _ h1
    have hfs : f.states ≤ f.states * (fs.map Variable.states).prod :=
      Nat.le_mul_of_pos_right _ hP
    have haP : a * (fs.map Variable.states).prod
        ≤ a * (f.states * (fs.map Variable.states).prod) := Nat.mul_le_mul_left _ hP1
    have had : a * f.states ≤ a * (f.states * (fs.map Variable.states).prod) :=
      Nat.mul_le_mul_left _ hfs
    have hadP : a * f.states * (fs.map Variable.states).prod
        = a * (f.states * (fs.map Variable.states).prod) := Nat.mul_assoc _ _ _
    have ha1 : a ≤ a * f.states := Nat.le_mul_of_pos_right _ h1
    cases i with
    | zero => simp [subindex.loop]
    | succ i =>
      have hi' : i < fs.length := by simpa using hi
      cases s with
      | nil =>
        have h0 : variable_set.mem [] f = false := rfl
        have hwm : wmul a 1 = a := by rw [wmul_eq (by omega)]; simp
        have := ih [] a (wmul e f.states) i hcan' (List.nil_sublist _)
          (fun g hg => hmem g (List.mem_cons_of_mem _ hg)) hd' (by omega) hi'
        simp only [subindex.loop, if_true, hwm, List.getElem?_cons_succ, this,
          List.take_succ_cons, List.filter_cons, hmf, h0, Bool.false_eq_true, if_false]
      | cons w s =>
        by_cases heq : w.label = f.label
        · obtain ⟨hwf, hs⟩ := match_head hcan hsub heq
          subst hwf
          have hm : variable_set.mem (w :: s) w = true :=
            (mem_iff _ _).mpr ⟨w, List.mem_cons_self _ _, rfl⟩
          have he : Variable.eq w w = true := by simp [Variable.eq]
          have hwm : wmul a w.states = a * w.states := wmul_eq (by omega)
          have := ih s (a * w.states) (wmul e w.states) i hcan' hs (by
            intro g hg
            rw [hmem g (List.mem_cons_of_mem _ hg)]
            have hlt := canonical_head_lt hcan g hg
            simp only [variable_set.mem, List.any_cons, Variable.eq]
            have : (w.label == g.label) = false := by
              rw [beq_eq_false_iff_ne]; omega
            rw [this, Bool.false_or]) hd' (by omega) hi'
          simp only [subindex.loop, he, Bool.not_true, Bool.false_eq_true, if_false,
            List.tail_cons, hwm, List.getElem?_cons_succ, this, List.take_succ_cons,
            List.filter_cons, hmf, hm, if_true, List.map_cons, List.prod_cons, Nat.mul_assoc]
        · have hs := skip_head hsub heq
          have hm : variable_set.mem (w :: s) f = false := sublist_tail_no_head hcan hs
          have he : Variable.eq w f = false := by simp [Variable.eq, heq]
          have hwm : wmul a 1 = a := by rw [wmul_eq (by omega)]; simp
          have := ih (w :: s) a (wmul e f.states) i hcan' hs
            (fun g hg => hmem g (List.mem_cons_of_mem _ hg)) hd' (by omega) hi'
          simp only [subindex.loop, he, Bool.not_false, if_true, hwm, List.getElem?_cons_succ,
            this, List.take_succ_cons, List.filter_cons, hmf, hm, Bool.false_eq_true, if_false]

/-- C20. Skip flags of `subindex`: for a canonical `full` containing `sub`, the
single greedy pass of the constructor sets `m_skipped[i]` exactly when `full[i]`
does not occur in `sub`, so the positions that are not skipped are as many as
the variables of `sub`, and `m_add[i]` is the product of the domain sizes of
the variables of `sub` at the positions before `i`. -/
theorem subindex_skip_flags (full sub : variable_set)
    (hcan : full.canonical) (hsub : full.contains sub) :
    (subindex.new full sub).m_skipped = full.map (fun v => decide (v ∉ sub)) ∧
    (subindex.new full sub).m_skipped.count false = sub.nvar ∧
    ((∀ v ∈ full, 1 ≤ v.states) → full.num_states < wordSize →
      ∀ i, i < full.nvar →
        (subindex.new full sub).m_add[i]?
          = some (((full.take i).filter (fun v => decide (v ∈ sub))).map
              Variable.states).prod) := by
  obtain ⟨h1, h2⟩ := subindex_loop_skipped sub full sub 1 1 hcan hsub (fun _ _ => rfl)
  refine ⟨?_, h2, fun hd hfit i hi => ?_⟩
  · show (subindex.loop full sub 1 1).skipped = _
    rw [h1]
    apply List.map_congr_left
    intro v hv
    rw [mem_eq_decide hcan hsub v hv, decide_not]
  · have hfit' : 1 * (full.map Variable.states).prod < wordSize := by
      simpa [variable_set.num_states, variable_set.dims] using hfit
    have := subindex_loop_add sub full sub 1 1 i hcan hsub (fun _ _ => rfl) hd hfit' hi
    show (subindex.loop full sub 1 1).add[i]? = _
    rw [this, Nat.one_mul]
    congr 3
    apply List.filter_congr
    intro v hv
    exact mem_eq_decide hcan hsub v (List.mem_of_mem_take hv)

/-- An instance of C20 over `full = [A(2), B(3), C(2), D(5)]`, `sub = [A, C]`:
the flags are `[false, true, false, true]` and `m_add` is `[1, 2, 2, 4]`. -/
theorem subindex_skip_flags_witness :
    ((subindex.new [⟨0, 2⟩, ⟨1, 3⟩, ⟨2, 2⟩, ⟨3, 5⟩] [⟨0, 2⟩, ⟨2, 2⟩]).m_skipped
        = [false, true, false, true] ∧
      (subindex.new [⟨0, 2⟩, ⟨1, 3⟩, ⟨2, 2⟩, ⟨3, 5⟩] [⟨0, 2⟩, ⟨2, 2⟩]).m_add = [1, 2, 2, 4]) ∧
    ((subindex.new [⟨0, 2⟩, ⟨1, 3⟩, ⟨2, 2⟩, ⟨3, 5⟩] [⟨0, 2⟩, ⟨2, 2⟩]).m_skipped
        = List.map (fun v => decide (v ∉ ([⟨0, 2⟩, ⟨2, 2⟩] : variable_set)))
            [⟨0, 2⟩, ⟨1, 3⟩, ⟨2, 2⟩, ⟨3, 5⟩] ∧
      (subindex.new [⟨0, 2⟩, ⟨1, 3⟩, ⟨2, 2⟩, ⟨3, 5⟩] [⟨0, 2⟩, ⟨2, 2⟩]).m_skipped.count false
        = variable_set.nvar [⟨0, 2⟩, ⟨2, 2⟩] ∧
      ((∀ v ∈ ([⟨0, 2⟩, ⟨1, 3⟩, ⟨2, 2⟩, ⟨3, 5⟩] : variable_set), 1 ≤ v.states) →
        variable_set.num_states [⟨0, 2⟩, ⟨1, 3⟩, ⟨2, 2⟩, ⟨3, 5⟩] < wordSize →
        ∀ i, i < variable_set.nvar [⟨0, 2⟩, ⟨1, 3⟩, ⟨2, 2⟩, ⟨3, 5⟩] →
          (subindex.new [⟨0, 2⟩, ⟨1, 3⟩, ⟨2, 2⟩, ⟨3, 5⟩] [⟨0, 2⟩, ⟨2, 2⟩]).m_add[i]?
            = some (((List.take i ([⟨0, 2⟩, ⟨1, 3⟩, ⟨2, 2⟩, ⟨3, 5⟩] : variable_set)).filter
                (fun v => decide (v ∈ ([⟨0, 2⟩, ⟨2, 2⟩] : variable_set)))).map
                  Variable.states).prod)) :=
  ⟨by decide,
   subindex_skip_flags [⟨0, 2⟩, ⟨1, 3⟩, ⟨2, 2⟩, ⟨3, 5⟩] [⟨0, 2⟩, ⟨2, 2⟩] (by decide)
     (by decide)⟩

/-! ## `subindex`: cost of one full pass -/

theorem examined_cons (d : Nat) (ds : List Nat) (k : Nat) :
    subindex.examined (state_of (d :: ds) k) (d :: ds)
      = if k % d + 1 = d then 1 + subindex.examined (state_of ds (k / d)) ds else 1 := by
  simp [state_of, digits, subindex.examined]

theorem examined_block (d : Nat) (hd : 1 ≤ d) (ds : List Nat) (q : Nat) :
    Finset.sum (Finset.range d)
        (fun r => subindex.examined (state_of (d :: ds) (d * q + r)) (d :: ds))
      = d + subindex.examined (state_of ds q) ds := by
  obtain ⟨m, rfl⟩ : ∃ m, d = m + 1 := ⟨d - 1, by omega⟩
  rw [Finset.sum_range_succ]
  have hlow : Finset.sum (Finset.range m)
      (fun r => subindex.examined (state_of ((m + 1) :: ds) ((m + 1) * q + r)) ((m + 1) :: ds))
      = Finset.sum (Finset.range m) (fun _ => 1) := by
    apply Finset.sum_congr rfl
    intro r hr
    have hr' : r < m := Finset.mem_range.mp hr
    have hmod : ((m + 1) * q + r) % (m + 1) = r := by
      rw [Nat.mul_add_mod]; exact Nat.mod_eq_of_lt (by omega)
    rw [examined_cons, hmod, if_neg (by omega)]
  have hmod : ((m + 1) * q + m) % (m + 1) = m := by
    rw [Nat.mul_add_mod]; exact Nat.mod_eq_of_lt (by omega)
  have hdiv : ((m + 1) * q + m) / (m + 1) = q := by
    rw [Nat.mul_add_div (by omega), Nat.div_eq_of_lt (by omega), Nat.add_zero]
  rw [hlow, examined_cons, hmod, if_pos rfl, hdiv]
  simp only [Finset.sum_const, Finset.card_range, smul_eq_mul, Nat.mul_one]
  omega

theorem examined_blocks (d : Nat) (hd : 1 ≤ d) (ds : List Nat) :
    ∀ q, Finset.sum (Finset.range (d * q))
        (fun k => subindex.examined (state_of (d :: ds) k) (d :: ds))
      = d * q + Finset.sum (Finset.range q)
          (fun k => subindex.examined (state_of ds k) ds) := by
  intro q
  induction q with
  | zero => simp
  | succ q ih =>
    rw [Nat.mul_succ, Finset.sum_range_add, ih, examined_block d hd ds q,
      Finset.sum_range_succ]
    omega

/-- With domain sizes at least 2, one pass examines at most two positions per
increment on average. -/
theorem examined_pass_le (ds : List Nat) (h2 : ∀ d ∈ ds, 2 ≤ d) :
    Finset.sum (Finset.range ds.prod)
        (fun k => subindex.examined (state_of ds k) ds) ≤ 2 * ds.prod := by
  induction ds with
  | nil => simp [state_of, digits, subindex.examined]
  | cons d ds ih =>
    have hd := h2 d (List.mem_cons_self _ _)
    have := ih (fun x hx => h2 x (List.mem_cons_of_mem _ hx))
    rw [List.prod_cons, examined_blocks d (by omega) ds]
    have hmul : 2 * ds.prod ≤ d * ds.prod := Nat.mul_le_mul_right _ hd
    omega

theorem examined_ones (n : Nat) :
    subindex.examined (List.replicate n 1) (List.replicate n 1) = n := by
  induction n with
  | zero => rfl
  | succ n ih => simp [List.replicate_succ, subindex.examined, ih, Nat.add_comm]

theorem pass_cost_eq (full sub : variable_set) (hd : ∀ v ∈ full, 1 ≤ v.states)
    (hfit : full.num_states < wordSize) :
    subindex.pass_cost full sub
      = Finset.sum (Finset.range full.dims.prod)
          (fun k => subindex.examined (state_of full.dims k) full.dims) ∧
    (subindex.new full sub).end_ = full.dims.prod := by
  have hend : (subindex.new full sub).end_ = full.dims.prod := by
    have := subindex_loop_end full sub 1 1 hd (by simpa using hfit)
    simpa [subindex.end_, subindex.new, variable_set.dims] using this
  refine ⟨?_, hend⟩
  rw [subindex.pass_cost, hend]
  apply Finset.sum_congr rfl
  intro k _
  rw [subindex_iterate full sub hd hfit k]
  rfl

/-- C16 fails as stated: no constant bounds the cost of a pass by a multiple of
`end()` when domain sizes of 1 are allowed. Over `c + 1` variables of domain
size 1, `end()` is 1 and the single increment examines all `c + 1` positions. -/
theorem subindex_amortized_counterexample :
    ¬ ∃ c : Nat, ∀ (full sub : variable_set), full.canonical → full.contains sub →
      (∀ v ∈ full, 1 ≤ v.states) → full.num_states < wordSize →
      subindex.pass_cost full sub ≤ c * (subindex.new full sub).end_ := by
  rintro ⟨c, h⟩
  have hcan : variable_set.canonical ((List.range (c + 1)).map (fun l => (⟨l, 1⟩ : Variable))) := by
    unfold variable_set.canonical
    rw [List.pairwise_map]
    exact List.pairwise_lt_range _
  have hdims : variable_set.dims ((List.range (c + 1)).map (fun l => (⟨l, 1⟩ : Variable)))
      = List.replicate (c + 1) 1 := by
    simp only [variable_set.dims, List.map_map]
    rw [List.eq_replicate_iff]
    exact ⟨by simp, fun b hb => by
      obtain ⟨a, _, rfl⟩ := List.mem_map.mp hb
      rfl⟩
  have hd : ∀ v ∈ (List.range (c + 1)).map (fun l => (⟨l, 1⟩ : Variable)), 1 ≤ v.states := by
    intro v hv
    obtain ⟨a, _, rfl⟩ := List.mem_map.mp hv
    exact le_refl _
  have hprod : (List.replicate (c + 1) 1).prod = 1 := by simp
  have hfit : variable_set.num_states
      ((List.range (c + 1)).map (fun l => (⟨l, 1⟩ : Variable))) < wordSize := by
    rw [variable_set.num_states, hdims, hprod]; decide
  have := h _ [] hcan (List.nil_sublist _) hd hfit
  obtain ⟨hcost, hend⟩ := pass_cost_eq _ [] hd hfit
  rw [hcost, hend, hdims, hprod, Finset.sum_range_one] at this
  have hst : state_of (List.replicate (c + 1) 1) 0 = List.replicate (c + 1) 1 := by
    rw [state_of_zero]; simp
  rw [hst, examined_ones] at this
  omega

/-- C16, amended. With domain sizes at least 2 the constant 2 works: the
total number of digit positions examined by the `end()` increments of one full
pass from the constructed state is at most `2 * end()`. -/
theorem subindex_amortized (full sub : variable_set)
    (hd2 : ∀ v ∈ full, 2 ≤ v.states) (hfit : full.num_states < wordSize) :
    subindex.pass_cost full sub ≤ 2 * (subindex.new full sub).end_ := by
  have hd : ∀ v ∈ full, 1 ≤ v.states := fun v hv => le_trans (by decide) (hd2 v hv)
  obtain ⟨hcost, hend⟩ := pass_cost_eq full sub hd hfit
  rw [hcost, hend]
  apply examined_pass_le
  intro d hdm
  simp only [variable_set.dims, List.mem_map] at hdm
  obtain ⟨v, hv, rfl⟩ := hdm
  exact hd2 v hv

/-- An instance of the amended C16 over `full = [A(2), B(3), C(2)]`,
`sub = [A, C]`: the pass of 12 increments examines 20 positions. -/
theorem subindex_amortized_witness :
    subindex.pass_cost [⟨0, 2⟩, ⟨1, 3⟩, ⟨2, 2⟩] [⟨0, 2⟩, ⟨2, 2⟩] = 20 ∧
    subindex.pass_cost [⟨0, 2⟩, ⟨1, 3⟩, ⟨2, 2⟩] [⟨0, 2⟩, ⟨2, 2⟩]
      ≤ 2 * (subindex.new [⟨0, 2⟩, ⟨1, 3⟩, ⟨2, 2⟩] [⟨0, 2⟩, ⟨2, 2⟩]).end_ :=
  ⟨by decide,
   subindex_amortized [⟨0, 2⟩, ⟨1, 3⟩, ⟨2, 2⟩] [⟨0, 2⟩, ⟨2, 2⟩] (by decide) (by decide)⟩

/-! ## `permute_index`: the constructor with its reads checked -/

theorem insert_length_le (v : Variable) (ws : List Variable) :
    (variable_set.insert v ws).length ≤ ws.length + 1 := by
  induction ws with
  | nil => simp [variable_set.insert]
  | cons u ws ih =>
    simp only [variable_set.insert]
    split_ifs <;> simp only [List.length_cons] <;> omega

theorem insert_length_dup (v : Variable) (ws : List Variable)
    (hcan : variable_set.canonical ws) (h : ∃ w ∈ ws, w.label = v.label) :
    (variable_set.insert v ws).length = ws.length := by
  induction ws with
  | nil => obtain ⟨w, hw, _⟩ := h; simp at hw
  | cons u ws ih =>
    obtain ⟨w, hw, hwl⟩ := h
    have hu := canonical_head_lt hcan
    simp only [variable_set.insert]
    split_ifs with h1 h2
    · rcases List.mem_cons.mp hw with hwu | hwu
      · rw [hwu] at hwl; omega
      · have := hu w hwu; omega
    · rfl
    · have hw' : w ∈ ws := by
        rcases List.mem_cons.mp hw with hwu | hwu
        · rw [hwu] at hwl; exact absurd hwl.symm h2
        · exact hwu
      simp only [List.length_cons, ih (canonical_tail hcan) ⟨w, hw', hwl⟩]

theorem ofList_length_le (l : List Variable) : (variable_set.ofList l).length ≤ l.length := by
  induction l with
  | nil => simp [variable_set.ofList]
  | cons v l ih =>
    have := insert_length_le v (variable_set.ofList l)
    show (variable_set.insert v (variable_set.ofList l)).length ≤ l.length + 1
    omega

/-- The canonical collection of an order with a repeated variable has fewer
variables than the order. -/
theorem ofList_length_lt (l : List Variable) (h : ¬ distinct l) :
    (variable_set.ofList l).length < l.length := by
  induction l with
  | nil => exact absurd List.Pairwise.nil h
  | cons v l ih =>
    show (variable_set.insert v (variable_set.ofList l)).length < l.length + 1
    by_cases hv : ∀ w ∈ l, v.label ≠ w.label
    · have hl : ¬ distinct l := fun hd => h (List.pairwise_cons.mpr ⟨hv, hd⟩)
      have := ih hl
      have := insert_length_le v (variable_set.ofList l)
      omega
    · simp only [not_forall, not_not, exists_prop] at hv
      obtain ⟨w, hw, hwl⟩ := hv
      obtain ⟨w', hw', hwl'⟩ := ofList_label_mem l w hw
      rw [insert_length_dup v _ (ofList_canonical l) ⟨w', hw', by omega⟩]
      have := ofList_length_le l
      omega

theorem read_dims_none (vs : variable_set) :
    ∀ js : List Nat, (∃ j ∈ js, vs.length ≤ j) → permute_index.read_dims vs js = none := by
  intro js
  induction js with
  | nil => intro h; obtain ⟨j, hj, _⟩ := h; simp at hj
  | cons j js ih =>
    intro h
    by_cases hj : j < vs.length
    · obtain ⟨t, ht, htl⟩ := h
      have ht' : t ∈ js := by
        rcases List.mem_cons.mp ht with h1 | h1
        · omega
        · exact h1
      simp only [permute_index.read_dims, List.getElem?_eq_getElem hj, ih ⟨t, ht', htl⟩,
        Option.map_none']
    · simp only [permute_index.read_dims, List.getElem?_eq_none (by omega : vs.length ≤ j)]

theorem read_dims_some (vs : variable_set) :
    ∀ js : List Nat, (∀ j ∈ js, j < vs.length) →
      permute_index.read_dims vs js
        = some (js.map (fun j => (vs.getD j ⟨0, 0⟩).states)) := by
  intro js
  induction js with
  | nil => intro _; rfl
  | cons j js ih =>
    intro h
    have hj := h j (List.mem_cons_self _ _)
    simp only [permute_index.read_dims, List.getElem?_eq_getElem hj,
      ih (fun t ht => h t (List.mem_cons_of_mem _ ht)), Option.map_some', List.map_cons,
      List.getD_eq_getElem?_getD, Option.getD_some]

theorem find_checked_range' (v : Variable) (vs : variable_set) :
    ∀ m k, k + m = vs.length →
      permute_index.find_checked v vs (List.range' k m)
        = some (permute_index.find v (vs.drop k) k) := by
  intro m
  induction m with
  | zero =>
    intro k hk
    rw [List.drop_eq_nil_of_le (by omega)]
    rfl
  | succ m ih =>
    intro k hk
    have hlt : k < vs.length := by omega
    rw [List.range'_succ, List.drop_eq_getElem_cons hlt]
    simp only [permute_index.find_checked, List.getElem?_eq_getElem hlt, permute_index.find]
    split_ifs with he
    · rfl
    · exact ih (k + 1) (by omega)

theorem find_checked_eq (v : Variable) (vs : variable_set) :
    permute_index.find_checked v vs (List.range vs.length)
      = some (permute_index.find v vs 0) := by
  have := find_checked_range' v vs vs.length 0 (by omega)
  rwa [← List.range_eq_range', List.drop_zero] at this

theorem fill_checked_eq (order : List Variable) (vs : variable_set) (be : Bool)
    (hlen : vs.length = order.length) :
    ∀ (js : List Nat) (pi : List Nat), (∀ j ∈ js, j < order.length) →
      permute_index.fill_checked order vs be js pi
        = some (js.foldl
            (fun (pi : List Nat) j =>
              let jj := if be then order.length - 1 - j else j
              match permute_index.find (order.getD j ⟨0, 0⟩) vs 0 with
              | some k => pi.set jj k
              | none => pi) pi) := by
  intro js
  induction js with
  | nil => intro pi _; rfl
  | cons j js ih =>
    intro pi h
    have hj := h j (List.mem_cons_self _ _)
    have h' : ∀ t ∈ js, t < order.length := fun t ht => h t (List.mem_cons_of_mem _ ht)
    have hfc := find_checked_eq (order[j]) vs
    rw [hlen] at hfc
    have hget : order.getD j ⟨0, 0⟩ = order[j] := by
      simp [List.getD_eq_getElem?_getD, List.getElem?_eq_getElem hj]
    simp only [permute_index.fill_checked, List.getElem?_eq_getElem hj, hfc, List.foldl_cons,
      hget]
    cases hf : permute_index.find order[j] vs 0 with
    | none => exact ih pi h'
    | some k => exact ih _ h'

/-- Where no read is out of range the checked constructor returns the cursor
of `permute_index.new`. -/
theorem new_checked_of_length (order : List Variable) (be : Bool)
    (hlen : (variable_set.ofList order).length = order.length) :
    permute_index.new_checked order be = some (permute_index.new order be) := by
  have h1 := read_dims_some (variable_set.ofList order) (List.range order.length)
    (fun j hj => by rw [hlen]; exact List.mem_range.mp hj)
  have h2 := fill_checked_eq order (variable_set.ofList order) be hlen
    (List.range order.length) (List.replicate order.length 0)
    (fun j hj => List.mem_range.mp hj)
  simp only [permute_index.new_checked, h1, h2, permute_index.new]

/-- On pairwise distinct variables every read of the constructor is in range
and it returns the cursor of `permute_index.new`. -/
theorem new_checked_of_distinct (order : List Variable) (be : Bool) (hdist : distinct order) :
    permute_index.new_checked order be = some (permute_index.new order be) :=
  new_checked_of_length order be (ofList_perm order hdist).length_eq

/-- On an order with a repeated variable the constructor reads `_vs[j]` out of
range, whatever `big_endian`. -/
theorem new_checked_of_duplicate (order : List Variable) (be : Bool) (hdup : ¬ distinct order) :
    permute_index.new_checked order be = none := by
  have hlt := ofList_length_lt order hdup
  have h1 := read_dims_none (variable_set.ofList order) (List.range order.length)
    ⟨order.length - 1, List.mem_range.mpr (by omega), by omega⟩
  simp only [permute_index.new_checked, h1]

/-- C12 at its failing input: over `order = [A(2), A(2)]` no precondition
failure is raised; the canonical collection has one variable and the loop
`m_dim[j] = _vs[j].states()` reads `_vs[1]` out of range, for either value of
`big_endian`. -/
theorem permute_index_duplicate_reads_out_of_range :
    ¬ distinct [(⟨0, 2⟩ : Variable), ⟨0, 2⟩] ∧
    (variable_set.ofList [⟨0, 2⟩, ⟨0, 2⟩]).nvar = 1 ∧
    permute_index.read_dims (variable_set.ofList [⟨0, 2⟩, ⟨0, 2⟩])
      (List.range (List.length [(⟨0, 2⟩ : Variable), ⟨0, 2⟩])) = none ∧
    permute_index.new_checked [⟨0, 2⟩, ⟨0, 2⟩] false = none ∧
    permute_index.new_checked [⟨0, 2⟩, ⟨0, 2⟩] true = none := by
  decide

/-! ## `permute_index`: `inverse` with its divisions checked -/

theorem decompose_checked_eq (ds : List Nat) :
    ∀ i, (∀ d ∈ ds, 1 ≤ d) →
      permute_index.decompose_checked ds i = some (permute_index.decompose ds i) := by
  induction ds with
  | nil => intro i _; rfl
  | cons d ds ih =>
    intro i hd
    have h1 := hd d (List.mem_cons_self _ _)
    have hne : ¬ d = 0 := by omega
    simp only [permute_index.decompose_checked, permute_index.decompose, if_neg hne,
      ih _ (fun x hx => hd x (List.mem_cons_of_mem _ hx)), Option.map_some']

theorem decompose_checked_zero (ds : List Nat) :
    ∀ i, 0 ∈ ds → permute_index.decompose_checked ds i = none := by
  induction ds with
  | nil => intro i h; simp at h
  | cons d ds ih =>
    intro i h
    by_cases hd : d = 0
    · simp only [permute_index.decompose_checked, if_pos hd]
    · have h' : 0 ∈ ds := by
        rcases List.mem_cons.mp h with h0 | h0
        · exact absurd h0.symm hd
        · exact h0
      simp only [permute_index.decompose_checked, if_neg hd, ih _ h', Option.map_none']

/-- With domain sizes that are not 0, `inverse` divides by no zero and returns
the cursor of `permute_index.inverse`. -/
theorem inverse_checked_eq (p : permute_index) (hd : ∀ d ∈ p.m_dim, 1 ≤ d) :
    p.inverse_checked = some p.inverse := by
  simp only [permute_index.inverse_checked, permute_index.convert_checked,
    decompose_checked_eq p.m_dim p.m_i hd, Option.map_some', permute_index.inverse,
    permute_index.toIndex, permute_index.convert]

/-- With a domain size of 0, `inverse` divides by zero and returns no cursor. -/
theorem inverse_checked_zero (p : permute_index) (h0 : 0 ∈ p.m_dim) :
    p.inverse_checked = none := by
  simp only [permute_index.inverse_checked, permute_index.convert_checked,
    decompose_checked_zero p.m_dim p.m_i h0, Option.map_none']

theorem new_dims_pos (order : List Variable) (be : Bool) (hdist : distinct order)
    (hd : ∀ v ∈ order, 1 ≤ v.states) : ∀ d ∈ (permute_index.new order be).m_dim, 1 ≤ d := by
  rw [new_dim order be hdist]
  intro d hdm
  simp only [variable_set.dims, List.mem_map] at hdm
  obtain ⟨v, hv, rfl⟩ := hdm
  exact hd v ((ofList_perm order hdist).subset hv)

/-- C15, amended. For a cursor `p` built from pairwise distinct variables with
domain sizes at least 1 and set to `i`, `p.inverse()` returns a cursor whose
cursor value is `p.convert(i)` (not `i`), whose `m_pi` is the functional
inverse of `p`'s (`inv.pi[p.pi[j]] = j`) and with `inv.dim[j] = p.dim[p.pi[j]]`;
when `i < num_states` fits a `size_t`, the inverse read as an index gives back
`i`. -/
theorem permute_index_inverse_cursor (order : List Variable) (big_endian : Bool) (i : Nat)
    (hdist : distinct order) (hd : ∀ v ∈ order, 1 ≤ v.states) :
    ∃ inv, ((permute_index.new order big_endian).set i).inverse_checked = some inv ∧
      inv = ((permute_index.new order big_endian).set i).inverse ∧
      inv.m_i = ((permute_index.new order big_endian).set i).convert i ∧
      (∀ j, j < order.length →
        inv.m_pi[((permute_index.new order big_endian).set i).m_pi.getD j 0]? = some j) ∧
      (∀ j, j < order.length →
        inv.m_dim[j]?
          = some (((permute_index.new order big_endian).set i).m_dim.getD
              (((permute_index.new order big_endian).set i).m_pi.getD j 0) 0)) ∧
      ((variable_set.ofList order).num_states < wordSize →
        i < (variable_set.ofList order).num_states → inv.toIndex = i) := by
  have hdp : ∀ d ∈ ((permute_index.new order big_endian).set i).m_dim, 1 ≤ d :=
    new_dims_pos order big_endian hdist hd
  refine ⟨_, inverse_checked_eq _ hdp, rfl, ?_⟩
  have hperm : ((permute_index.new order big_endian).set i).m_pi.Perm
      (List.range ((permute_index.new order big_endian).set i).m_dim.length) :=
    new_perm order big_endian hdist
  have hlen : ((permute_index.new order big_endian).set i).m_dim.length = order.length := by
    show (permute_index.new order big_endian).m_dim.length = _
    rw [new_dim order big_endian hdist]
    simp [variable_set.dims, (ofList_perm order hdist).length_eq]
  have hlenpi : ((permute_index.new order big_endian).set i).m_pi.length = order.length := by
    rw [← hlen]; simpa using hperm.length_eq
  obtain ⟨hdim, _, hinv, hmi⟩ := inverse_spec_of_perm _ hperm
  refine ⟨hmi, fun j hj => hinv j (by rw [hlen]; exact hj), fun j hj => ?_, fun hfit hi => ?_⟩
  · rw [hdim, List.getElem?_map, List.getElem?_eq_getElem (by rw [hlenpi]; exact hj)]
    simp [List.getD_eq_getElem?_getD, List.getElem?_eq_getElem (hlenpi ▸ hj)]
  · have hwf : ((permute_index.new order big_endian).set i).wf :=
      new_wf order big_endian hdist hd hfit
    have hN : ((permute_index.new order big_endian).set i).m_dim.prod
        = (variable_set.ofList order).num_states := by
      show (permute_index.new order big_endian).m_dim.prod = _
      rw [new_dim order big_endian hdist]; rfl
    rw [permute_index.toIndex, hmi]
    exact inverse_convert_convert _ hwf i (by rw [hN]; exact hi)

/-- An instance of the amended C15 over `order = [A(2), B(3)]`, big-endian,
cursor 1: the inverse is returned with cursor 3, arrays `[1, 0]` and `[3, 2]`;
with a domain size of 0 no cursor is returned. -/
theorem permute_index_inverse_cursor_witness :
    (((permute_index.new [⟨0, 2⟩, ⟨1, 3⟩] true).set 1).inverse_checked
        = some ⟨3, [1, 0], [3, 2]⟩ ∧
      ((permute_index.new [⟨0, 0⟩, ⟨1, 3⟩] false).set 1).inverse_checked = none) ∧
    ∃ inv, ((permute_index.new [⟨0, 2⟩, ⟨1, 3⟩] true).set 1).inverse_checked = some inv ∧
      inv = ((permute_index.new [⟨0, 2⟩, ⟨1, 3⟩] true).set 1).inverse ∧
      inv.m_i = ((permute_index.new [⟨0, 2⟩, ⟨1, 3⟩] true).set 1).convert 1 ∧
      (∀ j, j < List.length [(⟨0, 2⟩ : Variable), ⟨1, 3⟩] →
        inv.m_pi[((permute_index.new [⟨0, 2⟩, ⟨1, 3⟩] true).set 1).m_pi.getD j 0]?
          = some j) ∧
      (∀ j, j < List.length [(⟨0, 2⟩ : Variable), ⟨1, 3⟩] →
        inv.m_dim[j]?
          = some (((permute_index.new [⟨0, 2⟩, ⟨1, 3⟩] true).set 1).m_dim.getD
              (((permute_index.new [⟨0, 2⟩, ⟨1, 3⟩] true).set 1).m_pi.getD j 0) 0)) ∧
      ((variable_set.ofList [⟨0, 2⟩, ⟨1, 3⟩]).num_states < wordSize →
        1 < (variable_set.ofList [⟨0, 2⟩, ⟨1, 3⟩]).num_states → inv.toIndex = 1) :=
  ⟨by decide, permute_index_inverse_cursor [⟨0, 2⟩, ⟨1, 3⟩] true 1 (by decide) (by decide)⟩

end merlin
